import Mathlib

/-!
# difof/collection: Map, SafeMap and Slice

A shallow embedding of `c_map.go`, `c_safe_map.go` and `c_slice.go`.

Go values that are references (a `map[K]V`, the backing array of a slice,
a `*Map`, a `*SafeMap`, a `*Slice`) live in an explicit heap and are named
by their address, so that sharing between two containers can be expressed.
A method takes the heap it runs in and returns its result together with
the heap it leaves behind; a run-time panic is a `Fault` result.

`Tuple`, the iterator types, the linked lists, `Find` and `OrderBy` are
declared in files that are not among the sources; they are given here as the
specification describes them, and each such definition says so.
-/

set_option linter.dupNamespace false

namespace GoColl

/-! ## Run-time failures -/

/-- The ways a call can fail to return: the Go run-time panics, an explicit
`panic(msg)`, and `blocked` for a `Lock()` on a mutex that is held when no
other worker can release it. -/
inductive Fault where
  | nilDeref
  | indexOutOfRange
  | sliceBounds
  | blocked
  | panicMsg (msg : String)
  deriving DecidableEq, Repr

/-- An address in a heap. -/
abbrev Ptr := Nat

/-! ## Tuple -/

/-- Modelled from the spec: the file declaring `Tuple` is not among the
sources. Section 3 describes it as an ordered key/value pair that is
immutable after construction; the sources use `NewTuple`, `Key()` and
`Value()` only. -/
structure Tuple (K V : Type) where
  key : K
  value : V
  deriving DecidableEq, Repr

/-- Modelled from the spec: `NewTuple(k, v)` builds the pair. -/
def NewTuple {K V : Type} (k : K) (v : V) : Tuple K V := ⟨k, v⟩

/-- Modelled from the spec: `Key()` of a tuple. -/
def Tuple.Key {K V : Type} (t : Tuple K V) : K := t.key

/-- Modelled from the spec: `Value()` of a tuple. -/
def Tuple.Value {K V : Type} (t : Tuple K V) : V := t.value

/-! ## The built-in `map[K]V` -/

/-- Go's `==` on a key type, which is what a map compares keys with. It is
symmetric and transitive. It need not be reflexive: a floating-point NaN is
not `==` to itself. It can hold between values that differ: `+0` and `-0`.
Key types are the strictly comparable ones, whose `==` cannot panic. -/
class GoKey (K : Type) where
  eq : K → K → Bool
  symm : ∀ a b, eq a b = true → eq b a = true
  trans : ∀ a b c, eq a b = true → eq b c = true → eq a c = true

/-- `==` on a type where it is plain equality. -/
def GoKey.ofDecidableEq (K : Type) [DecidableEq K] : GoKey K where
  eq := fun a b => decide (a = b)
  symm := by
    intro a b h
    have : a = b := of_decide_eq_true h
    simp [this]
  trans := by
    intro a b c h1 h2
    have e1 : a = b := of_decide_eq_true h1
    have e2 : b = c := of_decide_eq_true h2
    simp [e1, e2]

instance : GoKey Nat := GoKey.ofDecidableEq Nat

instance : GoKey Int := GoKey.ofDecidableEq Int

instance : GoKey String := GoKey.ofDecidableEq String

/-- The part of Go's `float64` used as a key here: NaN and the whole
numbers. -/
inductive GoFloat where
  | nan
  | num (x : Int)
  deriving DecidableEq, Repr

/-- `==` on floats: NaN is `==` to nothing, itself included. -/
def GoFloat.eq : GoFloat → GoFloat → Bool
  | .num x, .num y => decide (x = y)
  | _, _ => false

instance : GoKey GoFloat where
  eq := GoFloat.eq
  symm := by
    intro a b h
    cases a <;> cases b <;> simp_all [GoFloat.eq]
  trans := by
    intro a b c h1 h2
    cases a <;> cases b <;> cases c <;> simp_all [GoFloat.eq]

instance : Inhabited GoFloat := ⟨GoFloat.num 0⟩

section GoMapDefs

variable {K V : Type} [GoKey K]

theorem GoKey.eq_false_symm (a b : K) (h : GoKey.eq a b = false) : GoKey.eq b a = false := by
  cases hb : GoKey.eq b a with
  | false => rfl
  | true =>
    have := GoKey.symm b a hb
    rw [h] at this
    exact absurd this (by simp)

/-- The value stored under a key `==` to `k` in an entry list, if any. -/
def lookupKey (k : K) : List (K × V) → Option V
  | [] => none
  | (a, w) :: l => if GoKey.eq a k then some w else lookupKey k l

/-- Entry list after `m[k] = v`: the entry whose key is `==` to `k` is
overwritten where it stands, or a new entry is added. -/
def storeKey (k : K) (v : V) : List (K × V) → List (K × V)
  | [] => [(k, v)]
  | (a, w) :: l => if GoKey.eq a k then (k, v) :: l else (a, w) :: storeKey k v l

/-- Entry list after `delete(m, k)`: the entry whose key is `==` to `k` is
removed. -/
def eraseKey (k : K) : List (K × V) → List (K × V)
  | [] => []
  | (a, w) :: l => if GoKey.eq a k then eraseKey k l else (a, w) :: eraseKey k l

/-- The keys of an entry list. -/
def keysOf (l : List (K × V)) : List K := l.map Prod.fst

/-- No two keys of the entry list are `==`. -/
def KeysApart (l : List (K × V)) : Prop :=
  (keysOf l).Pairwise (fun a b => GoKey.eq a b = false)

theorem mem_keysOf_storeKey (k : K) (v : V) (a : K) (l : List (K × V))
    (h : a ∈ keysOf (storeKey k v l)) : a = k ∨ a ∈ keysOf l := by
  induction l with
  | nil => simpa [storeKey, keysOf] using h
  | cons p l ih =>
    obtain ⟨b, w⟩ := p
    by_cases hb : GoKey.eq b k = true
    · simp only [storeKey, hb, if_true, keysOf, List.map_cons, List.mem_cons] at h
      rcases h with h | h
      · exact Or.inl h
      · exact Or.inr (by simp only [keysOf, List.map_cons, List.mem_cons]; exact Or.inr h)
    · simp only [storeKey, hb, Bool.false_eq_true, if_false, keysOf, List.map_cons, List.mem_cons] at h
      simp only [keysOf, List.map_cons, List.mem_cons]
      rcases h with h | h
      · exact Or.inr (Or.inl h)
      · rcases ih h with h1 | h1
        · exact Or.inl h1
        · exact Or.inr (Or.inr h1)

theorem apart_storeKey (k : K) (v : V) (l : List (K × V)) (h : KeysApart l) :
    KeysApart (storeKey k v l) := by
  induction l with
  | nil => simp [storeKey, KeysApart, keysOf]
  | cons p l ih =>
    obtain ⟨b, w⟩ := p
    simp only [KeysApart, keysOf, List.map_cons, List.pairwise_cons] at h
    by_cases hb : GoKey.eq b k = true
    · simp only [storeKey, hb, if_true, KeysApart, keysOf, List.map_cons, List.pairwise_cons]
      refine ⟨?_, h.2⟩
      intro c hc
      cases hkc : GoKey.eq k c with
      | false => rfl
      | true =>
        have := GoKey.trans b k c hb hkc
        rw [h.1 c hc] at this
        exact absurd this (by simp)
    · have hb' : GoKey.eq b k = false := by simpa using hb
      simp only [storeKey, hb, Bool.false_eq_true, if_false, KeysApart, keysOf, List.map_cons,
        List.pairwise_cons]
      refine ⟨?_, ih h.2⟩
      intro c hc
      rcases mem_keysOf_storeKey k v c l hc with h1 | h1
      · rw [h1]; exact hb'
      · exact h.1 c h1

theorem keysOf_eraseKey_sublist (k : K) (l : List (K × V)) :
    (keysOf (eraseKey k l)).Sublist (keysOf l) := by
  induction l with
  | nil => exact List.Sublist.refl _
  | cons p l ih =>
    obtain ⟨b, w⟩ := p
    by_cases hb : GoKey.eq b k = true
    · simp only [eraseKey, hb, if_true, keysOf, List.map_cons]
      exact List.Sublist.cons _ ih
    · simp only [eraseKey, hb, Bool.false_eq_true, if_false, keysOf, List.map_cons]
      exact List.Sublist.cons₂ _ ih

theorem apart_eraseKey (k : K) (l : List (K × V)) (h : KeysApart l) :
    KeysApart (eraseKey k l) :=
  List.Pairwise.sublist (keysOf_eraseKey_sublist k l) h

/-- A value of the Go type `map[K]V` (the hash table itself): finitely many
entries, no two of them with keys that are `==`. The order of `entries` is a
matter of representation; `range` does not follow it (see `RangeOrder`). -/
structure GoMap (K V : Type) [GoKey K] where
  entries : List (K × V)
  apart : KeysApart entries

/-- A fresh table: `make(map[K]V)`. -/
def GoMap.empty : GoMap K V := ⟨[], by simp [KeysApart, keysOf]⟩

/-- Plain indexing `m[k]` as an optional value. -/
def GoMap.lookup (t : GoMap K V) (k : K) : Option V := lookupKey k t.entries

/-- The comma-ok form `v, ok = m[k]`: a missing key gives the zero value of
`V` and `false`. -/
def GoMap.index [Inhabited V] (t : GoMap K V) (k : K) : V × Bool :=
  match t.lookup k with
  | some v => (v, true)
  | none => (default, false)

/-- The assignment `m[k] = v`. -/
def GoMap.store (t : GoMap K V) (k : K) (v : V) : GoMap K V :=
  ⟨storeKey k v t.entries, apart_storeKey k v t.entries t.apart⟩

/-- The built-in `delete(m, k)`. -/
def GoMap.delete (t : GoMap K V) (k : K) : GoMap K V :=
  ⟨eraseKey k t.entries, apart_eraseKey k t.entries t.apart⟩

/-- The built-in `len(m)`. -/
def GoMap.len (t : GoMap K V) : Nat := t.entries.length

/-- The keys held by a table. -/
def GoMap.keys (t : GoMap K V) : List K := keysOf t.entries

/-- The order in which one `range` statement over a map visits the entries.
Go leaves it unspecified, so it is a parameter of every function that
ranges over a map: any rearrangement of the entries. -/
structure RangeOrder (K V : Type) where
  order : List (K × V) → List (K × V)
  perm : ∀ l, (order l).Perm l

/-- The order that follows the representation. -/
def RangeOrder.id : RangeOrder K V := ⟨fun l => l, fun l => List.Perm.refl l⟩

/-- The order that reverses the representation. -/
def RangeOrder.rev : RangeOrder K V := ⟨List.reverse, fun l => List.reverse_perm l⟩

/-- The entries of a table as one `range` statement meets them. -/
def GoMap.range (ρ : RangeOrder K V) (t : GoMap K V) : List (K × V) := ρ.order t.entries

end GoMapDefs

/-! ## Heap of maps -/

/-- A `SafeMap` struct: the embedded `Map` struct, named by the address it
was built at, and the state of the mutex (`true`: held). -/
structure SafeMapObj where
  m : Ptr
  lock : Bool
  deriving DecidableEq, Repr

/-- A call of `Lock()` or `Unlock()` on the mutex of the `SafeMap` at the
given address. -/
inductive LockEvent where
  | acquire (mu : Ptr)
  | release (mu : Ptr)
  deriving DecidableEq, Repr

/-- The heap that maps live in. `tables` are the hash tables, `maps` the
`Map` structs (each holds in its field `m` the address of a table),
`safeMaps` the `SafeMap` structs. `log` records the mutex calls made so
far. -/
structure Heap (K V : Type) [GoKey K] where
  tables : List (GoMap K V)
  maps : List Ptr
  safeMaps : List SafeMapObj
  log : List LockEvent

/-- A value of the interface type `Collection`: the dynamic type and the
address of the struct. -/
inductive Collection where
  | ofMap (p : Ptr)
  | ofSafeMap (p : Ptr)
  | ofSlice (p : Ptr)
  | ofForwardLinkedList (p : Ptr)
  | ofDoubleLinkedList (p : Ptr)
  deriving DecidableEq, Repr

/-- What a producer worker does that its surroundings can see. -/
inductive Event (E : Type) where
  | lock
  | unlock
  | handoff (e : E)
  | cancelObserved
  | iterationDone
  deriving DecidableEq, Repr

/-- The loop shared by the three `IterHandler` bodies,
`for ... { select { case <-iter.Done(): return; case iter.NextChannel() <- e: } }`
followed by `iter.IterationDone()`. A `select` waits until one of its two
cases can proceed; which one does is decided outside the producer, and
`cancelled i` says whether the `select` of round `i` takes the `Done()`
case. The result lists what the producer did, in order. -/
def produce {E : Type} (cancelled : Nat → Bool) : Nat → List E → List (Event E)
  | _, [] => [Event.iterationDone]
  | i, e :: es =>
    if cancelled i then [Event.cancelObserved]
    else Event.handoff e :: produce cancelled (i + 1) es

/-- Modelled from the spec: the interface `Iterable` is declared in a file
that is not among the sources. Section 4.1: the Iterable supplies a start
routine that launches a producer worker; the sources implement it as the
method `IterHandler`. The routine is given the cancellation choices and the
heap the worker runs in. -/
structure Iterable (σ E : Type) where
  IterHandler : (Nat → Bool) → σ → Except Fault (List (Event E)) × σ

/-- Modelled from the spec: the type `Iterator` is declared in a file that is
not among the sources. An iteration session is identified with the run of
the producer worker bound to it. -/
structure Iterator (σ E : Type) where
  producer : (Nat → Bool) → σ → Except Fault (List (Event E)) × σ

/-- Modelled from the spec: `NewIterator` is defined in a file that is not
among the sources. Section 4.1: it returns an Iterator bound to the given
Iterable, whose start routine launches the producer worker. -/
def NewIterator {σ E : Type} (it : Iterable σ E) : Iterator σ E :=
  ⟨it.IterHandler⟩

section MapDefs

variable {K V : Type} [GoKey K]

/-- The heap with nothing allocated. -/
def Heap.empty : Heap K V := ⟨[], [], [], []⟩

/-- The table behind the `Map` struct at `m`: the value of `m.m`. -/
def Heap.table (h : Heap K V) (m : Ptr) : Option (GoMap K V) :=
  match h.maps[m]? with
  | none => none
  | some t => h.tables[t]?

/-- Writes a table back through the `Map` struct at `m` (the effect of an
in-place update of `m.m`). -/
def Heap.putTable (h : Heap K V) (m : Ptr) (f : GoMap K V → GoMap K V) :
    Except Fault Unit × Heap K V :=
  match h.maps[m]? with
  | none => (.error .nilDeref, h)
  | some t =>
    match h.tables[t]? with
    | none => (.error .nilDeref, h)
    | some tb => (.ok (), { h with tables := h.tables.set t (f tb) })

/-- The table `NewMap` fills: the items are stored first to last. -/
def fillTable (items : List (Tuple K V)) : GoMap K V :=
  items.foldl (fun t item => t.store item.Key item.Value) GoMap.empty

/-- `NewMap(items...)`: a new table and a new struct holding it. -/
def NewMap (items : List (Tuple K V)) (h : Heap K V) : Ptr × Heap K V :=
  let m : GoMap K V := if items.length > 0 then fillTable items else GoMap.empty
  (h.maps.length,
    { h with tables := h.tables ++ [m], maps := h.maps ++ [h.tables.length] })

/-- `AsMap(c)`: the type assertion `c.(*Map[K, V])`. -/
def AsMap (c : Collection) : Except Fault Ptr :=
  match c with
  | .ofMap p => .ok p
  | _ => .error (.panicMsg "interface conversion")

/-- `Map.Get`. -/
def Map.Get [Inhabited V] (m : Ptr) (key : K) (h : Heap K V) : Except Fault (V × Bool) :=
  match h.table m with
  | none => .error .nilDeref
  | some tb => .ok (tb.index key)

/-- `Map.Set`. -/
def Map.Set (m : Ptr) (key : K) (val : V) (h : Heap K V) : Except Fault Unit × Heap K V :=
  h.putTable m (fun tb => tb.store key val)

/-- `Map.SetElem`. -/
def Map.SetElem (m : Ptr) (elem : Tuple K V) (h : Heap K V) : Except Fault Unit × Heap K V :=
  Map.Set m elem.Key elem.Value h

/-- `Map.AppendElem`. -/
def Map.AppendElem (m : Ptr) (elem : Tuple K V) (h : Heap K V) :
    Except Fault Unit × Heap K V :=
  Map.SetElem m elem h

/-- `Map.Delete`. -/
def Map.Delete (m : Ptr) (key : K) (h : Heap K V) : Except Fault Unit × Heap K V :=
  h.putTable m (fun tb => tb.delete key)

/-- `Map.Len`. -/
def Map.Len (m : Ptr) (h : Heap K V) : Except Fault Nat :=
  match h.table m with
  | none => .error .nilDeref
  | some tb => .ok tb.len

/-- `Map.Cap`. -/
def Map.Cap (m : Ptr) (h : Heap K V) : Except Fault Nat :=
  Map.Len m h

/-- `Map.Values`: a new slice, filled in range order. -/
def Map.Values (ρ : RangeOrder K V) (m : Ptr) (h : Heap K V) : Except Fault (List V) :=
  match h.table m with
  | none => .error .nilDeref
  | some tb => .ok ((tb.range ρ).map Prod.snd)

/-- `Map.Keys`: a new slice, filled in range order. -/
def Map.Keys (ρ : RangeOrder K V) (m : Ptr) (h : Heap K V) : Except Fault (List K) :=
  match h.table m with
  | none => .error .nilDeref
  | some tb => .ok ((tb.range ρ).map Prod.fst)

/-- `Map.Clear`: the struct is given a new, empty table. -/
def Map.Clear (m : Ptr) (h : Heap K V) : Except Fault Unit × Heap K V :=
  match h.maps[m]? with
  | none => (.error .nilDeref, h)
  | some _ =>
    (.ok (), { h with tables := h.tables ++ [GoMap.empty],
                      maps := h.maps.set m h.tables.length })

/-- `Map.HasKey`. -/
def Map.HasKey (m : Ptr) (key : K) (h : Heap K V) : Except Fault Bool :=
  match h.table m with
  | none => .error .nilDeref
  | some tb => .ok (tb.lookup key).isSome

/-- `Map.IsEmpty`. -/
def Map.IsEmpty (m : Ptr) (h : Heap K V) : Except Fault Bool :=
  match h.table m with
  | none => .error .nilDeref
  | some tb => .ok (tb.len == 0)

/-- `Map.IterHandler`: the body of the worker it starts, run in heap `h`. -/
def Map.IterHandler (ρ : RangeOrder K V) (m : Ptr) (cancelled : Nat → Bool) (h : Heap K V) :
    Except Fault (List (Event (Tuple K V))) × Heap K V :=
  match h.table m with
  | none => (.error .nilDeref, h)
  | some tb => (.ok (produce cancelled 0 ((tb.range ρ).map (fun e => NewTuple e.1 e.2))), h)

/-- `Map.AsIterable`: the `*Map` itself, as an `Iterable`. -/
def Map.AsIterable (ρ : RangeOrder K V) (m : Ptr) : Iterable (Heap K V) (Tuple K V) :=
  ⟨Map.IterHandler ρ m⟩

/-- `Map.Iter`. -/
def Map.Iter (ρ : RangeOrder K V) (m : Ptr) : Iterator (Heap K V) (Tuple K V) :=
  NewIterator (Map.AsIterable ρ m)

/-- `Map.Clone`: the entries are collected in range order and handed to
`NewMap`. -/
def Map.Clone (ρ : RangeOrder K V) (m : Ptr) (h : Heap K V) :
    Except Fault Collection × Heap K V :=
  match h.table m with
  | none => (.error .nilDeref, h)
  | some tb =>
    let items := (tb.range ρ).map (fun e => NewTuple e.1 e.2)
    let r := NewMap items h
    (.ok (.ofMap r.1), r.2)

/-- `Map.Factory`. -/
def Map.Factory (_m : Ptr) (h : Heap K V) : Except Fault Collection × Heap K V :=
  let r := NewMap ([] : List (Tuple K V)) h
  (.ok (.ofMap r.1), r.2)

/-- `Map.FactoryFrom`: the body is a single `panic`. -/
def Map.FactoryFrom (_m : Ptr) (_values : List V) (h : Heap K V) :
    Except Fault Collection × Heap K V :=
  (.error (.panicMsg "Map doesn't support FactoryFrom"), h)

/-- `Map.AsCollection`. -/
def Map.AsCollection (m : Ptr) : Collection := .ofMap m

end MapDefs

/-! ## SafeMap -/

section SafeMapDefs

variable {K V : Type} [GoKey K]

/-- `m.lock.Lock()` on the `SafeMap` at `m`. With no other worker running, a
held mutex can never be released, so the call does not return. On success
the struct that was read is returned along with the heap. -/
def Mutex.Lock (m : Ptr) (h : Heap K V) : Except Fault SafeMapObj × Heap K V :=
  match h.safeMaps[m]? with
  | none => (.error .nilDeref, h)
  | some o =>
    if o.lock then (.error .blocked, h)
    else (.ok o, { h with safeMaps := h.safeMaps.set m { o with lock := true },
                          log := h.log ++ [LockEvent.acquire m] })

/-- `m.lock.Unlock()` on the `SafeMap` at `m`. -/
def Mutex.Unlock (m : Ptr) (h : Heap K V) : Heap K V :=
  match h.safeMaps[m]? with
  | none => h
  | some o => { h with safeMaps := h.safeMaps.set m { o with lock := false },
                       log := h.log ++ [LockEvent.release m] }

/-- The frame of every locked method: `m.lock.Lock()`,
`defer m.lock.Unlock()`, then the body on the embedded `Map`; the deferred
call runs on every way out of the body. -/
def SafeMap.locked {α : Type} (m : Ptr) (h : Heap K V)
    (body : Ptr → Heap K V → Except Fault α × Heap K V) : Except Fault α × Heap K V :=
  match Mutex.Lock m h with
  | (.error f, h1) => (.error f, h1)
  | (.ok o, h1) =>
    let r := body o.m h1
    (r.1, Mutex.Unlock m r.2)

/-- `NewSafeMap(items...)`: the struct built by `NewMap` becomes the embedded
field `m`; the mutex starts free. -/
def NewSafeMap (items : List (Tuple K V)) (h : Heap K V) : Ptr × Heap K V :=
  let r := NewMap items h
  (r.2.safeMaps.length, { r.2 with safeMaps := r.2.safeMaps ++ [⟨r.1, false⟩] })

/-- `AsSafeMap(c)`: the type assertion `c.(*SafeMap[K, V])`. -/
def AsSafeMap (c : Collection) : Except Fault Ptr :=
  match c with
  | .ofSafeMap p => .ok p
  | _ => .error (.panicMsg "interface conversion")

/-- `SafeMap.Get`. -/
def SafeMap.Get [Inhabited V] (m : Ptr) (key : K) (h : Heap K V) :
    Except Fault (V × Bool) × Heap K V :=
  SafeMap.locked m h (fun inner h1 => (Map.Get inner key h1, h1))

/-- `SafeMap.Set`. -/
def SafeMap.Set (m : Ptr) (key : K) (val : V) (h : Heap K V) : Except Fault Unit × Heap K V :=
  SafeMap.locked m h (fun inner h1 => Map.Set inner key val h1)

/-- `SafeMap.SetElem`. -/
def SafeMap.SetElem (m : Ptr) (elem : Tuple K V) (h : Heap K V) :
    Except Fault Unit × Heap K V :=
  SafeMap.locked m h (fun inner h1 => Map.SetElem inner elem h1)

/-- `SafeMap.AppendElem`. -/
def SafeMap.AppendElem (m : Ptr) (elem : Tuple K V) (h : Heap K V) :
    Except Fault Unit × Heap K V :=
  SafeMap.locked m h (fun inner h1 => Map.AppendElem inner elem h1)

/-- `SafeMap.Delete`. -/
def SafeMap.Delete (m : Ptr) (key : K) (h : Heap K V) : Except Fault Unit × Heap K V :=
  SafeMap.locked m h (fun inner h1 => Map.Delete inner key h1)

/-- `SafeMap.Len`. -/
def SafeMap.Len (m : Ptr) (h : Heap K V) : Except Fault Nat × Heap K V :=
  SafeMap.locked m h (fun inner h1 => (Map.Len inner h1, h1))

/-- `SafeMap.Cap`. -/
def SafeMap.Cap (m : Ptr) (h : Heap K V) : Except Fault Nat × Heap K V :=
  SafeMap.locked m h (fun inner h1 => (Map.Cap inner h1, h1))

/-- `SafeMap.Values`. -/
def SafeMap.Values (ρ : RangeOrder K V) (m : Ptr) (h : Heap K V) :
    Except Fault (List V) × Heap K V :=
  SafeMap.locked m h (fun inner h1 => (Map.Values ρ inner h1, h1))

/-- `SafeMap.Keys`. -/
def SafeMap.Keys (ρ : RangeOrder K V) (m : Ptr) (h : Heap K V) :
    Except Fault (List K) × Heap K V :=
  SafeMap.locked m h (fun inner h1 => (Map.Keys ρ inner h1, h1))

/-- `SafeMap.Clear`. -/
def SafeMap.Clear (m : Ptr) (h : Heap K V) : Except Fault Unit × Heap K V :=
  SafeMap.locked m h (fun inner h1 => Map.Clear inner h1)

/-- `SafeMap.HasKey`. -/
def SafeMap.HasKey (m : Ptr) (key : K) (h : Heap K V) : Except Fault Bool × Heap K V :=
  SafeMap.locked m h (fun inner h1 => (Map.HasKey inner key h1, h1))

/-- `SafeMap.IsEmpty`. -/
def SafeMap.IsEmpty (m : Ptr) (h : Heap K V) : Except Fault Bool × Heap K V :=
  SafeMap.locked m h (fun inner h1 => (Map.IsEmpty inner h1, h1))

/-- `SafeMap.Iter`: the body is `return m.m.Iter()`, the `Iter` method of the
embedded `Map`. -/
def SafeMap.Iter (ρ : RangeOrder K V) (m : Ptr) (h : Heap K V) :
    Except Fault (Iterator (Heap K V) (Tuple K V)) :=
  match h.safeMaps[m]? with
  | none => .error .nilDeref
  | some o => .ok (Map.Iter ρ o.m)

/-- `SafeMap.IterHandler`: the body of the worker it starts, run in heap `h`.
The worker locks, defers the unlock, and ranges over `m.m.m`. -/
def SafeMap.IterHandler (ρ : RangeOrder K V) (m : Ptr) (cancelled : Nat → Bool)
    (h : Heap K V) : Except Fault (List (Event (Tuple K V))) × Heap K V :=
  match Mutex.Lock m h with
  | (.error f, h1) => (.error f, h1)
  | (.ok o, h1) =>
    match h1.table o.m with
    | none => (.error .nilDeref, Mutex.Unlock m h1)
    | some tb =>
      (.ok (Event.lock ::
          (produce cancelled 0 ((tb.range ρ).map (fun e => NewTuple e.1 e.2))
            ++ [Event.unlock])),
        Mutex.Unlock m h1)

/-- `SafeMap.AsIterable`: the `*SafeMap` itself, as an `Iterable`. -/
def SafeMap.AsIterable (ρ : RangeOrder K V) (m : Ptr) : Iterable (Heap K V) (Tuple K V) :=
  ⟨SafeMap.IterHandler ρ m⟩

/-- `SafeMap.Clone`: under the lock, the `Clone` of the embedded `Map`. -/
def SafeMap.Clone (ρ : RangeOrder K V) (m : Ptr) (h : Heap K V) :
    Except Fault Collection × Heap K V :=
  SafeMap.locked m h (fun inner h1 => Map.Clone ρ inner h1)

/-- `SafeMap.Factory`. -/
def SafeMap.Factory (_m : Ptr) (h : Heap K V) : Except Fault Collection × Heap K V :=
  let r := NewSafeMap ([] : List (Tuple K V)) h
  (.ok (.ofSafeMap r.1), r.2)

/-- `SafeMap.FactoryFrom`: the body is a single `panic`. -/
def SafeMap.FactoryFrom (_m : Ptr) (_values : List V) (h : Heap K V) :
    Except Fault Collection × Heap K V :=
  (.error (.panicMsg "SafeMap doesn't support FactoryFrom"), h)

/-- `SafeMap.AsCollection`. -/
def SafeMap.AsCollection (m : Ptr) : Collection := .ofSafeMap m

end SafeMapDefs

/-! ## Heap of slices -/

/-- A non-nil value of a Go slice type: the backing array it points into,
where it starts there, its length and its capacity. -/
structure GoSlice where
  arr : Ptr
  off : Nat
  len : Nat
  cap : Nat
  deriving DecidableEq, Repr

/-- The heap that slices live in: the backing arrays and the `Slice`
structs (each holds a slice value in its field `slice`). -/
structure SliceHeap (V : Type) where
  arrays : List (List V)
  slices : List GoSlice

/-- How much room beyond the needed length `append` leaves when it has to
move to a new array, given the old capacity and the needed length. The
language leaves it open. -/
abbrev Growth := Nat → Nat → Nat

section SliceDefs

variable {V : Type}

/-- The heap with nothing allocated. -/
def SliceHeap.empty : SliceHeap V := ⟨[], []⟩

/-- The elements a slice value shows: `len` cells of its array from `off`. -/
def SliceHeap.read (h : SliceHeap V) (s : GoSlice) : Option (List V) :=
  match h.arrays[s.arr]? with
  | none => none
  | some a => some ((a.drop s.off).take s.len)

/-- The elements of a slice argument that may be nil. -/
def SliceHeap.readArg (h : SliceHeap V) (s : Option GoSlice) : Option (List V) :=
  match s with
  | none => some []
  | some s => h.read s

/-- An array with the cells from `pos` on overwritten by `xs`. -/
def writeAt (a : List V) (pos : Nat) (xs : List V) : List V :=
  a.take pos ++ xs ++ a.drop (pos + xs.length)

/-- `make([]V, n, c)` for `n ≤ c`: a new array of `c` zero values. -/
def SliceHeap.make [Inhabited V] (h : SliceHeap V) (n c : Nat) : GoSlice × SliceHeap V :=
  (⟨h.arrays.length, 0, n, c⟩, { h with arrays := h.arrays ++ [List.replicate c default] })

/-- The index expression `s[i]`. -/
def SliceHeap.index (h : SliceHeap V) (s : GoSlice) (i : Int) : Except Fault V :=
  if 0 ≤ i ∧ i < s.len then
    match h.arrays[s.arr]? with
    | none => .error .nilDeref
    | some a =>
      match a[s.off + i.toNat]? with
      | none => .error .nilDeref
      | some v => .ok v
  else .error .indexOutOfRange

/-- The assignment `s[i] = v`. -/
def SliceHeap.assign (h : SliceHeap V) (s : GoSlice) (i : Int) (v : V) :
    Except Fault Unit × SliceHeap V :=
  if 0 ≤ i ∧ i < s.len then
    match h.arrays[s.arr]? with
    | none => (.error .nilDeref, h)
    | some a => (.ok (), { h with arrays := h.arrays.set s.arr (a.set (s.off + i.toNat) v) })
  else (.error .indexOutOfRange, h)

/-- The slice expression `s[lo:hi]`. -/
def GoSlice.slice (s : GoSlice) (lo hi : Int) : Except Fault GoSlice :=
  if 0 ≤ lo ∧ lo ≤ hi ∧ hi ≤ s.cap then
    .ok ⟨s.arr, s.off + lo.toNat, hi.toNat - lo.toNat, s.cap - lo.toNat⟩
  else .error .sliceBounds

/-- The built-in `append(s, xs...)`, given the elements `xs` already read:
in place when the capacity suffices, in a new array otherwise. -/
def SliceHeap.append [Inhabited V] (g : Growth) (h : SliceHeap V) (s : GoSlice)
    (xs : List V) : Except Fault GoSlice × SliceHeap V :=
  match h.arrays[s.arr]? with
  | none => (.error .nilDeref, h)
  | some a =>
    if s.len + xs.length ≤ s.cap then
      (.ok { s with len := s.len + xs.length },
        { h with arrays := h.arrays.set s.arr (writeAt a (s.off + s.len) xs) })
    else
      let need := s.len + xs.length
      let spare := g s.cap need
      (.ok ⟨h.arrays.length, 0, need, need + spare⟩,
        { h with arrays := h.arrays ++
            [(a.drop s.off).take s.len ++ xs ++ List.replicate spare default] })

/-- The field `slice` of the `Slice` struct at `p`. -/
def SliceHeap.field (h : SliceHeap V) (p : Ptr) : Option GoSlice := h.slices[p]?

/-- The assignment `s.slice = v` for the struct at `p`. -/
def SliceHeap.setField (h : SliceHeap V) (p : Ptr) (v : GoSlice) : SliceHeap V :=
  { h with slices := h.slices.set p v }

/-- `NewSlice(items...)`: a non-nil argument becomes the field as it is (the
new struct shares its array); a nil one gives `make([]V, 0)`. -/
def NewSlice [Inhabited V] (items : Option GoSlice) (h : SliceHeap V) : Ptr × SliceHeap V :=
  match items with
  | some s => (h.slices.length, { h with slices := h.slices ++ [s] })
  | none =>
    let r := h.make 0 0
    (r.2.slices.length, { r.2 with slices := r.2.slices ++ [r.1] })

/-- `NewSliceN(s, n)`: `make([]V, s, n)`, which panics unless `0 ≤ s ≤ n`. -/
def NewSliceN [Inhabited V] (s n : Int) (h : SliceHeap V) : Except Fault Ptr × SliceHeap V :=
  if 0 ≤ s ∧ s ≤ n then
    let r := h.make s.toNat n.toNat
    (.ok r.2.slices.length, { r.2 with slices := r.2.slices ++ [r.1] })
  else (.error (.panicMsg "makeslice: out of range"), h)

/-- `AsSlice(c)`: the type assertion `c.(*Slice[V])`. -/
def AsSlice (c : Collection) : Except Fault Ptr :=
  match c with
  | .ofSlice p => .ok p
  | _ => .error (.panicMsg "interface conversion")

/-- `Slice.Slice`. -/
def Slice.Slice [Inhabited V] (p : Ptr) (start stop : Int) (h : SliceHeap V) :
    Except Fault Ptr × SliceHeap V :=
  match h.field p with
  | none => (.error .nilDeref, h)
  | some s =>
    match s.slice start stop with
    | .error f => (.error f, h)
    | .ok sub =>
      let r := NewSlice (some sub) h
      (.ok r.1, r.2)

/-- `Slice.Append`. -/
def Slice.Append [Inhabited V] (g : Growth) (p : Ptr) (item : V) (h : SliceHeap V) :
    Except Fault Unit × SliceHeap V :=
  match h.field p with
  | none => (.error .nilDeref, h)
  | some s =>
    match h.append g s [item] with
    | (.error f, h1) => (.error f, h1)
    | (.ok s1, h1) => (.ok (), h1.setField p s1)

/-- `Slice.AppendElem`. -/
def Slice.AppendElem [Inhabited V] (g : Growth) (p : Ptr) (elem : Tuple Int V)
    (h : SliceHeap V) : Except Fault Unit × SliceHeap V :=
  Slice.Append g p elem.Value h

/-- `Slice.AppendSlice`. -/
def Slice.AppendSlice [Inhabited V] (g : Growth) (p : Ptr) (slice : Option GoSlice)
    (h : SliceHeap V) : Except Fault Unit × SliceHeap V :=
  match h.field p with
  | none => (.error .nilDeref, h)
  | some s =>
    match h.readArg slice with
    | none => (.error .nilDeref, h)
    | some xs =>
      match h.append g s xs with
      | (.error f, h1) => (.error f, h1)
      | (.ok s1, h1) => (.ok (), h1.setField p s1)

/-- `Slice.AppendSafeSlice`. -/
def Slice.AppendSafeSlice [Inhabited V] (g : Growth) (p other : Ptr) (h : SliceHeap V) :
    Except Fault Unit × SliceHeap V :=
  match h.field p with
  | none => (.error .nilDeref, h)
  | some s =>
    match h.field other with
    | none => (.error .nilDeref, h)
    | some o =>
      match h.read o with
      | none => (.error .nilDeref, h)
      | some xs =>
        match h.append g s xs with
        | (.error f, h1) => (.error f, h1)
        | (.ok s1, h1) => (.ok (), h1.setField p s1)

/-- `Slice.Get`. -/
def Slice.Get (p : Ptr) (i : Int) (h : SliceHeap V) : Except Fault (V × Bool) :=
  match h.field p with
  | none => .error .nilDeref
  | some s =>
    match h.index s i with
    | .error f => .error f
    | .ok v => .ok (v, true)

/-- `Slice.Set`. -/
def Slice.Set (p : Ptr) (i : Int) (item : V) (h : SliceHeap V) :
    Except Fault Unit × SliceHeap V :=
  match h.field p with
  | none => (.error .nilDeref, h)
  | some s => h.assign s i item

/-- `Slice.SetElem`. -/
def Slice.SetElem (p : Ptr) (item : Tuple Int V) (h : SliceHeap V) :
    Except Fault Unit × SliceHeap V :=
  Slice.Set p item.Key item.Value h

/-- `Slice.Delete`: `s.slice = append(s.slice[:i], s.slice[i+1:]...)`. -/
def Slice.Delete [Inhabited V] (g : Growth) (p : Ptr) (i : Int) (h : SliceHeap V) :
    Except Fault Unit × SliceHeap V :=
  match h.field p with
  | none => (.error .nilDeref, h)
  | some s =>
    match s.slice 0 i with
    | .error f => (.error f, h)
    | .ok front =>
      match s.slice (i + 1) s.len with
      | .error f => (.error f, h)
      | .ok back =>
        match h.read back with
        | none => (.error .nilDeref, h)
        | some xs =>
          match h.append g front xs with
          | (.error f, h1) => (.error f, h1)
          | (.ok s1, h1) => (.ok (), h1.setField p s1)

/-- `Slice.Len`. -/
def Slice.Len (p : Ptr) (h : SliceHeap V) : Except Fault Nat :=
  match h.field p with
  | none => .error .nilDeref
  | some s => .ok s.len

/-- `Slice.Cap`. -/
def Slice.Cap (p : Ptr) (h : SliceHeap V) : Except Fault Nat :=
  match h.field p with
  | none => .error .nilDeref
  | some s => .ok s.cap

/-- `Slice.IsEmpty`. -/
def Slice.IsEmpty (p : Ptr) (h : SliceHeap V) : Except Fault Bool :=
  match h.field p with
  | none => .error .nilDeref
  | some s => .ok (s.len == 0)

/-- The pairs `(i, item)` a `range` over a slice goes through, counted from
`i`. -/
def indexed (i : Nat) : List V → List (Tuple Int V)
  | [] => []
  | v :: vs => NewTuple (i : Int) v :: indexed (i + 1) vs

/-- `Slice.IterHandler`: the body of the worker it starts, run in heap `h`. -/
def Slice.IterHandler (p : Ptr) (cancelled : Nat → Bool) (h : SliceHeap V) :
    Except Fault (List (Event (Tuple Int V))) × SliceHeap V :=
  match h.field p with
  | none => (.error .nilDeref, h)
  | some s =>
    match h.read s with
    | none => (.error .nilDeref, h)
    | some vs => (.ok (produce cancelled 0 (indexed 0 vs)), h)

/-- `Slice.AsIterable`: the `*Slice` itself, as an `Iterable`. -/
def Slice.AsIterable (p : Ptr) : Iterable (SliceHeap V) (Tuple Int V) :=
  ⟨Slice.IterHandler p⟩

/-- `Slice.Iter`. -/
def Slice.Iter (p : Ptr) : Iterator (SliceHeap V) (Tuple Int V) :=
  NewIterator (Slice.AsIterable p)

/-- `Slice.Clear`. -/
def Slice.Clear [Inhabited V] (p : Ptr) (h : SliceHeap V) : Except Fault Unit × SliceHeap V :=
  match h.field p with
  | none => (.error .nilDeref, h)
  | some _ =>
    let r := h.make 0 0
    (.ok (), r.2.setField p r.1)

/-- The loop of `Slice.Clone`, `newSlice[i] = item` for each `i, item` of the
range, from position `i` on. -/
def copyInto (h : SliceHeap V) (dst : GoSlice) : Nat → List V → Except Fault Unit × SliceHeap V
  | _, [] => (.ok (), h)
  | i, v :: vs =>
    match h.assign dst (i : Int) v with
    | (.error f, h1) => (.error f, h1)
    | (.ok _, h1) => copyInto h1 dst (i + 1) vs

/-- `Slice.Clone`. -/
def Slice.Clone [Inhabited V] (p : Ptr) (h : SliceHeap V) :
    Except Fault Collection × SliceHeap V :=
  match h.field p with
  | none => (.error .nilDeref, h)
  | some s =>
    match h.read s with
    | none => (.error .nilDeref, h)
    | some vs =>
      let r := h.make s.len s.len
      match copyInto r.2 r.1 0 vs with
      | (.error f, h1) => (.error f, h1)
      | (.ok _, h1) =>
        let c := NewSlice (some r.1) h1
        (.ok (.ofSlice c.1), c.2)

/-- `Slice.Values`: the field itself, not a copy. -/
def Slice.Values (p : Ptr) (h : SliceHeap V) : Except Fault GoSlice :=
  match h.field p with
  | none => .error .nilDeref
  | some s => .ok s

/-- `Slice.Factory`. -/
def Slice.Factory [Inhabited V] (_p : Ptr) (h : SliceHeap V) :
    Except Fault Collection × SliceHeap V :=
  let r := NewSlice none h
  (.ok (.ofSlice r.1), r.2)

/-- `Slice.FactoryFrom`. -/
def Slice.FactoryFrom [Inhabited V] (_p : Ptr) (values : Option GoSlice) (h : SliceHeap V) :
    Except Fault Collection × SliceHeap V :=
  let r := NewSlice values h
  (.ok (.ofSlice r.1), r.2)

/-- `Slice.AsCollection`. -/
def Slice.AsCollection (p : Ptr) : Collection := .ofSlice p

end SliceDefs

/-! ## Linked lists -/

/-- Modelled from the spec: the two linked lists are defined in files that
are not among the sources; only their tests are. Section 3: they are ordered
containers, whose iteration order is insertion order. The heap that linked
lists live in: a list struct is given by the values of its nodes, from the
first to the last. -/
structure ListHeap (V : Type) where
  forward : List (List V)
  double : List (List V)

section ListDefs

variable {V : Type}

/-- The heap with nothing allocated. -/
def ListHeap.empty : ListHeap V := ⟨[], []⟩

/-- Modelled from the spec: `NewForwardLinkedList(values...)`, which the test
calls. Section 6: one constructor per container variant, optionally seeded
with initial elements. -/
def NewForwardLinkedList (values : List V) (h : ListHeap V) : Ptr × ListHeap V :=
  (h.forward.length, { h with forward := h.forward ++ [values] })

/-- Modelled from the spec: `ForwardLinkedList.Append`, which the test calls.
Section 3: iteration order is insertion order, so the value becomes the
last. -/
def ForwardLinkedList.Append (p : Ptr) (item : V) (h : ListHeap V) :
    Except Fault Unit × ListHeap V :=
  match h.forward[p]? with
  | none => (.error .nilDeref, h)
  | some vs => (.ok (), { h with forward := h.forward.set p (vs ++ [item]) })

/-- Modelled from the spec: `ForwardLinkedList.Values`, of the interface
`Gettable`: the values in iteration order. -/
def ForwardLinkedList.Values (p : Ptr) (h : ListHeap V) : Except Fault (List V) :=
  match h.forward[p]? with
  | none => .error .nilDeref
  | some vs => .ok vs

/-- Modelled from the spec: `ForwardLinkedList.FactoryFrom`. The interface
`Collection` in `collection.go`: it returns a new collection of the same
type, initialized with the given elements. -/
def ForwardLinkedList.FactoryFrom (_p : Ptr) (values : List V) (h : ListHeap V) :
    Except Fault Collection × ListHeap V :=
  let r := NewForwardLinkedList values h
  (.ok (.ofForwardLinkedList r.1), r.2)

/-- Modelled from the spec: `ForwardLinkedList.AsCollection`, which the test
calls. -/
def ForwardLinkedList.AsCollection (p : Ptr) : Collection := .ofForwardLinkedList p

/-- Modelled from the spec: `AsForwardLinkedList(c)`, which the test calls:
the type assertion, as `AsMap` and `AsSlice` are. -/
def AsForwardLinkedList (c : Collection) : Except Fault Ptr :=
  match c with
  | .ofForwardLinkedList p => .ok p
  | _ => .error (.panicMsg "interface conversion")

/-- Modelled from the spec: `NewDoubleLinkedList(values...)`, which the test
calls. Section 6: one constructor per container variant, optionally seeded
with initial elements. -/
def NewDoubleLinkedList (values : List V) (h : ListHeap V) : Ptr × ListHeap V :=
  (h.double.length, { h with double := h.double ++ [values] })

/-- Modelled from the spec: `DoubleLinkedList.Append`. Section 3: iteration
order is insertion order, so the value becomes the last. -/
def DoubleLinkedList.Append (p : Ptr) (item : V) (h : ListHeap V) :
    Except Fault Unit × ListHeap V :=
  match h.double[p]? with
  | none => (.error .nilDeref, h)
  | some vs => (.ok (), { h with double := h.double.set p (vs ++ [item]) })

/-- Modelled from the spec: `DoubleLinkedList.Values`, of the interface
`Gettable`: the values in iteration order. -/
def DoubleLinkedList.Values (p : Ptr) (h : ListHeap V) : Except Fault (List V) :=
  match h.double[p]? with
  | none => .error .nilDeref
  | some vs => .ok vs

/-- Modelled from the spec: `DoubleLinkedList.FactoryFrom`. The interface
`Collection` in `collection.go`: it returns a new collection of the same
type, initialized with the given elements. -/
def DoubleLinkedList.FactoryFrom (_p : Ptr) (values : List V) (h : ListHeap V) :
    Except Fault Collection × ListHeap V :=
  let r := NewDoubleLinkedList values h
  (.ok (.ofDoubleLinkedList r.1), r.2)

/-- Modelled from the spec: `DoubleLinkedList.AsCollection`. -/
def DoubleLinkedList.AsCollection (p : Ptr) : Collection := .ofDoubleLinkedList p

/-- Modelled from the spec: `AsDoubleLinkedList(c)`: the type assertion, as
`AsMap` and `AsSlice` are. -/
def AsDoubleLinkedList (c : Collection) : Except Fault Ptr :=
  match c with
  | .ofDoubleLinkedList p => .ok p
  | _ => .error (.panicMsg "interface conversion")

end ListDefs

/-! ## Errors and generic algorithms -/

/-- The values of Go's `error` that occur here: the two sentinels declared in
`collection.go`, and the errors returned by functions the caller supplies. -/
inductive GoError where
  | notComparable
  | notFound
  | other (msg : String)
  deriving DecidableEq, Repr

/-- `ErrNotComparable`. -/
def ErrNotComparable : GoError := .notComparable

/-- `ErrNotFound`. -/
def ErrNotFound : GoError := .notFound

/-- Modelled from the spec: `Find` is defined in a file that is not among the
sources. Section 4.4: it drains the iterator in order, evaluating the
predicate per element; it returns the first element satisfying it; it fails
with NotFound if exhausted without a match; if the predicate itself fails,
that error propagates immediately. The iterable is given by the elements its
iterator yields, in order. -/
def Find {E : Type} (elems : List E) (predicate : E → Except GoError Bool) :
    Except GoError E :=
  match elems with
  | [] => .error ErrNotFound
  | e :: rest =>
    match predicate e with
    | .error err => .error err
    | .ok true => .ok e
    | .ok false => Find rest predicate

/-- Modelled from the spec: the type `CompareResult` is declared in a file
that is not among the sources. Section 6: a three-way verdict, Less, Equal or
Greater. -/
inductive CompareResult where
  | Less
  | Equal
  | Greater
  deriving DecidableEq, Repr

/-- Modelled from the spec: `NumericComparator` is defined in a file that is
not among the sources. Section 6: a numeric ascending comparator. -/
def NumericComparator (a b : Int) : CompareResult :=
  if a < b then .Less else if b < a then .Greater else .Equal

/-- Modelled from the spec: the sort inside `OrderBy`. Section 4.4: it sorts
using the three-way comparator and is stable. Each value is inserted before
the first value that it is not Greater than. -/
def sortStable {V : Type} (comp : V → V → CompareResult) (vs : List V) : List V :=
  List.insertionSort (fun a b => comp a b ≠ CompareResult.Greater) vs

/-- The heaps that the containers behind a `Collection[K, V, Elem]` value
live in. -/
structure World (K V : Type) [GoKey K] where
  maps : Heap K V
  slices : SliceHeap V
  lists : ListHeap V

/-- Modelled from the spec: `OrderBy` is defined in a file that is not among
the sources. Section 4.4: it materializes all values, sorts them, and rebuilds
a new collection of the same dynamic type through `FactoryFrom`, populated in
sorted order. The values are those that `Values()` of the collection
returns, and the rebuilding is the `FactoryFrom` of the collection: for a
`Map` and a `SafeMap` that is the panic of `c_map.go` and `c_safe_map.go`,
for a `Slice` it is given the sorted values as a new slice. -/
def OrderBy {K V : Type} [GoKey K] [Inhabited V] (ρ : RangeOrder K V) (c : Collection)
    (comp : V → V → CompareResult) (w : World K V) : Except Fault Collection × World K V :=
  match c with
  | .ofMap p =>
    match Map.Values ρ p w.maps with
    | .error f => (.error f, w)
    | .ok vs =>
      let r := Map.FactoryFrom p (sortStable comp vs) w.maps
      (r.1, { w with maps := r.2 })
  | .ofSafeMap p =>
    match SafeMap.Values ρ p w.maps with
    | (.error f, h1) => (.error f, { w with maps := h1 })
    | (.ok vs, h1) =>
      let r := SafeMap.FactoryFrom p (sortStable comp vs) h1
      (r.1, { w with maps := r.2 })
  | .ofSlice p =>
    match Slice.Values p w.slices with
    | .error f => (.error f, w)
    | .ok s =>
      match w.slices.read s with
      | none => (.error .nilDeref, w)
      | some vs =>
        let r := Slice.FactoryFrom p
          (some ⟨w.slices.arrays.length, 0, (sortStable comp vs).length,
            (sortStable comp vs).length⟩)
          ⟨w.slices.arrays ++ [sortStable comp vs], w.slices.slices⟩
        (r.1, { w with slices := r.2 })
  | .ofForwardLinkedList p =>
    match ForwardLinkedList.Values p w.lists with
    | .error f => (.error f, w)
    | .ok vs =>
      let r := ForwardLinkedList.FactoryFrom p (sortStable comp vs) w.lists
      (r.1, { w with lists := r.2 })
  | .ofDoubleLinkedList p =>
    match DoubleLinkedList.Values p w.lists with
    | .error f => (.error f, w)
    | .ok vs =>
      let r := DoubleLinkedList.FactoryFrom p (sortStable comp vs) w.lists
      (r.1, { w with lists := r.2 })

/-! ## Vocabulary of the statements -/

section Vocabulary

/-- The elements a producer handed off, in order. -/
def handoffs {E : Type} : List (Event E) → List E
  | [] => []
  | Event.handoff e :: tr => e :: handoffs tr
  | _ :: tr => handoffs tr

/-- The two ways one run of the producer loop over `es` can go. Either no
`select` takes the `Done()` case: every element is handed off, in order, and
`IterationDone` is called once, at the end. Or `k` is the first round whose
`select` takes it: the `k` elements before have been handed off, nothing is
handed off after and `IterationDone` is not called. -/
def ProducerRun {E : Type} (cancelled : Nat → Bool) (es : List E) (tr : List (Event E)) :
    Prop :=
  ((∀ j, j < es.length → cancelled j = false) ∧
      tr = es.map Event.handoff ++ [Event.iterationDone]) ∨
  (∃ k, k < es.length ∧ (∀ j, j < k → cancelled j = false) ∧ cancelled k = true ∧
      tr = (es.take k).map Event.handoff ++ [Event.cancelObserved])

/-- The number of calls of `IterationDone` in what a producer did. -/
def completions {E : Type} : List (Event E) → Nat
  | [] => 0
  | Event.iterationDone :: tr => completions tr + 1
  | _ :: tr => completions tr

/-- The number of times a producer took the `Done()` case. -/
def cancellations {E : Type} : List (Event E) → Nat
  | [] => 0
  | Event.cancelObserved :: tr => cancellations tr + 1
  | _ :: tr => cancellations tr

/-- A heap holding one `Slice` over the array `[10, 20, 30]`. -/
def sliceHeap3 : SliceHeap Nat := ⟨[[10, 20, 30]], [⟨0, 0, 3, 3⟩]⟩

/-- A heap holding one `SafeMap` built from the entries `(1, 10)`, `(2, 20)`;
its embedded `Map` is at address `0`. -/
def mapHeap2 : Heap Nat Nat :=
  (NewSafeMap [NewTuple 1 10, NewTuple 2 20] Heap.empty).2

/-- The table of `mapHeap2`. -/
def table2 : GoMap Nat Nat := fillTable [NewTuple 1 10, NewTuple 2 20]

/-- Four items with `float64` keys: `(1.0, 10), (NaN, 5), (2.0, 20), (NaN, 6)`. -/
def floatItems : List (Tuple GoFloat Nat) :=
  [NewTuple (GoFloat.num 1) 10, NewTuple GoFloat.nan 5, NewTuple (GoFloat.num 2) 20,
    NewTuple GoFloat.nan 6]

/-- A heap holding one `Map` with `float64` keys, `{1.0: 10, NaN: 5}`. -/
def floatHeap : Heap GoFloat Nat :=
  (NewMap [NewTuple (GoFloat.num 1) 10, NewTuple GoFloat.nan 5] Heap.empty).2

/-- The table of `floatHeap`. -/
def floatTable : GoMap GoFloat Nat :=
  fillTable [NewTuple (GoFloat.num 1) 10, NewTuple GoFloat.nan 5]

/-- A heap holding one `Map` with `float64` keys, `{NaN: 1}`. -/
def nanHeap : Heap GoFloat Nat := (NewMap [NewTuple GoFloat.nan 1] Heap.empty).2

/-- The number of keys of a list that are new: a key counts when it is `==`
to none of the keys `seen` and to none of the keys before it in the list. -/
def countFresh {K : Type} [GoKey K] (seen : List K) : List K → Nat
  | [] => 0
  | a :: l =>
    (if seen.any (fun b => GoKey.eq b a) then 0 else 1) + countFresh (a :: seen) l

/-- The number of distinct keys in a list, told apart by `==`: a key counts
when no key before it in the list is `==` to it. A key that is not `==` to
itself, such as NaN, counts each time it occurs. -/
def countDistinct {K : Type} [GoKey K] (l : List K) : Nat := countFresh [] l

/-- A batch of `Set` calls on the `Map` at `m`, one per tuple, made one after
the other in list order. -/
def Map.setAll {K V : Type} [GoKey K] (m : Ptr) :
    List (Tuple K V) → Heap K V → Except Fault Unit × Heap K V
  | [], h => (.ok (), h)
  | c :: cs, h =>
    match Map.Set m c.Key c.Value h with
    | (.error f, h1) => (.error f, h1)
    | (.ok _, h1) => Map.setAll m cs h1

/-- A batch of `Set` calls on the `SafeMap` at `m`, one per tuple, made one
after the other in list order. -/
def SafeMap.setAll {K V : Type} [GoKey K] (m : Ptr) :
    List (Tuple K V) → Heap K V → Except Fault Unit × Heap K V
  | [], h => (.ok (), h)
  | c :: cs, h =>
    match SafeMap.Set m c.Key c.Value h with
    | (.error f, h1) => (.error f, h1)
    | (.ok _, h1) => SafeMap.setAll m cs h1

/-- One mutating call on a `Map`. -/
inductive MapOp (K V : Type) where
  | set (k : K) (v : V)
  | setElem (e : Tuple K V)
  | appendElem (e : Tuple K V)
  | delete (k : K)
  | clear

/-- The call `op` made on the `Map` at `m`. -/
def Map.applyOp {K V : Type} [GoKey K] (m : Ptr) (op : MapOp K V) (h : Heap K V) :
    Except Fault Unit × Heap K V :=
  match op with
  | .set k v => Map.Set m k v h
  | .setElem e => Map.SetElem m e h
  | .appendElem e => Map.AppendElem m e h
  | .delete k => Map.Delete m k h
  | .clear => Map.Clear m h

/-- The calls `ops` made on the `Map` at `m`, one after the other, up to the
first that fails. -/
def Map.applyOps {K V : Type} [GoKey K] (m : Ptr) :
    List (MapOp K V) → Heap K V → Except Fault Unit × Heap K V
  | [], h => (.ok (), h)
  | op :: ops, h =>
    match Map.applyOp m op h with
    | (.error f, h1) => (.error f, h1)
    | (.ok _, h1) => Map.applyOps m ops h1

/-- One mutating call on a `Slice`. -/
inductive SliceOp (V : Type) where
  | set (i : Int) (v : V)
  | setElem (e : Tuple Int V)
  | append (v : V)
  | appendElem (e : Tuple Int V)
  | delete (i : Int)
  | clear

/-- The call `op` made on the `Slice` at `p`. -/
def Slice.applyOp {V : Type} [Inhabited V] (g : Growth) (p : Ptr) (op : SliceOp V)
    (h : SliceHeap V) : Except Fault Unit × SliceHeap V :=
  match op with
  | .set i v => Slice.Set p i v h
  | .setElem e => Slice.SetElem p e h
  | .append v => Slice.Append g p v h
  | .appendElem e => Slice.AppendElem g p e h
  | .delete i => Slice.Delete g p i h
  | .clear => Slice.Clear p h

/-- The calls `ops` made on the `Slice` at `p`, one after the other, up to
the first that fails. -/
def Slice.applyOps {V : Type} [Inhabited V] (g : Growth) (p : Ptr) :
    List (SliceOp V) → SliceHeap V → Except Fault Unit × SliceHeap V
  | [], h => (.ok (), h)
  | op :: ops, h =>
    match Slice.applyOp g p op h with
    | (.error f, h1) => (.error f, h1)
    | (.ok _, h1) => Slice.applyOps g p ops h1

/-- A slice value as Go keeps it: it points into an allocated array, lies
within that array up to its capacity, and is no longer than its capacity. -/
def SliceHeap.Valid {V : Type} (h : SliceHeap V) (s : GoSlice) : Prop :=
  ∃ a, h.arrays[s.arr]? = some a ∧ s.off + s.cap ≤ a.length ∧ s.len ≤ s.cap

/-- A slice argument that may be nil, as Go keeps it. -/
def SliceHeap.ValidArg {V : Type} (h : SliceHeap V) (s : Option GoSlice) : Prop :=
  ∀ s1, s = some s1 → h.Valid s1

/-- What it is for a call on the `SafeMap` at `sm`, made in heap `h`, to be
the call `plain` on a plain `Map` wrapped in the lock: the same result, the
same tables and `Map` structs left behind, the mutex as it was before the
call, and exactly one `Lock()` followed by one `Unlock()` made on it. -/
def LockWrapped {K V α : Type} [GoKey K] (sm : Ptr) (h : Heap K V)
    (safe plain : Except Fault α × Heap K V) : Prop :=
  safe.1 = plain.1 ∧ safe.2.tables = plain.2.tables ∧ safe.2.maps = plain.2.maps ∧
    safe.2.safeMaps = h.safeMaps ∧
    safe.2.log = h.log ++ [LockEvent.acquire sm, LockEvent.release sm]

/-- The call `op` made on the `SafeMap` at `m`. -/
def SafeMap.applyOp {K V : Type} [GoKey K] (m : Ptr) (op : MapOp K V) (h : Heap K V) :
    Except Fault Unit × Heap K V :=
  match op with
  | .set k v => SafeMap.Set m k v h
  | .setElem e => SafeMap.SetElem m e h
  | .appendElem e => SafeMap.AppendElem m e h
  | .delete k => SafeMap.Delete m k h
  | .clear => SafeMap.Clear m h

/-- The calls `ops` made on the `SafeMap` at `m`, one after the other, up to
the first that fails. -/
def SafeMap.applyOps {K V : Type} [GoKey K] (m : Ptr) :
    List (MapOp K V) → Heap K V → Except Fault Unit × Heap K V
  | [], h => (.ok (), h)
  | op :: ops, h =>
    match SafeMap.applyOp m op h with
    | (.error f, h1) => (.error f, h1)
    | (.ok _, h1) => SafeMap.applyOps m ops h1

/-- One mutating call on a `Slice`, `AppendSlice` included. -/
inductive SliceCall (V : Type) where
  | op (o : SliceOp V)
  | appendSlice (arg : Option GoSlice)

/-- The call `c` made on the `Slice` at `p`. -/
def Slice.applyCall {V : Type} [Inhabited V] (g : Growth) (p : Ptr) (c : SliceCall V)
    (h : SliceHeap V) : Except Fault Unit × SliceHeap V :=
  match c with
  | .op o => Slice.applyOp g p o h
  | .appendSlice arg => Slice.AppendSlice g p arg h

/-- The calls `cs` made on the `Slice` at `p`, one after the other, up to
the first that fails. -/
def Slice.applyCalls {V : Type} [Inhabited V] (g : Growth) (p : Ptr) :
    List (SliceCall V) → SliceHeap V → Except Fault Unit × SliceHeap V
  | [], h => (.ok (), h)
  | c :: cs, h =>
    match Slice.applyCall g p c h with
    | (.error f, h1) => (.error f, h1)
    | (.ok _, h1) => Slice.applyCalls g p cs h1

/-- The calls `Set`, `Delete` and `Clear`. -/
def SliceOp.isSetDeleteClear {V : Type} : SliceOp V → Bool
  | .set _ _ => true
  | .delete _ => true
  | .clear => true
  | _ => false

/-- The number of `Delete` calls in `ops` made after the last `Clear`, added
to `n` when there is no `Clear`. -/
def deletesSinceClear {V : Type} : Nat → List (SliceOp V) → Nat
  | n, [] => n
  | n, .delete _ :: ops => deletesSinceClear (n + 1) ops
  | _, .clear :: ops => deletesSinceClear 0 ops
  | n, _ :: ops => deletesSinceClear n ops

/-- A heap holding the array `[10, 20, 30]` of the call `NewSlice(10, 20, 30)`
and no `Slice` yet. -/
def argHeap3 : SliceHeap Nat := ⟨[[10, 20, 30]], []⟩

/-- A three-way comparator that is a strict weak ordering: Greater is Less
the other way round, nothing is Less than itself, Less is transitive, and so
is Equal. -/
def StrictWeakOrder {V : Type} (comp : V → V → CompareResult) : Prop :=
  (∀ a b, comp a b = CompareResult.Greater ↔ comp b a = CompareResult.Less) ∧
  (∀ a, comp a a ≠ CompareResult.Less) ∧
  (∀ a b c, comp a b = CompareResult.Less → comp b c = CompareResult.Less →
    comp a c = CompareResult.Less) ∧
  (∀ a b c, comp a b = CompareResult.Equal → comp b c = CompareResult.Equal →
    comp a c = CompareResult.Equal)

/-- The dynamic types that a `Collection` value can have. -/
inductive DynType where
  | Map
  | SafeMap
  | Slice
  | ForwardLinkedList
  | DoubleLinkedList
  deriving DecidableEq, Repr

/-- The dynamic type of a `Collection` value. -/
def Collection.dynType : Collection → DynType
  | .ofMap _ => .Map
  | .ofSafeMap _ => .SafeMap
  | .ofSlice _ => .Slice
  | .ofForwardLinkedList _ => .ForwardLinkedList
  | .ofDoubleLinkedList _ => .DoubleLinkedList

/-- The values of an ordered collection, as its `Values()` returns them: the
elements of a `Slice`, the values of a linked list from the first to the
last. There are none for a `Map` or a `SafeMap`, which are not ordered, and
for a collection that is not in the world. -/
def World.valuesOf {K V : Type} [GoKey K] (w : World K V) (c : Collection) :
    Option (List V) :=
  match c with
  | .ofSlice p =>
    match Slice.Values p w.slices with
    | .ok s => w.slices.read s
    | .error _ => none
  | .ofForwardLinkedList p =>
    match ForwardLinkedList.Values p w.lists with
    | .ok vs => some vs
    | .error _ => none
  | .ofDoubleLinkedList p =>
    match DoubleLinkedList.Values p w.lists with
    | .ok vs => some vs
    | .error _ => none
  | _ => none

/-- A comparator that looks at the first component of a pair only, so that
pairs that differ can compare Equal. -/
def compareFirst (a b : Int × Nat) : CompareResult := NumericComparator a.1 b.1

/-- The list of `TestForwardLinkedList_Iter`: `NewForwardLinkedList[int]()`
followed by `Append` of 1, 4, 2, 3 and 5. -/
def forwardList5 : ListHeap Int :=
  (ForwardLinkedList.Append 0 5
    (ForwardLinkedList.Append 0 3
      (ForwardLinkedList.Append 0 2
        (ForwardLinkedList.Append 0 4
          (ForwardLinkedList.Append 0 1
            (NewForwardLinkedList [] ListHeap.empty).2).2).2).2).2).2

/-- A world holding the list of `TestForwardLinkedList_Iter` and nothing
else. -/
def testWorld : World Nat Int := ⟨Heap.empty, ⟨[], []⟩, forwardList5⟩

/-- A world holding a `Slice`, a `ForwardLinkedList` and a `DoubleLinkedList`,
each with the pairs `(2, 0), (1, 1), (2, 2), (1, 3)`. -/
def pairWorld : World Nat (Int × Nat) :=
  ⟨Heap.empty, ⟨[[(2, 0), (1, 1), (2, 2), (1, 3)]], [⟨0, 0, 4, 4⟩]⟩,
    ⟨[[(2, 0), (1, 1), (2, 2), (1, 3)]], [[(2, 0), (1, 1), (2, 2), (1, 3)]]⟩⟩

end Vocabulary

/-! ## Facts about entry lists -/

section EntryLemmas

variable {K V : Type} [GoKey K]

theorem lookupKey_eq_none_iff (k : K) (l : List (K × V)) :
    lookupKey k l = none ↔ ∀ a ∈ keysOf l, GoKey.eq a k = false := by
  induction l with
  | nil => simp [lookupKey, keysOf]
  | cons p l ih =>
    obtain ⟨b, w⟩ := p
    cases hb : GoKey.eq b k with
    | true => simp [lookupKey, keysOf, hb]
    | false =>
      simp only [lookupKey, hb, Bool.false_eq_true, if_false, ih, keysOf, List.map_cons,
        List.mem_cons, forall_eq_or_imp, true_and]

theorem lookupKey_isSome_iff (k : K) (l : List (K × V)) :
    (lookupKey k l).isSome = true ↔ ∃ a ∈ keysOf l, GoKey.eq a k = true := by
  induction l with
  | nil => simp [lookupKey, keysOf]
  | cons p l ih =>
    obtain ⟨b, w⟩ := p
    cases hb : GoKey.eq b k with
    | true => simp [lookupKey, keysOf, hb]
    | false =>
      simp only [lookupKey, hb, Bool.false_eq_true, if_false, ih, keysOf, List.map_cons,
        List.mem_cons, exists_eq_or_imp, false_or]

/-- Two keys `==` to each other are `==` to the same keys. -/
theorem GoKey.eq_congr_left (a b k : K) (h : GoKey.eq a b = true) :
    GoKey.eq a k = GoKey.eq b k := by
  cases h1 : GoKey.eq a k with
  | true =>
    exact (GoKey.trans b a k (GoKey.symm a b h) h1).symm
  | false =>
    cases h2 : GoKey.eq b k with
    | false => rfl
    | true =>
      have := GoKey.trans a b k h h2
      rw [h1] at this
      exact absurd this (by simp)

theorem GoKey.eq_congr_right (a b k : K) (h : GoKey.eq a b = true) :
    GoKey.eq k a = GoKey.eq k b := by
  cases h1 : GoKey.eq k a with
  | true => exact (GoKey.trans k a b h1 h).symm
  | false =>
    cases h2 : GoKey.eq k b with
    | false => rfl
    | true =>
      have := GoKey.trans k b a h2 (GoKey.symm a b h)
      rw [h1] at this
      exact absurd this (by simp)

theorem lookupKey_storeKey (a k : K) (v : V) (l : List (K × V)) :
    lookupKey k (storeKey a v l) = if GoKey.eq a k then some v else lookupKey k l := by
  induction l with
  | nil => simp [storeKey, lookupKey]
  | cons p l ih =>
    obtain ⟨b, w⟩ := p
    cases hb : GoKey.eq b a with
    | true =>
      have hc : GoKey.eq b k = GoKey.eq a k := GoKey.eq_congr_left b a k hb
      simp only [storeKey, hb, if_true, lookupKey, hc]
      split <;> rfl
    | false =>
      simp only [storeKey, hb, Bool.false_eq_true, if_false, lookupKey, ih]
      cases hbk : GoKey.eq b k with
      | false => simp
      | true =>
        have hak : GoKey.eq a k = false := by
          rw [← GoKey.eq_congr_right b k a hbk]
          exact GoKey.eq_false_symm b a hb
        simp [hak]

theorem lookupKey_storeKey_self (k : K) (v : V) (l : List (K × V))
    (hk : GoKey.eq k k = true) : lookupKey k (storeKey k v l) = some v := by
  rw [lookupKey_storeKey, hk]
  rfl

theorem lookupKey_storeKey_ne (k k2 : K) (v : V) (l : List (K × V))
    (hne : GoKey.eq k k2 = false) : lookupKey k2 (storeKey k v l) = lookupKey k2 l := by
  rw [lookupKey_storeKey, hne]
  rfl

theorem length_storeKey (k : K) (v : V) (l : List (K × V)) :
    (storeKey k v l).length =
      if (lookupKey k l).isSome then l.length else l.length + 1 := by
  induction l with
  | nil => simp [storeKey, lookupKey]
  | cons p l ih =>
    obtain ⟨b, w⟩ := p
    cases hb : GoKey.eq b k with
    | true => simp [storeKey, lookupKey, hb]
    | false =>
      simp only [storeKey, hb, Bool.false_eq_true, if_false, List.length_cons, ih, lookupKey]
      split <;> rfl

theorem storeKey_of_absent (k : K) (v : V) (l : List (K × V)) (h : lookupKey k l = none) :
    storeKey k v l = l ++ [(k, v)] := by
  induction l with
  | nil => rfl
  | cons p l ih =>
    obtain ⟨b, w⟩ := p
    cases hb : GoKey.eq b k with
    | true => simp [lookupKey, hb] at h
    | false =>
      simp only [lookupKey, hb, Bool.false_eq_true, if_false] at h
      simp only [storeKey, hb, Bool.false_eq_true, if_false, List.cons_append, ih h]

theorem lookupKey_eraseKey (a k : K) (l : List (K × V)) :
    lookupKey k (eraseKey a l) = if GoKey.eq a k then none else lookupKey k l := by
  induction l with
  | nil => simp [eraseKey, lookupKey]
  | cons p l ih =>
    obtain ⟨b, w⟩ := p
    cases hb : GoKey.eq b a with
    | true =>
      have hc : GoKey.eq b k = GoKey.eq a k := GoKey.eq_congr_left b a k hb
      simp only [eraseKey, hb, if_true, lookupKey, hc, ih]
      split <;> rfl
    | false =>
      simp only [eraseKey, hb, Bool.false_eq_true, if_false, lookupKey, ih]
      cases hbk : GoKey.eq b k with
      | false => simp
      | true =>
        have hak : GoKey.eq a k = false := by
          rw [← GoKey.eq_congr_right b k a hbk]
          exact GoKey.eq_false_symm b a hb
        simp [hak]

theorem lookupKey_eraseKey_self (k : K) (l : List (K × V)) :
    lookupKey k (eraseKey k l) = none := by
  rw [lookupKey_eraseKey]
  cases hk : GoKey.eq k k with
  | true => rfl
  | false =>
    simp only [Bool.false_eq_true, if_false]
    rw [lookupKey_eq_none_iff]
    intro a ha
    cases hak : GoKey.eq a k with
    | false => rfl
    | true =>
      have := GoKey.trans k a k (GoKey.symm a k hak) hak
      rw [hk] at this
      exact absurd this (by simp)

theorem lookupKey_eraseKey_ne (k k2 : K) (l : List (K × V)) (hne : GoKey.eq k k2 = false) :
    lookupKey k2 (eraseKey k l) = lookupKey k2 l := by
  rw [lookupKey_eraseKey, hne]
  rfl

theorem eraseKey_of_absent (k : K) (l : List (K × V)) (h : lookupKey k l = none) :
    eraseKey k l = l := by
  induction l with
  | nil => rfl
  | cons p l ih =>
    obtain ⟨b, w⟩ := p
    cases hb : GoKey.eq b k with
    | true => simp [lookupKey, hb] at h
    | false =>
      simp only [lookupKey, hb, Bool.false_eq_true, if_false] at h
      simp only [eraseKey, hb, Bool.false_eq_true, if_false, ih h]

/-- In an entry list with keys apart, the entries behind one whose key is
`==` to `k` hold no key `==` to `k`. -/
theorem lookupKey_tail_of_apart (k b : K) (w : V) (l : List (K × V))
    (hn : KeysApart ((b, w) :: l)) (hb : GoKey.eq b k = true) : lookupKey k l = none := by
  simp only [KeysApart, keysOf, List.map_cons, List.pairwise_cons] at hn
  rw [lookupKey_eq_none_iff]
  intro c hc
  rw [← GoKey.eq_congr_right b k c hb]
  exact GoKey.eq_false_symm b c (hn.1 c hc)

theorem length_eraseKey (k : K) (l : List (K × V)) (hn : KeysApart l) :
    (eraseKey k l).length =
      if (lookupKey k l).isSome then l.length - 1 else l.length := by
  induction l with
  | nil => simp [eraseKey, lookupKey]
  | cons p l ih =>
    obtain ⟨b, w⟩ := p
    cases hb : GoKey.eq b k with
    | true =>
      have h1 : eraseKey k l = l :=
        eraseKey_of_absent k l (lookupKey_tail_of_apart k b w l hn hb)
      simp [eraseKey, lookupKey, hb, h1]
    | false =>
      have hn2 : KeysApart l := by
        simp only [KeysApart, keysOf, List.map_cons, List.pairwise_cons] at hn
        exact hn.2
      simp only [eraseKey, hb, Bool.false_eq_true, if_false, List.length_cons, ih hn2,
        lookupKey]
      split
      · rename_i hk
        have : 0 < l.length := by
          cases l with
          | nil => simp [lookupKey] at hk
          | cons _ _ => simp
        omega
      · rfl

theorem lookupKey_eq_some_iff (k : K) (v : V) (l : List (K × V)) (hn : KeysApart l) :
    lookupKey k l = some v ↔ ∃ a, (a, v) ∈ l ∧ GoKey.eq a k = true := by
  induction l with
  | nil => simp [lookupKey]
  | cons p l ih =>
    obtain ⟨b, w⟩ := p
    have hn2 : KeysApart l := by
      simp only [KeysApart, keysOf, List.map_cons, List.pairwise_cons] at hn
      exact hn.2
    cases hb : GoKey.eq b k with
    | true =>
      have hnone := lookupKey_tail_of_apart k b w l hn hb
      simp only [lookupKey, hb, if_true, Option.some.injEq, List.mem_cons, Prod.mk.injEq]
      constructor
      · intro e
        exact ⟨b, Or.inl ⟨rfl, e.symm⟩, hb⟩
      · rintro ⟨a, h1 | h1, h2⟩
        · exact h1.2.symm
        · rw [lookupKey_eq_none_iff] at hnone
          have := hnone a (by simp only [keysOf, List.mem_map]; exact ⟨(a, v), h1, rfl⟩)
          rw [h2] at this
          exact absurd this (by simp)
    | false =>
      simp only [lookupKey, hb, Bool.false_eq_true, if_false, ih hn2, List.mem_cons,
        Prod.mk.injEq]
      constructor
      · rintro ⟨a, h1, h2⟩
        exact ⟨a, Or.inr h1, h2⟩
      · rintro ⟨a, h1 | h1, h2⟩
        · rw [h1.1, hb] at h2
          exact absurd h2 (by simp)
        · exact ⟨a, h1, h2⟩

end EntryLemmas

/-! ## Producer runs -/

section ProducerLemmas

variable {E : Type}

theorem handoffs_map_handoff (es : List E) (tl : List (Event E)) :
    handoffs (es.map Event.handoff ++ tl) = es ++ handoffs tl := by
  induction es with
  | nil => rfl
  | cons e es ih => simp [handoffs, ih]

theorem produce_never (i : Nat) (es : List E) :
    produce (fun _ => false) i es = es.map Event.handoff ++ [Event.iterationDone] := by
  induction es generalizing i with
  | nil => rfl
  | cons e es ih => simp [produce, ih]

theorem produce_run (cancelled : Nat → Bool) (i : Nat) (es : List E) :
    ProducerRun (fun j => cancelled (i + j)) es (produce cancelled i es) := by
  induction es generalizing i with
  | nil =>
    left
    exact ⟨fun j hj => absurd hj (Nat.not_lt_zero j), rfl⟩
  | cons e es ih =>
    by_cases hc : cancelled i = true
    · right
      refine ⟨0, by simp, fun j hj => absurd hj (Nat.not_lt_zero j), by simpa using hc, ?_⟩
      simp [produce, hc]
    · have hc' : cancelled i = false := by simpa using hc
      rcases ih (i + 1) with ⟨hall, htr⟩ | ⟨k, hk, hfirst, hck, htr⟩
      · left
        refine ⟨?_, ?_⟩
        · intro j hj
          cases j with
          | zero => simpa using hc'
          | succ j =>
            have := hall j (by simpa using hj)
            simpa [Nat.add_assoc, Nat.add_comm 1 j] using this
        · simp [produce, hc', htr]
      · right
        refine ⟨k + 1, by simpa using hk, ?_, ?_, ?_⟩
        · intro j hj
          cases j with
          | zero => simpa using hc'
          | succ j =>
            have := hfirst j (by omega)
            simpa [Nat.add_assoc, Nat.add_comm 1 j] using this
        · simpa [Nat.add_assoc, Nat.add_comm 1 k] using hck
        · simp [produce, hc', htr]

theorem completions_map_handoff (es : List E) (tl : List (Event E)) :
    completions (es.map Event.handoff ++ tl) = completions tl := by
  induction es with
  | nil => rfl
  | cons e es ih => simp [completions, ih]

theorem cancellations_map_handoff (es : List E) (tl : List (Event E)) :
    cancellations (es.map Event.handoff ++ tl) = cancellations tl := by
  induction es with
  | nil => rfl
  | cons e es ih => simp [cancellations, ih]

theorem producerRun_once (cancelled : Nat → Bool) (es : List E) (tr : List (Event E))
    (h : ProducerRun cancelled es tr) : completions tr + cancellations tr = 1 := by
  rcases h with ⟨-, htr⟩ | ⟨k, -, -, -, htr⟩
  · rw [htr, completions_map_handoff, cancellations_map_handoff]
    rfl
  · rw [htr, completions_map_handoff, cancellations_map_handoff]
    rfl

theorem produce_run_zero (cancelled : Nat → Bool) (es : List E) :
    ProducerRun cancelled es (produce cancelled 0 es) := by
  have := produce_run cancelled 0 es
  simpa using this

theorem produce_of_none_cancelled (cancelled : Nat → Bool) (i : Nat) (es : List E)
    (h : ∀ j, j < es.length → cancelled (i + j) = false) :
    produce cancelled i es = es.map Event.handoff ++ [Event.iterationDone] := by
  induction es generalizing i with
  | nil => rfl
  | cons e es ih =>
    have h0 : cancelled i = false := by simpa using h 0 (by simp)
    have hrest : ∀ j, j < es.length → cancelled (i + 1 + j) = false := by
      intro j hj
      have := h (j + 1) (by simpa using hj)
      simpa [Nat.add_assoc, Nat.add_comm 1 j] using this
    simp [produce, h0, ih (i + 1) hrest]

theorem produce_of_first_cancelled (cancelled : Nat → Bool) (i k : Nat) (es : List E)
    (hk : k < es.length) (hfirst : ∀ j, j < k → cancelled (i + j) = false)
    (hc : cancelled (i + k) = true) :
    produce cancelled i es = (es.take k).map Event.handoff ++ [Event.cancelObserved] := by
  induction es generalizing i k with
  | nil => simp at hk
  | cons e es ih =>
    cases k with
    | zero =>
      have h0 : cancelled i = true := by simpa using hc
      simp [produce, h0]
    | succ k =>
      have h0 : cancelled i = false := by simpa using hfirst 0 (by omega)
      have hrest : ∀ j, j < k → cancelled (i + 1 + j) = false := by
        intro j hj
        have := hfirst (j + 1) (by omega)
        simpa [Nat.add_assoc, Nat.add_comm 1 j] using this
      have hc2 : cancelled (i + 1 + k) = true := by
        simpa [Nat.add_assoc, Nat.add_comm 1 k] using hc
      simp [produce, h0, ih (i + 1) k (by simpa using hk) hrest hc2]

/-- The two ways of `ProducerRun` leave no choice: the run is the one the
loop makes. -/
theorem producerRun_iff (cancelled : Nat → Bool) (es : List E) (tr : List (Event E)) :
    ProducerRun cancelled es tr ↔ tr = produce cancelled 0 es := by
  constructor
  · rintro (⟨hall, htr⟩ | ⟨k, hk, hfirst, hck, htr⟩)
    · rw [htr, produce_of_none_cancelled cancelled 0 es (by simpa using hall)]
    · rw [htr, produce_of_first_cancelled cancelled 0 k es hk (by simpa using hfirst)
        (by simpa using hck)]
  · intro h
    rw [h]
    exact produce_run_zero cancelled es

theorem length_indexed {V : Type} (i : Nat) (vs : List V) :
    (indexed i vs).length = vs.length := by
  induction vs generalizing i with
  | nil => rfl
  | cons v vs ih => simp [indexed, ih]

theorem getElem?_indexed {V : Type} (i j : Nat) (vs : List V) (hj : j < vs.length) :
    (indexed i vs)[j]? = some (NewTuple ((i + j : Nat) : Int) vs[j]) := by
  induction vs generalizing i j with
  | nil => simp at hj
  | cons v vs ih =>
    cases j with
    | zero => simp [indexed]
    | succ j =>
      have hj' : j < vs.length := by simpa using hj
      have := ih (i + 1) j hj'
      simp only [indexed, List.getElem?_cons_succ, List.getElem_cons_succ]
      rw [this]
      congr 3
      omega

end ProducerLemmas

/-! ## Facts about the heap of maps -/

section HeapLemmas

variable {K V : Type} [GoKey K]

theorem table_lock (h : Heap K V) (sm : Ptr) (o : SafeMapObj)
    (hsm : h.safeMaps[sm]? = some o) (hfree : o.lock = false) :
    ∃ h1, Mutex.Lock sm h = (.ok o, h1) ∧ h1.tables = h.tables ∧ h1.maps = h.maps ∧
      h1.safeMaps = h.safeMaps.set sm { o with lock := true } ∧
      h1.log = h.log ++ [LockEvent.acquire sm] := by
  refine ⟨{ h with safeMaps := h.safeMaps.set sm { o with lock := true },
                    log := h.log ++ [LockEvent.acquire sm] }, ?_, rfl, rfl, rfl, rfl⟩
  simp [Mutex.Lock, hsm, hfree]

theorem table_eq_of_eq (h h1 : Heap K V) (m : Ptr) (ht : h1.tables = h.tables)
    (hm : h1.maps = h.maps) : h1.table m = h.table m := by
  simp [Heap.table, ht, hm]

theorem table_iff (h : Heap K V) (m : Ptr) (tb : GoMap K V) :
    h.table m = some tb ↔ ∃ t, h.maps[m]? = some t ∧ h.tables[t]? = some tb := by
  unfold Heap.table
  cases h.maps[m]? with
  | none => simp
  | some t => simp

theorem putTable_eq (h : Heap K V) (m t : Ptr) (tb : GoMap K V) (f : GoMap K V → GoMap K V)
    (h1 : h.maps[m]? = some t) (h2 : h.tables[t]? = some tb) :
    h.putTable m f = (.ok (), { h with tables := h.tables.set t (f tb) }) := by
  simp [Heap.putTable, h1, h2]

theorem table_putTable (h : Heap K V) (m : Ptr) (tb : GoMap K V) (f : GoMap K V → GoMap K V)
    (ht : h.table m = some tb) :
    ∃ h1, h.putTable m f = (.ok (), h1) ∧ h1.table m = some (f tb) ∧ h1.maps = h.maps ∧
      h1.safeMaps = h.safeMaps ∧ h1.log = h.log := by
  obtain ⟨t, h1, h2⟩ := (table_iff h m tb).1 ht
  refine ⟨_, putTable_eq h m t tb f h1 h2, ?_, rfl, rfl, rfl⟩
  have hlt : t < h.tables.length := by
    rcases List.getElem?_eq_some_iff.1 h2 with ⟨hlt, -⟩
    exact hlt
  simp [Heap.table, h1, hlt]

theorem table_clear (h : Heap K V) (m : Ptr) (tb : GoMap K V) (ht : h.table m = some tb) :
    ∃ h1, Map.Clear m h = (.ok (), h1) ∧ h1.table m = some GoMap.empty := by
  obtain ⟨t, h1, -⟩ := (table_iff h m tb).1 ht
  have hlt : m < h.maps.length := by
    rcases List.getElem?_eq_some_iff.1 h1 with ⟨hlt, -⟩
    exact hlt
  refine ⟨{ h with tables := h.tables ++ [GoMap.empty],
                   maps := h.maps.set m h.tables.length }, ?_, ?_⟩
  · simp [Map.Clear, h1]
  · simp [Heap.table, hlt]

theorem get_of_table [Inhabited V] (h : Heap K V) (m : Ptr) (tb : GoMap K V)
    (ht : h.table m = some tb) (k : K) : Map.Get m k h = .ok (tb.index k) := by
  simp [Map.Get, ht]

theorem len_of_table (h : Heap K V) (m : Ptr) (tb : GoMap K V)
    (ht : h.table m = some tb) : Map.Len m h = .ok tb.len := by
  simp [Map.Len, ht]

theorem index_of_absent [Inhabited V] (tb : GoMap K V) (k : K)
    (hk : ∀ a ∈ tb.keys, GoKey.eq a k = false) : tb.index k = (default, false) := by
  have : tb.lookup k = none := (lookupKey_eq_none_iff k tb.entries).2 hk
  simp [GoMap.index, this]

theorem index_snd [Inhabited V] (tb : GoMap K V) (k : K) :
    (tb.index k).2 = (tb.lookup k).isSome := by
  unfold GoMap.index
  cases tb.lookup k <;> rfl

theorem isSome_lookup_iff (tb : GoMap K V) (k : K) :
    (tb.lookup k).isSome = true ↔ ∃ a ∈ tb.keys, GoKey.eq a k = true :=
  lookupKey_isSome_iff k tb.entries

theorem table_newMap (items : List (Tuple K V)) (h : Heap K V) :
    (NewMap items h).2.table (NewMap items h).1 =
      some (if items.length > 0 then fillTable items else GoMap.empty) := by
  simp [NewMap, Heap.table]

theorem locked_eq {α : Type} (h : Heap K V) (sm : Ptr) (o : SafeMapObj)
    (hsm : h.safeMaps[sm]? = some o) (hfree : o.lock = false)
    (body : Ptr → Heap K V → Except Fault α × Heap K V) :
    ∃ h1, Mutex.Lock sm h = (.ok o, h1) ∧ h1.tables = h.tables ∧ h1.maps = h.maps ∧
      SafeMap.locked sm h body = ((body o.m h1).1, Mutex.Unlock sm (body o.m h1).2) := by
  obtain ⟨h1, hl, ht, hm, -, -⟩ := table_lock h sm o hsm hfree
  refine ⟨h1, hl, ht, hm, ?_⟩
  simp [SafeMap.locked, hl]

theorem set_self_of_getElem? {α : Type} (l : List α) (i : Nat) (a : α)
    (h : l[i]? = some a) : l.set i a = l := by
  induction l generalizing i with
  | nil => rfl
  | cons b l ih =>
    cases i with
    | zero =>
      simp only [List.getElem?_cons_zero, Option.some.injEq] at h
      simp [h]
    | succ i =>
      simp only [List.getElem?_cons_succ] at h
      simp [ih i h]

theorem any_keysOf_eq_isSome (x : K) (l : List (K × V)) :
    (keysOf l).any (fun b => GoKey.eq b x) = (lookupKey x l).isSome := by
  induction l with
  | nil => rfl
  | cons p l ih =>
    obtain ⟨b, w⟩ := p
    cases hb : GoKey.eq b x with
    | true => simp [keysOf, lookupKey, hb]
    | false =>
      simp only [keysOf, List.map_cons, List.any_cons, hb, Bool.false_or, lookupKey,
        Bool.false_eq_true, if_false]
      exact ih

theorem lookup_store (t : GoMap K V) (a k : K) (v : V) :
    (t.store a v).lookup k = if GoKey.eq a k then some v else t.lookup k :=
  lookupKey_storeKey a k v t.entries

theorem any_keys_store (t : GoMap K V) (a x : K) (v : V) :
    (t.store a v).keys.any (fun b => GoKey.eq b x) =
      (a :: t.keys).any (fun b => GoKey.eq b x) := by
  have h1 := any_keysOf_eq_isSome x (t.store a v).entries
  have h2 := any_keysOf_eq_isSome x t.entries
  have h3 : lookupKey x (t.store a v).entries =
      if GoKey.eq a x then some v else lookupKey x t.entries := lookup_store t a x v
  unfold GoMap.keys
  rw [h1, List.any_cons, h2, h3]
  cases GoKey.eq a x <;> simp

theorem countFresh_congr (l : List K) (s1 s2 : List K)
    (h : ∀ x, s1.any (fun b => GoKey.eq b x) = s2.any (fun b => GoKey.eq b x)) :
    countFresh s1 l = countFresh s2 l := by
  induction l generalizing s1 s2 with
  | nil => rfl
  | cons a l ih =>
    simp only [countFresh, h a]
    congr 1
    apply ih
    intro x
    simp only [List.any_cons, h x]

theorem countFresh_perm (l1 l2 : List K) (hp : l1.Perm l2) (seen : List K) :
    countFresh seen l1 = countFresh seen l2 := by
  induction hp generalizing seen with
  | nil => rfl
  | cons a _ ih =>
    simp only [countFresh]
    rw [ih]
  | swap a b l =>
    simp only [countFresh, List.any_cons]
    have hc : countFresh (b :: a :: seen) l = countFresh (a :: b :: seen) l := by
      apply countFresh_congr
      intro x
      simp only [List.any_cons]
      cases GoKey.eq a x <;> cases GoKey.eq b x <;> simp
    rw [hc]
    rcases Bool.eq_false_or_eq_true (GoKey.eq a b) with hab | hab
    · have hba : GoKey.eq b a = true := GoKey.symm a b hab
      have hs : seen.any (fun c => GoKey.eq c a) = seen.any (fun c => GoKey.eq c b) := by
        congr 1
        funext c
        exact GoKey.eq_congr_right a b c hab
      simp only [hab, hba, Bool.true_or, if_true, hs]
    · have hba : GoKey.eq b a = false := GoKey.eq_false_symm a b hab
      simp only [hab, hba, Bool.false_or]
      omega
  | trans _ _ ih1 ih2 => rw [ih1, ih2]

theorem countDistinct_perm (l1 l2 : List K) (hp : l1.Perm l2) :
    countDistinct l1 = countDistinct l2 :=
  countFresh_perm l1 l2 hp []

/-- Where `==` is plain equality, no key of a list is `==` to `k` exactly
when `k` is not in the list. -/
theorem absent_iff_not_mem {α : Type} [DecidableEq α] (l : List α) (k : α) :
    (∀ a ∈ l, @GoKey.eq α (GoKey.ofDecidableEq α) a k = false) ↔ k ∉ l := by
  constructor
  · intro h hk
    have := h k hk
    exact absurd (show @GoKey.eq α (GoKey.ofDecidableEq α) k k = true from decide_eq_true rfl)
      (by rw [this]; simp)
  · intro h a ha
    exact decide_eq_false (fun e => h (e ▸ ha))

/-- Where `==` is plain equality, a key of a list is `==` to `k` exactly when
`k` is in the list. -/
theorem present_iff_mem {α : Type} [DecidableEq α] (l : List α) (k : α) :
    (∃ a ∈ l, @GoKey.eq α (GoKey.ofDecidableEq α) a k = true) ↔ k ∈ l := by
  constructor
  · rintro ⟨a, ha, hak⟩
    have : a = k := of_decide_eq_true hak
    exact this ▸ ha
  · intro h
    exact ⟨k, h, decide_eq_true rfl⟩

theorem countFresh_eq_card {α : Type} [DecidableEq α] (l seen : List α) :
    @countFresh α (GoKey.ofDecidableEq α) seen l = (l.toFinset \ seen.toFinset).card := by
  letI : GoKey α := GoKey.ofDecidableEq α
  induction l generalizing seen with
  | nil => simp [countFresh]
  | cons a l ih =>
    have hany : seen.any (fun b => GoKey.eq b a) = decide (a ∈ seen) := by
      rw [Bool.eq_iff_iff]
      simp only [List.any_eq_true, decide_eq_true_eq]
      constructor
      · rintro ⟨b, hb, hba⟩
        have : b = a := of_decide_eq_true hba
        rw [← this]
        exact hb
      · intro ha
        exact ⟨a, ha, decide_eq_true rfl⟩
    simp only [countFresh, hany, ih, List.toFinset_cons]
    by_cases ha : a ∈ seen
    · have ha2 : a ∈ seen.toFinset := List.mem_toFinset.2 ha
      simp only [ha, decide_True, if_true, Nat.zero_add]
      rw [Finset.insert_eq_of_mem ha2, Finset.insert_sdiff_of_mem _ ha2]
    · have ha2 : a ∉ seen.toFinset := fun h => ha (List.mem_toFinset.1 h)
      simp only [ha, decide_False, Bool.false_eq_true, if_false]
      rw [Finset.insert_sdiff_of_not_mem _ ha2, Finset.sdiff_insert]
      by_cases hx : a ∈ l.toFinset \ seen.toFinset
      · rw [Finset.insert_eq_of_mem hx, Finset.card_erase_of_mem hx]
        have : 0 < (l.toFinset \ seen.toFinset).card := Finset.card_pos.2 ⟨a, hx⟩
        omega
      · rw [Finset.card_insert_of_not_mem hx, Finset.erase_eq_of_not_mem hx]
        omega

/-- Where `==` is plain equality, `countDistinct` is the number of distinct
keys. -/
theorem countDistinct_eq_dedup_length {α : Type} [DecidableEq α] (l : List α) :
    @countDistinct α (GoKey.ofDecidableEq α) l = l.dedup.length := by
  unfold countDistinct
  rw [countFresh_eq_card, ← List.card_toFinset]
  simp

theorem len_foldl_store (items : List (Tuple K V)) (t : GoMap K V) :
    (items.foldl (fun t item => t.store item.Key item.Value) t).len =
      t.len + countFresh t.keys (items.map Tuple.Key) := by
  induction items generalizing t with
  | nil => simp [countFresh]
  | cons it items ih =>
    simp only [List.foldl_cons, List.map_cons, countFresh]
    rw [ih, countFresh_congr _ _ _ (fun x => any_keys_store t it.Key x it.Value)]
    have h1 : (t.store it.Key it.Value).len =
        if (lookupKey it.Key t.entries).isSome then t.len else t.len + 1 :=
      length_storeKey it.Key it.Value t.entries
    have h2 : t.keys.any (fun b => GoKey.eq b it.Key) = (lookupKey it.Key t.entries).isSome :=
      any_keysOf_eq_isSome it.Key t.entries
    rw [h1, h2]
    rcases Bool.eq_false_or_eq_true (lookupKey it.Key t.entries).isSome with hc | hc <;>
      simp only [hc, if_true, Bool.false_eq_true, if_false] <;> omega

theorem len_fillTable (items : List (Tuple K V)) :
    (fillTable items).len = countDistinct (items.map Tuple.Key) := by
  unfold fillTable countDistinct
  rw [len_foldl_store]
  simp [GoMap.empty, GoMap.keys, GoMap.len, keysOf]

theorem lookup_foldl_store (items : List (Tuple K V)) (t : GoMap K V) (k : K) :
    (items.foldl (fun t item => t.store item.Key item.Value) t).lookup k =
      match items.reverse.find? (fun item => GoKey.eq item.Key k) with
      | some item => some item.Value
      | none => t.lookup k := by
  induction items generalizing t with
  | nil => simp
  | cons it items ih =>
    simp only [List.foldl_cons, List.reverse_cons, List.find?_append]
    rw [ih]
    cases hf : items.reverse.find? (fun item => GoKey.eq item.Key k) with
    | some x => simp
    | none =>
      cases hk : GoKey.eq it.Key k with
      | true => simp [lookup_store, hk, List.find?]
      | false => simp [lookup_store, hk, List.find?]

theorem lookup_fillTable_of_absent (items : List (Tuple K V)) (k : K)
    (hk : ∀ it ∈ items, GoKey.eq it.Key k = false) : (fillTable items).lookup k = none := by
  unfold fillTable
  rw [lookup_foldl_store]
  have : items.reverse.find? (fun item => GoKey.eq item.Key k) = none := by
    rw [List.find?_eq_none]
    intro x hx
    rw [hk x (List.mem_reverse.1 hx)]
    simp
  rw [this]
  rfl

theorem table_setAll (cs : List (Tuple K V)) (h : Heap K V) (m : Ptr) (tb : GoMap K V)
    (ht : h.table m = some tb) :
    ∃ h1, Map.setAll m cs h = (.ok (), h1) ∧
      h1.table m = some (cs.foldl (fun t item => t.store item.Key item.Value) tb) := by
  induction cs generalizing h tb with
  | nil => exact ⟨h, rfl, ht⟩
  | cons c cs ih =>
    obtain ⟨h1, hset, ht1, -, -, -⟩ := table_putTable h m tb (fun tb => tb.store c.Key c.Value) ht
    obtain ⟨h2, hall, ht2⟩ := ih h1 (tb.store c.Key c.Value) ht1
    refine ⟨h2, ?_, ht2⟩
    have hset' : Map.Set m c.Key c.Value h = (.ok (), h1) := hset
    simp only [Map.setAll, hset']
    exact hall

theorem unlock_eq (h : Heap K V) (sm : Ptr) (o : SafeMapObj) (hsm : h.safeMaps[sm]? = some o) :
    Mutex.Unlock sm h = { h with safeMaps := h.safeMaps.set sm { o with lock := false },
                                 log := h.log ++ [LockEvent.release sm] } := by
  simp [Mutex.Unlock, hsm]

theorem safeSet_spec (h : Heap K V) (sm : Ptr) (o : SafeMapObj) (tbs : GoMap K V)
    (hsm : h.safeMaps[sm]? = some o) (hfree : o.lock = false)
    (hts : h.table o.m = some tbs) (k : K) (v : V) :
    ∃ h3, SafeMap.Set sm k v h = (.ok (), h3) ∧ h3.safeMaps[sm]? = some o ∧
      h3.table o.m = some (tbs.store k v) := by
  obtain ⟨h1, hl, htab, hmaps, hsafe, -⟩ := table_lock h sm o hsm hfree
  have ht1 : h1.table o.m = some tbs := by
    rw [table_eq_of_eq h h1 o.m htab hmaps]; exact hts
  obtain ⟨h2, hset, ht2, hmaps2, hsafe2, -⟩ :=
    table_putTable h1 o.m tbs (fun tb => tb.store k v) ht1
  have hset' : Map.Set o.m k v h1 = (.ok (), h2) := hset
  have hlt : sm < h.safeMaps.length := by
    rcases List.getElem?_eq_some_iff.1 hsm with ⟨hlt, -⟩
    exact hlt
  have hsm2 : h2.safeMaps[sm]? = some { o with lock := true } := by
    rw [hsafe2, hsafe]
    simp [hlt]
  refine ⟨Mutex.Unlock sm h2, ?_, ?_, ?_⟩
  · simp [SafeMap.Set, SafeMap.locked, hl, hset']
  · rw [unlock_eq h2 sm _ hsm2]
    have hlt2 : sm < h2.safeMaps.length := by
      rcases List.getElem?_eq_some_iff.1 hsm2 with ⟨hlt2, -⟩
      exact hlt2
    cases o with
    | mk om ol =>
      simp only at hfree
      subst hfree
      simp [hlt2]
  · rw [unlock_eq h2 sm _ hsm2]
    exact ht2

theorem table_safeSetAll (cs : List (Tuple K V)) (h : Heap K V) (sm : Ptr) (o : SafeMapObj)
    (tbs : GoMap K V) (hsm : h.safeMaps[sm]? = some o) (hfree : o.lock = false)
    (hts : h.table o.m = some tbs) :
    ∃ h1, SafeMap.setAll sm cs h = (.ok (), h1) ∧ h1.safeMaps[sm]? = some o ∧
      h1.table o.m = some (cs.foldl (fun t item => t.store item.Key item.Value) tbs) := by
  induction cs generalizing h tbs with
  | nil => exact ⟨h, rfl, hsm, hts⟩
  | cons c cs ih =>
    obtain ⟨h1, hset, hsm1, ht1⟩ := safeSet_spec h sm o tbs hsm hfree hts c.Key c.Value
    obtain ⟨h2, hall, hsm2, ht2⟩ := ih h1 (tbs.store c.Key c.Value) hsm1 ht1
    refine ⟨h2, ?_, hsm2, ht2⟩
    simp only [SafeMap.setAll, hset]
    exact hall

theorem safeLen_spec (h : Heap K V) (sm : Ptr) (o : SafeMapObj) (tbs : GoMap K V)
    (hsm : h.safeMaps[sm]? = some o) (hfree : o.lock = false)
    (hts : h.table o.m = some tbs) : (SafeMap.Len sm h).1 = .ok tbs.len := by
  obtain ⟨h1, -, htab, hmaps, hloc⟩ :=
    locked_eq h sm o hsm hfree (fun inner h1 => (Map.Len inner h1, h1))
  have ht1 : h1.table o.m = some tbs := by
    rw [table_eq_of_eq h h1 o.m htab hmaps]; exact hts
  simp only [SafeMap.Len, hloc]
  exact len_of_table h1 o.m tbs ht1

theorem newSafeMap_spec (items : List (Tuple K V)) (h : Heap K V) :
    (NewSafeMap items h).2.safeMaps[(NewSafeMap items h).1]? =
        some ⟨(NewMap items h).1, false⟩ ∧
      (NewSafeMap items h).2.table (NewMap items h).1 =
        some (if items.length > 0 then fillTable items else GoMap.empty) := by
  constructor
  · simp [NewSafeMap]
  · have := table_newMap items h
    rw [← this]
    exact table_eq_of_eq _ _ _ rfl rfl

/-- Two `Map` structs that are apart: different structs over different
tables, both allocated. -/
def Apart (h : Heap K V) (p c tp tc : Ptr) : Prop :=
  h.maps[p]? = some tp ∧ h.maps[c]? = some tc ∧ p ≠ c ∧ tp ≠ tc ∧
    tp < h.tables.length ∧ tc < h.tables.length

theorem putTable_frame (h : Heap K V) (p c tp tc : Ptr) (ha : Apart h p c tp tc)
    (f : GoMap K V → GoMap K V) :
    ∃ h2, h.putTable p f = (.ok (), h2) ∧ Apart h2 p c tp tc ∧
      h2.tables[tc]? = h.tables[tc]? := by
  obtain ⟨hp, hc, hne, hnt, hltp, hltc⟩ := ha
  have h2 : h.tables[tp]? = some (h.tables[tp]) := List.getElem?_eq_getElem hltp
  refine ⟨_, putTable_eq h p tp _ f hp h2, ⟨hp, hc, hne, hnt, ?_, ?_⟩, ?_⟩
  · simpa using hltp
  · simpa using hltc
  · simp [List.getElem?_set_ne hnt]

theorem applyOp_frame (h : Heap K V) (p c tp tc : Ptr) (ha : Apart h p c tp tc)
    (op : MapOp K V) :
    ∃ h2 tp2, Map.applyOp p op h = (.ok (), h2) ∧ Apart h2 p c tp2 tc ∧
      h2.tables[tc]? = h.tables[tc]? := by
  cases op with
  | set k v =>
    obtain ⟨h2, h1, h3, h4⟩ := putTable_frame h p c tp tc ha (fun tb => tb.store k v)
    exact ⟨h2, tp, h1, h3, h4⟩
  | setElem e =>
    obtain ⟨h2, h1, h3, h4⟩ := putTable_frame h p c tp tc ha (fun tb => tb.store e.Key e.Value)
    exact ⟨h2, tp, h1, h3, h4⟩
  | appendElem e =>
    obtain ⟨h2, h1, h3, h4⟩ := putTable_frame h p c tp tc ha (fun tb => tb.store e.Key e.Value)
    exact ⟨h2, tp, h1, h3, h4⟩
  | delete k =>
    obtain ⟨h2, h1, h3, h4⟩ := putTable_frame h p c tp tc ha (fun tb => tb.delete k)
    exact ⟨h2, tp, h1, h3, h4⟩
  | clear =>
    obtain ⟨hp, hc, hne, hnt, hltp, hltc⟩ := ha
    have hpl : p < h.maps.length := by
      rcases List.getElem?_eq_some_iff.1 hp with ⟨hlt, -⟩
      exact hlt
    refine ⟨{ h with tables := h.tables ++ [GoMap.empty],
                     maps := h.maps.set p h.tables.length }, h.tables.length, ?_,
      ⟨?_, ?_, hne, ?_, ?_, ?_⟩, ?_⟩
    · simp [Map.applyOp, Map.Clear, hp]
    · simp [hpl]
    · simp [List.getElem?_set_ne hne, hc]
    · exact fun e => absurd hltc (by rw [← e]; exact Nat.lt_irrefl _)
    · simp
    · exact Nat.lt_of_lt_of_le hltc (by simp)
    · simp [List.getElem?_append_left hltc]

theorem applyOps_frame (ops : List (MapOp K V)) (h : Heap K V) (p c tp tc : Ptr)
    (ha : Apart h p c tp tc) :
    ∃ h2 tp2, Map.applyOps p ops h = (.ok (), h2) ∧ Apart h2 p c tp2 tc ∧
      h2.tables[tc]? = h.tables[tc]? := by
  induction ops generalizing h tp with
  | nil => exact ⟨h, tp, rfl, ha, rfl⟩
  | cons op ops ih =>
    obtain ⟨h1, tp1, hop, ha1, hsame1⟩ := applyOp_frame h p c tp tc ha op
    obtain ⟨h2, tp2, hops, ha2, hsame2⟩ := ih h1 tp1 ha1
    refine ⟨h2, tp2, ?_, ha2, hsame2.trans hsame1⟩
    simp only [Map.applyOps, hop]
    exact hops

theorem applyOps_table (ops : List (MapOp K V)) (h : Heap K V) (p c tp tc : Ptr)
    (ha : Apart h p c tp tc) :
    (Map.applyOps p ops h).1 = .ok () ∧
      (Map.applyOps p ops h).2.table c = h.table c := by
  obtain ⟨h2, tp2, hops, ha2, hsame⟩ := applyOps_frame ops h p c tp tc ha
  rw [hops]
  refine ⟨rfl, ?_⟩
  simp only [Heap.table, ha2.2.1, ha.2.1, hsame]

theorem clone_spec (ρ : RangeOrder K V) (h : Heap K V) (c : Ptr) (tb : GoMap K V)
    (ht : h.table c = some tb) :
    ∃ tc h1, Map.Clone ρ c h = (.ok (.ofMap h.maps.length), h1) ∧
      Apart h1 h.maps.length c h.tables.length tc ∧ h1.table c = h.table c ∧
      h1.table h.maps.length =
        some (fillTable ((tb.range ρ).map (fun e => NewTuple e.1 e.2))) := by
  obtain ⟨tc, hc, htc⟩ := (table_iff h c tb).1 ht
  have hcl : c < h.maps.length := by
    rcases List.getElem?_eq_some_iff.1 hc with ⟨hlt, -⟩
    exact hlt
  have htl : tc < h.tables.length := by
    rcases List.getElem?_eq_some_iff.1 htc with ⟨hlt, -⟩
    exact hlt
  refine ⟨tc, (NewMap ((tb.range ρ).map (fun e => NewTuple e.1 e.2)) h).2, ?_,
    ⟨?_, ?_, ?_, ?_, ?_, ?_⟩, ?_, ?_⟩
  · simp [Map.Clone, ht, NewMap]
  · simp [NewMap]
  · simp [NewMap, List.getElem?_append_left hcl, hc]
  · exact fun e => absurd hcl (by rw [← e]; exact Nat.lt_irrefl _)
  · exact fun e => absurd htl (by rw [← e]; exact Nat.lt_irrefl _)
  · simp [NewMap]
  · exact Nat.lt_of_lt_of_le htl (by simp [NewMap])
  · simp [NewMap, Heap.table, List.getElem?_append_left hcl, hc,
      List.getElem?_append_left htl]
  · have hnm := table_newMap ((tb.range ρ).map (fun e => NewTuple e.1 e.2)) h
    have hp1 : (NewMap ((tb.range ρ).map (fun e => NewTuple e.1 e.2)) h).1 = h.maps.length :=
      rfl
    rw [hp1] at hnm
    rw [hnm]
    congr 1
    split
    · rfl
    · rename_i hl
      have : (tb.range ρ).map (fun e => NewTuple e.1 e.2) = [] := by
        apply List.eq_nil_of_length_eq_zero
        omega
      rw [this]
      rfl

theorem apart_symm (h : Heap K V) (p c tp tc : Ptr) (ha : Apart h p c tp tc) :
    Apart h c p tc tp :=
  ⟨ha.2.1, ha.1, fun e => ha.2.2.1 e.symm, fun e => ha.2.2.2.1 e.symm, ha.2.2.2.2.2,
    ha.2.2.2.2.1⟩

theorem values_of_table (ρ : RangeOrder K V) (h1 h2 : Heap K V) (m1 m2 : Ptr)
    (ht : h1.table m1 = h2.table m2) : Map.Values ρ m1 h1 = Map.Values ρ m2 h2 := by
  simp [Map.Values, ht]

theorem len_eq_of_table (h1 h2 : Heap K V) (m1 m2 : Ptr)
    (ht : h1.table m1 = h2.table m2) : Map.Len m1 h1 = Map.Len m2 h2 := by
  simp [Map.Len, ht]

theorem get_eq_of_table [Inhabited V] (h1 h2 : Heap K V) (m1 m2 : Ptr)
    (ht : h1.table m1 = h2.table m2) (k : K) : Map.Get m1 k h1 = Map.Get m2 k h2 := by
  simp [Map.Get, ht]

theorem apart_of_perm (l1 l2 : List (K × V)) (hp : l1.Perm l2) (h : KeysApart l2) :
    KeysApart l1 := by
  unfold KeysApart at *
  have hp2 : (keysOf l1).Perm (keysOf l2) := hp.map _
  exact (List.Perm.pairwise_iff (fun {a b} hab => GoKey.eq_false_symm a b hab) hp2).2 h

theorem entries_foldl_store (es : List (K × V)) (t : GoMap K V)
    (h : KeysApart (t.entries ++ es)) :
    ((es.map (fun e => NewTuple e.1 e.2)).foldl
        (fun t item => t.store item.Key item.Value) t).entries = t.entries ++ es := by
  induction es generalizing t with
  | nil => simp
  | cons e es ih =>
    obtain ⟨k, v⟩ := e
    have habs : lookupKey k t.entries = none := by
      rw [lookupKey_eq_none_iff]
      intro a ha
      simp only [KeysApart, keysOf, List.map_append, List.map_cons,
        List.pairwise_append] at h
      exact h.2.2 a ha k (List.mem_cons_self _ _)
    have hst : (t.store k v).entries = t.entries ++ [(k, v)] :=
      storeKey_of_absent k v t.entries habs
    simp only [List.map_cons, List.foldl_cons]
    have hk : (NewTuple k v).Key = k := rfl
    have hv : (NewTuple k v).Value = v := rfl
    rw [hk, hv, ih (t.store k v) (by rw [hst, List.append_assoc]; exact h), hst,
      List.append_assoc]
    rfl

theorem fillTable_range (ρ : RangeOrder K V) (tb : GoMap K V) :
    (fillTable ((tb.range ρ).map (fun e => NewTuple e.1 e.2))).len = tb.len ∧
      ∀ k, (fillTable ((tb.range ρ).map (fun e => NewTuple e.1 e.2))).lookup k =
        tb.lookup k := by
  have hap : KeysApart (ρ.order tb.entries) :=
    apart_of_perm _ _ (ρ.perm tb.entries) tb.apart
  have hent : (fillTable ((tb.range ρ).map (fun e => NewTuple e.1 e.2))).entries =
      ρ.order tb.entries := by
    unfold fillTable GoMap.range
    rw [entries_foldl_store _ GoMap.empty (by simpa [GoMap.empty] using hap)]
    simp [GoMap.empty]
  constructor
  · unfold GoMap.len
    rw [hent]
    exact (ρ.perm tb.entries).length_eq
  · intro k
    unfold GoMap.lookup
    rw [hent]
    apply Option.ext
    intro v
    simp only [Option.mem_def]
    rw [lookupKey_eq_some_iff k v _ hap, lookupKey_eq_some_iff k v _ tb.apart]
    constructor
    · rintro ⟨a, h1, h2⟩
      exact ⟨a, (ρ.perm tb.entries).mem_iff.1 h1, h2⟩
    · rintro ⟨a, h1, h2⟩
      exact ⟨a, (ρ.perm tb.entries).mem_iff.2 h1, h2⟩

theorem index_eq_of_lookup [Inhabited V] (t1 t2 : GoMap K V) (k : K)
    (h : t1.lookup k = t2.lookup k) : t1.index k = t2.index k := by
  simp [GoMap.index, h]

theorem safeGet_spec [Inhabited V] (h : Heap K V) (sm : Ptr) (o : SafeMapObj)
    (tbs : GoMap K V) (hsm : h.safeMaps[sm]? = some o) (hfree : o.lock = false)
    (hts : h.table o.m = some tbs) (k : K) : (SafeMap.Get sm k h).1 = .ok (tbs.index k) := by
  obtain ⟨h1, -, htab, hmaps, hloc⟩ :=
    locked_eq h sm o hsm hfree (fun inner h1 => (Map.Get inner k h1, h1))
  have ht1 : h1.table o.m = some tbs := by
    rw [table_eq_of_eq h h1 o.m htab hmaps]; exact hts
  simp only [SafeMap.Get, hloc]
  exact get_of_table h1 o.m tbs ht1 k

theorem safeClone_spec (ρ : RangeOrder K V) (h : Heap K V) (sm : Ptr) (o : SafeMapObj)
    (tbs : GoMap K V) (hsm : h.safeMaps[sm]? = some o) (hfree : o.lock = false)
    (hts : h.table o.m = some tbs) :
    ∃ p h3, SafeMap.Clone ρ sm h = (.ok (.ofMap p), h3) ∧
      h3.table p = some (fillTable ((tbs.range ρ).map (fun e => NewTuple e.1 e.2))) := by
  obtain ⟨h1, -, htab, hmaps, hloc⟩ :=
    locked_eq h sm o hsm hfree (fun inner h1 => Map.Clone ρ inner h1)
  have ht1 : h1.table o.m = some tbs := by
    rw [table_eq_of_eq h h1 o.m htab hmaps]; exact hts
  obtain ⟨tc, h2, hclone, -, -, hnew⟩ := clone_spec ρ h1 o.m tbs ht1
  refine ⟨h1.maps.length, Mutex.Unlock sm h2, ?_, ?_⟩
  · simp only [SafeMap.Clone, hloc, hclone]
  · rw [← hnew]
    unfold Mutex.Unlock
    cases h2.safeMaps[sm]? <;> rfl

/-- A heap with the `SafeMap` structs and the log replaced. -/
def Heap.withSafe (h : Heap K V) (sf : List SafeMapObj) (lg : List LockEvent) : Heap K V :=
  { h with safeMaps := sf, log := lg }

/-- A body that neither reads nor writes the `SafeMap` structs and the log. -/
def Commutes {α : Type} (body : Heap K V → Except Fault α × Heap K V) : Prop :=
  ∀ (h : Heap K V) sf lg,
    body (h.withSafe sf lg) = ((body h).1, (body h).2.withSafe sf lg) ∧
      (body h).2.safeMaps = h.safeMaps ∧ (body h).2.log = h.log

theorem commutes_read {α : Type} (f : Heap K V → Except Fault α)
    (hf : ∀ (h : Heap K V) sf lg, f (h.withSafe sf lg) = f h) :
    Commutes (fun h => (f h, h)) := by
  intro h sf lg
  exact ⟨by simp only [hf], rfl, rfl⟩

theorem table_withSafe (h : Heap K V) (sf : List SafeMapObj) (lg : List LockEvent) (m : Ptr) :
    (h.withSafe sf lg).table m = h.table m := rfl

theorem commutes_putTable (m : Ptr) (f : GoMap K V → GoMap K V) :
    Commutes (fun h : Heap K V => h.putTable m f) := by
  intro h sf lg
  rcases hm : h.maps[m]? with _ | t
  · simp [Heap.putTable, Heap.withSafe, hm]
  · rcases ht : h.tables[t]? with _ | tb <;> simp [Heap.putTable, Heap.withSafe, hm, ht]

theorem commutes_clear (m : Ptr) : Commutes (fun h : Heap K V => Map.Clear m h) := by
  intro h sf lg
  rcases hm : h.maps[m]? with _ | t <;> simp [Map.Clear, Heap.withSafe, hm]

theorem locked_commutes {α : Type} (h : Heap K V) (sm : Ptr) (o : SafeMapObj)
    (hsm : h.safeMaps[sm]? = some o) (hfree : o.lock = false)
    (body : Ptr → Heap K V → Except Fault α × Heap K V) (hb : Commutes (body o.m)) :
    LockWrapped sm h (SafeMap.locked sm h body) (body o.m h) := by
  have hlt : sm < h.safeMaps.length := by
    rcases List.getElem?_eq_some_iff.1 hsm with ⟨hlt, -⟩
    exact hlt
  have hlock : Mutex.Lock sm h = (.ok o, h.withSafe (h.safeMaps.set sm { o with lock := true })
      (h.log ++ [LockEvent.acquire sm])) := by
    simp [Mutex.Lock, hsm, hfree, Heap.withSafe]
  obtain ⟨hb1, hb2, hb3⟩ := hb h (h.safeMaps.set sm { o with lock := true })
    (h.log ++ [LockEvent.acquire sm])
  have ho : ({ m := o.m, lock := false } : SafeMapObj) = o := by
    cases o with
    | mk om ol =>
      simp only at hfree
      subst hfree
      rfl
  simp only [SafeMap.locked, hlock, hb1]
  have hun : Mutex.Unlock sm ((body o.m h).2.withSafe
      (h.safeMaps.set sm { o with lock := true }) (h.log ++ [LockEvent.acquire sm])) =
      (body o.m h).2.withSafe h.safeMaps
        (h.log ++ [LockEvent.acquire sm, LockEvent.release sm]) := by
    simp only [Mutex.Unlock, Heap.withSafe, List.getElem?_set_self hlt, List.set_set, ho,
      set_self_of_getElem? h.safeMaps sm o hsm, List.append_assoc, List.singleton_append]
  rw [hun]
  exact ⟨rfl, rfl, rfl, rfl, rfl⟩

theorem applyOp_valid (op : MapOp K V) (h : Heap K V) (m : Ptr) (tb : GoMap K V)
    (ht : h.table m = some tb) :
    ∃ tb1, (Map.applyOp m op h).1 = .ok () ∧ (Map.applyOp m op h).2.table m = some tb1 := by
  have hput : ∀ f : GoMap K V → GoMap K V,
      ∃ tb1, (h.putTable m f).1 = .ok () ∧ (h.putTable m f).2.table m = some tb1 := by
    intro f
    obtain ⟨h1, he, ht1, -, -, -⟩ := table_putTable h m tb f ht
    exact ⟨f tb, by rw [he], by rw [he]; exact ht1⟩
  cases op with
  | set k v => exact hput _
  | setElem e => exact hput _
  | appendElem e => exact hput _
  | delete k => exact hput _
  | clear =>
    obtain ⟨h1, he, ht1⟩ := table_clear h m tb ht
    refine ⟨GoMap.empty, ?_, ?_⟩
    · show (Map.Clear m h).1 = .ok ()
      rw [he]
    · show (Map.Clear m h).2.table m = some GoMap.empty
      rw [he]; exact ht1

theorem applyOps_valid (ops : List (MapOp K V)) (h : Heap K V) (m : Ptr) (tb : GoMap K V)
    (ht : h.table m = some tb) :
    ∃ tb1, (Map.applyOps m ops h).1 = .ok () ∧ (Map.applyOps m ops h).2.table m = some tb1 := by
  induction ops generalizing h tb with
  | nil => exact ⟨tb, rfl, ht⟩
  | cons op ops ih =>
    obtain ⟨tb1, hok, ht1⟩ := applyOp_valid op h m tb ht
    simp only [Map.applyOps]
    cases hr : Map.applyOp m op h with
    | mk r h1 =>
      rw [hr] at hok ht1
      simp only at hok ht1
      subst hok
      exact ih h1 tb1 ht1

theorem safe_applyOp_wrapped (op : MapOp K V) (h : Heap K V) (sm : Ptr) (o : SafeMapObj)
    (hsm : h.safeMaps[sm]? = some o) (hfree : o.lock = false) :
    LockWrapped sm h (SafeMap.applyOp sm op h) (Map.applyOp o.m op h) := by
  have hput : ∀ (f : GoMap K V → GoMap K V),
      LockWrapped sm h (SafeMap.locked sm h (fun inner h1 => h1.putTable inner f))
        (h.putTable o.m f) := by
    intro f
    exact locked_commutes h sm o hsm hfree (fun inner h1 => h1.putTable inner f)
      (commutes_putTable o.m f)
  cases op with
  | set k v => exact hput _
  | setElem e => exact hput _
  | appendElem e => exact hput _
  | delete k => exact hput _
  | clear =>
    exact locked_commutes h sm o hsm hfree (fun inner h1 => Map.Clear inner h1)
      (commutes_clear o.m)

theorem safe_applyOps_valid (ops : List (MapOp K V)) (h : Heap K V) (sm : Ptr)
    (o : SafeMapObj) (tb : GoMap K V) (hsm : h.safeMaps[sm]? = some o)
    (hfree : o.lock = false) (ht : h.table o.m = some tb) :
    ∃ tb1, (SafeMap.applyOps sm ops h).1 = .ok () ∧
      (SafeMap.applyOps sm ops h).2.safeMaps[sm]? = some o ∧
      (SafeMap.applyOps sm ops h).2.table o.m = some tb1 := by
  induction ops generalizing h tb with
  | nil => exact ⟨tb, rfl, hsm, ht⟩
  | cons op ops ih =>
    obtain ⟨tb1, hok, ht1⟩ := applyOp_valid op h o.m tb ht
    obtain ⟨w1, w2, w3, w4, -⟩ := safe_applyOp_wrapped op h sm o hsm hfree
    simp only [SafeMap.applyOps]
    cases hr : SafeMap.applyOp sm op h with
    | mk r h1 =>
      rw [hr] at w1 w2 w3 w4
      simp only at w1 w2 w3 w4
      rw [hok] at w1
      subst w1
      have hsm1 : h1.safeMaps[sm]? = some o := by rw [w4]; exact hsm
      have ht2 : h1.table o.m = some tb1 := by
        rw [← ht1]
        simp only [Heap.table, w2, w3]
      exact ih h1 tb1 hsm1 ht2

end HeapLemmas

/-! ## Facts about the heap of slices -/

section SliceLemmas

variable {V : Type}

/-- A step from `h` to `h2` that leaves the `Slice` structs alone, frees no
array and writes to no array allocated in `h` other than `a`. -/
def SFrame (h h2 : SliceHeap V) (a : Ptr) : Prop :=
  h2.slices = h.slices ∧ h.arrays.length ≤ h2.arrays.length ∧
    ∀ j, j ≠ a → j < h.arrays.length → h2.arrays[j]? = h.arrays[j]?

/-- Two `Slice` structs that are apart: different structs over different
arrays, both allocated. -/
def SApart (h : SliceHeap V) (p c : Ptr) (sp sc : GoSlice) : Prop :=
  h.slices[p]? = some sp ∧ h.slices[c]? = some sc ∧ p ≠ c ∧ sp.arr ≠ sc.arr ∧
    sp.arr < h.arrays.length ∧ sc.arr < h.arrays.length

theorem sframe_refl (h : SliceHeap V) (a : Ptr) : SFrame h h a :=
  ⟨rfl, Nat.le_refl _, fun _ _ _ => rfl⟩

theorem sframe_assign (h : SliceHeap V) (s : GoSlice) (i : Int) (v : V) :
    SFrame h (h.assign s i v).2 s.arr := by
  unfold SliceHeap.assign
  split
  · cases ha : h.arrays[s.arr]? with
    | none => exact sframe_refl h _
    | some a =>
      refine ⟨rfl, by simp, ?_⟩
      intro j hj _
      simp [List.getElem?_set_ne (Ne.symm hj)]
  · exact sframe_refl h _

theorem sframe_append [Inhabited V] (g : Growth) (h : SliceHeap V) (s : GoSlice)
    (xs : List V) :
    SFrame h (h.append g s xs).2 s.arr ∧
      ∀ s1, (h.append g s xs).1 = .ok s1 →
        (s1.arr = s.arr ∨ s1.arr = h.arrays.length) ∧
          s1.arr < (h.append g s xs).2.arrays.length := by
  unfold SliceHeap.append
  cases ha : h.arrays[s.arr]? with
  | none =>
    refine ⟨sframe_refl h _, ?_⟩
    intro s1 h1
    simp at h1
  | some a =>
    have hlt : s.arr < h.arrays.length := by
      rcases List.getElem?_eq_some_iff.1 ha with ⟨hlt, -⟩
      exact hlt
    by_cases hfit : s.len + xs.length ≤ s.cap
    · simp only [hfit, if_true]
      refine ⟨⟨rfl, by simp, ?_⟩, ?_⟩
      · intro j hj _
        simp [List.getElem?_set_ne (Ne.symm hj)]
      · intro s1 h1
        have : s1 = { s with len := s.len + xs.length } := by
          injection h1 with h1
          exact h1.symm
        subst this
        exact ⟨Or.inl rfl, by simpa using hlt⟩
    · simp only [hfit, if_false]
      refine ⟨⟨rfl, by simp, ?_⟩, ?_⟩
      · intro j _ hj
        simp [List.getElem?_append_left hj]
      · intro s1 h1
        have : s1 = ⟨h.arrays.length, 0, s.len + xs.length,
            s.len + xs.length + g s.cap (s.len + xs.length)⟩ := by
          injection h1 with h1
          exact h1.symm
        subst this
        exact ⟨Or.inr rfl, by simp⟩

theorem sapart_setField (h h1 : SliceHeap V) (p c : Ptr) (sp sc s1 : GoSlice) (a : Ptr)
    (ha : SApart h p c sp sc) (hf : SFrame h h1 a) (hne : a ≠ sc.arr)
    (harr : s1.arr ≠ sc.arr) (hlt : s1.arr < h1.arrays.length) :
    SApart (h1.setField p s1) p c s1 sc ∧
      (h1.setField p s1).arrays[sc.arr]? = h.arrays[sc.arr]? := by
  obtain ⟨hp, hc, hpc, -, -, hltc⟩ := ha
  obtain ⟨hsl, hlen, hsame⟩ := hf
  have hpl : p < h.slices.length := by
    rcases List.getElem?_eq_some_iff.1 hp with ⟨hl, -⟩
    exact hl
  refine ⟨⟨?_, ?_, hpc, harr, hlt, Nat.lt_of_lt_of_le hltc hlen⟩, ?_⟩
  · simp [SliceHeap.setField, hsl, hpl]
  · simp [SliceHeap.setField, hsl, List.getElem?_set_ne hpc, hc]
  · exact hsame sc.arr (Ne.symm hne) hltc

theorem sapart_frame (h h1 : SliceHeap V) (p c : Ptr) (sp sc : GoSlice)
    (ha : SApart h p c sp sc) (hf : SFrame h h1 sp.arr) :
    SApart h1 p c sp sc ∧ h1.arrays[sc.arr]? = h.arrays[sc.arr]? := by
  obtain ⟨hp, hc, hpc, hne, hltp, hltc⟩ := ha
  obtain ⟨hsl, hlen, hsame⟩ := hf
  refine ⟨⟨by rw [hsl]; exact hp, by rw [hsl]; exact hc, hpc, hne,
    Nat.lt_of_lt_of_le hltp hlen, Nat.lt_of_lt_of_le hltc hlen⟩, ?_⟩
  exact hsame sc.arr (Ne.symm hne) hltc

/-- What every mutating call on the struct at `p` keeps of a struct at `c`
that is apart from it. -/
def Kept (h h2 : SliceHeap V) (p c : Ptr) (sc : GoSlice) : Prop :=
  ∃ sp2, SApart h2 p c sp2 sc ∧ h2.arrays[sc.arr]? = h.arrays[sc.arr]?

theorem kept_refl (h : SliceHeap V) (p c : Ptr) (sp sc : GoSlice) (ha : SApart h p c sp sc) :
    Kept h h p c sc := ⟨sp, ha, rfl⟩

theorem kept_append_setField [Inhabited V] (g : Growth) (h : SliceHeap V) (p c : Ptr)
    (sp sc s : GoSlice) (xs : List V) (ha : SApart h p c sp sc) (hs : s.arr = sp.arr) :
    Kept h (match h.append g s xs with
      | (.error f, h1) => ((.error f : Except Fault Unit), h1)
      | (.ok s1, h1) => (.ok (), h1.setField p s1)).2 p c sc := by
  obtain ⟨hf, hres⟩ := sframe_append g h s xs
  rw [hs] at hf
  cases hr : h.append g s xs with
  | mk r h1 =>
    rw [hr] at hf hres
    cases r with
    | error f =>
      obtain ⟨h3, h4⟩ := sapart_frame h h1 p c sp sc ha hf
      exact ⟨sp, h3, h4⟩
    | ok s1 =>
      obtain ⟨harr, hlt⟩ := hres s1 rfl
      have hne : s1.arr ≠ sc.arr := by
        rcases harr with e | e
        · rw [e, hs]; exact ha.2.2.2.1
        · rw [e]
          exact fun e2 => absurd ha.2.2.2.2.2 (by rw [← e2]; exact Nat.lt_irrefl _)
      obtain ⟨h3, h4⟩ := sapart_setField h h1 p c sp sc s1 sp.arr ha hf ha.2.2.2.1 hne hlt
      exact ⟨s1, h3, h4⟩

theorem slice_arr (s sub : GoSlice) (lo hi : Int) (h : s.slice lo hi = .ok sub) :
    sub.arr = s.arr := by
  unfold GoSlice.slice at h
  split at h
  · injection h with h
    rw [← h]
  · simp at h

theorem applyOp_kept [Inhabited V] (g : Growth) (h : SliceHeap V) (p c : Ptr)
    (sp sc : GoSlice) (ha : SApart h p c sp sc) (op : SliceOp V) :
    Kept h (Slice.applyOp g p op h).2 p c sc := by
  have hfield : h.field p = some sp := ha.1
  have hset : ∀ i v, Kept h (Slice.Set p i v h).2 p c sc := by
    intro i v
    simp only [Slice.Set, hfield]
    obtain ⟨h3, h4⟩ := sapart_frame h _ p c sp sc ha (sframe_assign h sp i v)
    exact ⟨sp, h3, h4⟩
  have happ : ∀ v, Kept h (Slice.Append g p v h).2 p c sc := by
    intro v
    simp only [Slice.Append, hfield]
    exact kept_append_setField g h p c sp sc sp [v] ha rfl
  cases op with
  | set i v => exact hset i v
  | setElem e => exact hset e.Key e.Value
  | append v => exact happ v
  | appendElem e => exact happ e.Value
  | delete i =>
    simp only [Slice.applyOp, Slice.Delete, hfield]
    cases hfront : sp.slice 0 i with
    | error f => exact kept_refl h p c sp sc ha
    | ok front =>
      cases hback : sp.slice (i + 1) sp.len with
      | error f => exact kept_refl h p c sp sc ha
      | ok back =>
        cases hxs : h.read back with
        | none =>
          simp only [hxs]
          exact kept_refl h p c sp sc ha
        | some xs =>
          simp only [hxs]
          exact kept_append_setField g h p c sp sc front xs ha (slice_arr sp front 0 i hfront)
  | clear =>
    simp only [Slice.applyOp, Slice.Clear, hfield]
    have hf : SFrame h (h.make 0 0).2 sp.arr := by
      refine ⟨rfl, by simp [SliceHeap.make], ?_⟩
      intro j _ hj
      simp [SliceHeap.make, List.getElem?_append_left hj]
    have hne : (h.make 0 0).1.arr ≠ sc.arr := by
      simp only [SliceHeap.make]
      exact fun e2 => absurd ha.2.2.2.2.2 (by rw [← e2]; exact Nat.lt_irrefl _)
    have hlt : (h.make 0 0).1.arr < (h.make 0 0).2.arrays.length := by
      simp [SliceHeap.make]
    obtain ⟨h3, h4⟩ :=
      sapart_setField h (h.make 0 0).2 p c sp sc (h.make 0 0).1 sp.arr ha hf ha.2.2.2.1 hne hlt
    exact ⟨_, h3, h4⟩

theorem applyOps_kept [Inhabited V] (g : Growth) (ops : List (SliceOp V)) (h : SliceHeap V)
    (p c : Ptr) (sp sc : GoSlice) (ha : SApart h p c sp sc) :
    Kept h (Slice.applyOps g p ops h).2 p c sc := by
  induction ops generalizing h sp with
  | nil => exact kept_refl h p c sp sc ha
  | cons op ops ih =>
    obtain ⟨sp1, ha1, hsame1⟩ := applyOp_kept g h p c sp sc ha op
    simp only [Slice.applyOps]
    cases hr : Slice.applyOp g p op h with
    | mk r h1 =>
      rw [hr] at ha1 hsame1
      cases r with
      | error f => exact ⟨sp1, ha1, hsame1⟩
      | ok u =>
        obtain ⟨sp2, ha2, hsame2⟩ := ih h1 sp1 ha1
        exact ⟨sp2, ha2, hsame2.trans hsame1⟩

theorem kept_observe (h h2 : SliceHeap V) (p c : Ptr) (sc : GoSlice)
    (hc : h.slices[c]? = some sc) (hk : Kept h h2 p c sc) :
    Slice.Len c h2 = Slice.Len c h ∧ (∀ i, Slice.Get c i h2 = Slice.Get c i h) ∧
      Slice.Values c h2 = Slice.Values c h ∧ h2.read sc = h.read sc := by
  obtain ⟨sp2, ha2, hsame⟩ := hk
  have hc2 : h2.slices[c]? = some sc := ha2.2.1
  refine ⟨?_, ?_, ?_, ?_⟩
  · simp [Slice.Len, SliceHeap.field, hc, hc2]
  · intro i
    simp [Slice.Get, SliceHeap.field, hc, hc2, SliceHeap.index, hsame]
  · simp [Slice.Values, SliceHeap.field, hc, hc2]
  · simp [SliceHeap.read, hsame]

theorem writeAt_nil (b : List V) (pos : Nat) : writeAt b pos [] = b := by
  simp [writeAt]

theorem writeAt_cons_succ (x : V) (b : List V) (j : Nat) (xs : List V) :
    writeAt (x :: b) (j + 1) xs = x :: writeAt b j xs := by
  have : j + 1 + xs.length = (j + xs.length) + 1 := by omega
  simp [writeAt, this]

theorem writeAt_set (b : List V) (j : Nat) (v : V) (vs : List V) (hj : j < b.length) :
    writeAt (b.set j v) (j + 1) vs = writeAt b j (v :: vs) := by
  induction b generalizing j with
  | nil => simp at hj
  | cons x b ih =>
    cases j with
    | zero =>
      have : 0 + 1 + vs.length = vs.length + 1 := by omega
      simp [writeAt, this]
    | succ j =>
      have hj' : j < b.length := by simpa using hj
      rw [List.set_cons_succ, writeAt_cons_succ, writeAt_cons_succ, ih j hj']

theorem length_writeAt (b : List V) (pos : Nat) (xs : List V)
    (h : pos + xs.length ≤ b.length) : (writeAt b pos xs).length = b.length := by
  simp only [writeAt, List.length_append, List.length_take, List.length_drop]
  omega

theorem copyInto_spec (vs : List V) (h : SliceHeap V) (dst : GoSlice) (i : Nat) (b : List V)
    (hb : h.arrays[dst.arr]? = some b) (hlen : dst.off + dst.len ≤ b.length)
    (hi : i + vs.length ≤ dst.len) :
    copyInto h dst i vs =
      (.ok (), { h with arrays := h.arrays.set dst.arr (writeAt b (dst.off + i) vs) }) := by
  induction vs generalizing h i b with
  | nil =>
    simp only [copyInto, writeAt_nil]
    rw [set_self_of_getElem? h.arrays dst.arr b hb]
  | cons v vs ih =>
    have hlt : dst.arr < h.arrays.length := by
      rcases List.getElem?_eq_some_iff.1 hb with ⟨hl, -⟩
      exact hl
    have hi' : i < dst.len := by
      simp only [List.length_cons] at hi
      omega
    have hcond : (0 : Int) ≤ (i : Int) ∧ (i : Int) < (dst.len : Int) := by
      constructor
      · exact Int.ofNat_nonneg i
      · exact_mod_cast hi'
    have hassign : h.assign dst (i : Int) v =
        (.ok (), { h with arrays := h.arrays.set dst.arr (b.set (dst.off + i) v) }) := by
      simp [SliceHeap.assign, hcond, hb]
    have hb1 : ({ h with arrays := h.arrays.set dst.arr (b.set (dst.off + i) v) } :
        SliceHeap V).arrays[dst.arr]? = some (b.set (dst.off + i) v) := by
      simp [hlt]
    have hstep := ih { h with arrays := h.arrays.set dst.arr (b.set (dst.off + i) v) }
      (i + 1) (b.set (dst.off + i) v) hb1 (by simpa using hlen)
      (by simp only [List.length_cons] at hi; omega)
    simp only [copyInto, hassign]
    rw [hstep]
    have hw : writeAt (b.set (dst.off + i) v) (dst.off + (i + 1)) vs =
        writeAt b (dst.off + i) (v :: vs) := by
      have := writeAt_set b (dst.off + i) v vs (by omega)
      rw [← this]
      rfl
    simp [hw]

theorem writeAt_replicate_zero [Inhabited V] (xs : List V) (n : Nat) (h : xs.length = n) :
    writeAt (List.replicate n (default : V)) 0 xs = xs := by
  unfold writeAt
  rw [List.take_zero, List.nil_append, Nat.zero_add, h,
    List.drop_eq_nil_of_le (by simp), List.append_nil]

theorem observe_eq (h h2 : SliceHeap V) (c : Ptr) (sc : GoSlice)
    (hc : h.slices[c]? = some sc) (hc2 : h2.slices[c]? = some sc)
    (hsame : h2.arrays[sc.arr]? = h.arrays[sc.arr]?) :
    Slice.Len c h2 = Slice.Len c h ∧ (∀ i, Slice.Get c i h2 = Slice.Get c i h) ∧
      Slice.Values c h2 = Slice.Values c h ∧ h2.read sc = h.read sc := by
  refine ⟨?_, ?_, ?_, ?_⟩
  · simp [Slice.Len, SliceHeap.field, hc, hc2]
  · intro i
    simp [Slice.Get, SliceHeap.field, hc, hc2, SliceHeap.index, hsame]
  · simp [Slice.Values, SliceHeap.field, hc, hc2]
  · simp [SliceHeap.read, hsame]

theorem set_append_length {α : Type} (l : List α) (x y : α) :
    (l ++ [x]).set l.length y = l ++ [y] := by
  induction l with
  | nil => rfl
  | cons a l ih => simp [ih]

/-- The heap `Slice.Clone` leaves behind. -/
def cloneHeap [Inhabited V] (h : SliceHeap V) (s : GoSlice) (a : List V) : SliceHeap V :=
  ⟨h.arrays ++ [writeAt (List.replicate s.len default) 0 ((a.drop s.off).take s.len)],
    h.slices ++ [⟨h.arrays.length, 0, s.len, s.len⟩]⟩

theorem slice_clone_eq [Inhabited V] (h : SliceHeap V) (d : Ptr) (s : GoSlice) (a : List V)
    (hd : h.field d = some s) (ha : h.arrays[s.arr]? = some a) :
    Slice.Clone d h = (.ok (.ofSlice h.slices.length), cloneHeap h s a) := by
  have hread : h.read s = some ((a.drop s.off).take s.len) := by
    simp [SliceHeap.read, ha]
  have hcopy := copyInto_spec ((a.drop s.off).take s.len) (h.make s.len s.len).2
    (h.make s.len s.len).1 0 (List.replicate s.len default)
    (by simp [SliceHeap.make]) (by simp [SliceHeap.make])
    (by
      simp only [SliceHeap.make, List.length_take, List.length_drop]
      omega)
  simp only [Slice.Clone, hd, hread, hcopy]
  simp only [SliceHeap.make, NewSlice, cloneHeap, set_append_length, Nat.zero_add]

theorem slice_clone_apart [Inhabited V] (h : SliceHeap V) (d : Ptr) (s : GoSlice)
    (a : List V) (hd : h.field d = some s) (ha : h.arrays[s.arr]? = some a) :
    SApart (cloneHeap h s a) h.slices.length d ⟨h.arrays.length, 0, s.len, s.len⟩ s ∧
      (cloneHeap h s a).arrays[s.arr]? = h.arrays[s.arr]? := by
  have hdl : d < h.slices.length := by
    rcases List.getElem?_eq_some_iff.1 hd with ⟨hl, -⟩
    exact hl
  have hal : s.arr < h.arrays.length := by
    rcases List.getElem?_eq_some_iff.1 ha with ⟨hl, -⟩
    exact hl
  have hd' : h.slices[d]? = some s := hd
  refine ⟨⟨?_, ?_, ?_, ?_, ?_, ?_⟩, ?_⟩
  · simp [cloneHeap]
  · simp [cloneHeap, List.getElem?_append_left hdl, hd']
  · exact fun e => absurd hdl (by rw [← e]; exact Nat.lt_irrefl _)
  · exact fun e => absurd hal (by rw [← e]; exact Nat.lt_irrefl _)
  · simp [cloneHeap]
  · exact Nat.lt_of_lt_of_le hal (by simp [cloneHeap])
  · simp [cloneHeap, List.getElem?_append_left hal]

theorem sapart_symm (h : SliceHeap V) (p c : Ptr) (sp sc : GoSlice)
    (ha : SApart h p c sp sc) : SApart h c p sc sp :=
  ⟨ha.2.1, ha.1, fun e => ha.2.2.1 e.symm, fun e => ha.2.2.2.1 e.symm, ha.2.2.2.2.2,
    ha.2.2.2.2.1⟩

theorem getElem?_window (a : List V) (off len j : Nat) :
    ((a.drop off).take len)[j]? = if j < len then a[off + j]? else none := by
  rw [List.getElem?_take, List.getElem?_drop]

theorem length_window (a : List V) (off len : Nat) (h : off + len ≤ a.length) :
    ((a.drop off).take len).length = len := by
  simp only [List.length_take, List.length_drop]
  omega

theorem getElem?_writeAt (a : List V) (pos : Nat) (xs : List V) (k : Nat)
    (hpos : pos + xs.length ≤ a.length) :
    (writeAt a pos xs)[k]? =
      if k < pos then a[k]? else if k < pos + xs.length then xs[k - pos]? else a[k]? := by
  have hl : (a.take pos).length = pos := by
    simp only [List.length_take]; omega
  unfold writeAt
  rw [List.append_assoc, List.getElem?_append, hl]
  by_cases h1 : k < pos
  · simp only [h1, if_true]
    exact List.getElem?_take_of_lt h1
  · simp only [h1, if_false]
    rw [List.getElem?_append]
    by_cases h2 : k < pos + xs.length
    · have h3 : k - pos < xs.length := by omega
      simp only [h2, h3, if_true]
    · have h3 : ¬ k - pos < xs.length := by omega
      simp only [h2, h3, if_false]
      rw [List.getElem?_drop]
      congr 1
      omega

theorem read_eq (h : SliceHeap V) (s : GoSlice) (a : List V)
    (ha : h.arrays[s.arr]? = some a) : h.read s = some ((a.drop s.off).take s.len) := by
  simp [SliceHeap.read, ha]

theorem index_in_range (h : SliceHeap V) (s : GoSlice) (a : List V)
    (ha : h.arrays[s.arr]? = some a) (hwf : s.off + s.len ≤ a.length) (i : Int)
    (h0 : 0 ≤ i) (h1 : i < s.len) :
    ∃ v, ((a.drop s.off).take s.len)[i.toNat]? = some v ∧ h.index s i = .ok v := by
  have hlt : i.toNat < s.len := by omega
  have hlt2 : s.off + i.toNat < a.length := by omega
  refine ⟨a[s.off + i.toNat], ?_, ?_⟩
  · rw [getElem?_window]
    simp [hlt, List.getElem?_eq_getElem hlt2]
  · simp [SliceHeap.index, h0, h1, ha, List.getElem?_eq_getElem hlt2]

theorem index_out_of_range (h : SliceHeap V) (s : GoSlice) (i : Int)
    (hout : ¬ (0 ≤ i ∧ i < s.len)) : h.index s i = .error .indexOutOfRange := by
  simp only [SliceHeap.index, hout, if_false]

theorem slice_nat (s : GoSlice) (lo hi : Nat) (h1 : lo ≤ hi) (h2 : hi ≤ s.cap) :
    s.slice (lo : Int) (hi : Int) = .ok ⟨s.arr, s.off + lo, hi - lo, s.cap - lo⟩ := by
  have hc : (0 : Int) ≤ (lo : Int) ∧ (lo : Int) ≤ (hi : Int) ∧ (hi : Int) ≤ (s.cap : Int) :=
    ⟨Int.ofNat_nonneg lo, by exact_mod_cast h1, by exact_mod_cast h2⟩
  simp only [GoSlice.slice, hc, and_self, if_true, Int.toNat_ofNat]

theorem slice_fail (s : GoSlice) (lo hi : Int) (h : ¬ (0 ≤ lo ∧ lo ≤ hi ∧ hi ≤ s.cap)) :
    s.slice lo hi = .error .sliceBounds := by
  simp only [GoSlice.slice, h, if_false]

theorem delete_window (a : List V) (off len i : Nat) (hwf : off + len ≤ a.length)
    (hi : i < len) :
    ((writeAt a (off + i) ((a.drop (off + (i + 1))).take (len - (i + 1)))).drop off).take
        (len - 1) = ((a.drop off).take len).eraseIdx i := by
  have hxs : ((a.drop (off + (i + 1))).take (len - (i + 1))).length = len - (i + 1) :=
    length_window a _ _ (by omega)
  apply List.ext_getElem?
  intro j
  rw [getElem?_window, List.getElem?_eraseIdx, getElem?_window, getElem?_window,
    getElem?_writeAt a _ _ _ (by rw [hxs]; omega), hxs, getElem?_window]
  by_cases hj : j < len - 1
  · by_cases hji : j < i
    · have h1 : off + j < off + i := by omega
      have h2 : j < len := by omega
      simp only [hj, hji, h1, h2, if_true]
    · have h1 : ¬ off + j < off + i := by omega
      have h2 : off + j < off + i + (len - (i + 1)) := by omega
      have h3 : off + j - (off + i) < len - (i + 1) := by omega
      have h4 : j + 1 < len := by omega
      simp only [hj, hji, h1, h2, h3, h4, if_true, if_false]
      congr 1
      omega
  · have hji : ¬ j < i := by omega
    have h4 : ¬ j + 1 < len := by omega
    simp only [hj, hji, h4, if_false]

theorem delete_in_range [Inhabited V] (g : Growth) (h : SliceHeap V) (p : Ptr) (s : GoSlice)
    (a : List V) (hp : h.field p = some s) (ha : h.arrays[s.arr]? = some a)
    (hv : s.off + s.cap ≤ a.length) (hlc : s.len ≤ s.cap) (i : Nat) (hi : i < s.len) :
    Slice.Delete g p (i : Int) h =
      (.ok (), SliceHeap.setField ⟨h.arrays.set s.arr
          (writeAt a (s.off + i) ((a.drop (s.off + (i + 1))).take (s.len - (i + 1)))),
          h.slices⟩ p ⟨s.arr, s.off, s.len - 1, s.cap⟩) := by
  have hf : s.slice 0 (i : Int) = .ok ⟨s.arr, s.off, i, s.cap⟩ := by
    have := slice_nat s 0 i (Nat.zero_le i) (by omega)
    simpa using this
  have hb : s.slice ((i : Int) + 1) (s.len : Int) =
      .ok ⟨s.arr, s.off + (i + 1), s.len - (i + 1), s.cap - (i + 1)⟩ := by
    have := slice_nat s (i + 1) s.len (by omega) hlc
    simpa using this
  have hxs : ((a.drop (s.off + (i + 1))).take (s.len - (i + 1))).length = s.len - (i + 1) :=
    length_window a _ _ (by omega)
  have hfit : i + (s.len - (i + 1)) ≤ s.cap := by omega
  have hlen : i + (s.len - (i + 1)) = s.len - 1 := by omega
  have hfit2 : s.len - 1 ≤ s.cap := by omega
  simp only [Slice.Delete, hp, hf, hb, SliceHeap.read, SliceHeap.append, ha, hxs, hfit,
    if_true, hlen, hfit2]

theorem delete_out_of_range [Inhabited V] (g : Growth) (h : SliceHeap V) (p : Ptr)
    (s : GoSlice) (hp : h.field p = some s) (i : Int)
    (hout : ¬ (0 ≤ i ∧ i < s.len)) :
    Slice.Delete g p i h = (.error .sliceBounds, h) := by
  simp only [Slice.Delete, hp]
  by_cases hfront : (0 : Int) ≤ 0 ∧ (0 : Int) ≤ i ∧ i ≤ s.cap
  · have hback : ¬ (0 ≤ i + 1 ∧ i + 1 ≤ (s.len : Int) ∧ (s.len : Int) ≤ (s.cap : Int)) := by
      intro hb
      exact hout ⟨hfront.2.1, by omega⟩
    simp only [GoSlice.slice, hfront, and_self, if_true, hback, if_false]
  · rw [slice_fail s 0 i hfront]

theorem window_window (a : List V) (off len lo hi : Nat) (hhi : hi ≤ len) :
    (a.drop (off + lo)).take (hi - lo) =
      (((a.drop off).take len).drop lo).take (hi - lo) := by
  apply List.ext_getElem?
  intro j
  rw [getElem?_window, List.getElem?_take, List.getElem?_drop, getElem?_window]
  by_cases hj : j < hi - lo
  · have h1 : lo + j < len := by omega
    simp only [hj, h1, if_true]
    congr 1
    omega
  · simp only [hj, if_false]

theorem field_lt (h : SliceHeap V) (p : Ptr) (s : GoSlice) (hp : h.field p = some s) :
    p < h.slices.length := by
  rcases List.getElem?_eq_some_iff.1 hp with ⟨hl, -⟩
  exact hl

theorem arr_lt (h : SliceHeap V) (s : GoSlice) (a : List V)
    (ha : h.arrays[s.arr]? = some a) : s.arr < h.arrays.length := by
  rcases List.getElem?_eq_some_iff.1 ha with ⟨hl, -⟩
  exact hl

/-- The struct at `p` holds a slice value no longer than its capacity. -/
def SInv (h : SliceHeap V) (p : Ptr) : Prop :=
  ∃ s, h.field p = some s ∧ s.len ≤ s.cap

theorem append_len_le_cap [Inhabited V] (g : Growth) (h : SliceHeap V) (s s1 : GoSlice)
    (xs : List V) (hr : (h.append g s xs).1 = .ok s1) : s1.len ≤ s1.cap := by
  unfold SliceHeap.append at hr
  cases ha : h.arrays[s.arr]? with
  | none => simp [ha] at hr
  | some a =>
    simp only [ha] at hr
    by_cases hfit : s.len + xs.length ≤ s.cap
    · simp only [hfit, if_true] at hr
      injection hr with hr
      rw [← hr]
      exact hfit
    · simp only [hfit, if_false] at hr
      injection hr with hr
      rw [← hr]
      exact Nat.le_add_right _ _

theorem sinv_append_setField [Inhabited V] (g : Growth) (h : SliceHeap V) (p : Ptr)
    (s : GoSlice) (xs : List V) (hi : SInv h p) :
    SInv (match h.append g s xs with
      | (.error f, h1) => ((.error f : Except Fault Unit), h1)
      | (.ok s1, h1) => (.ok (), h1.setField p s1)).2 p := by
  obtain ⟨s0, hp, hle⟩ := hi
  have hpl := field_lt h p s0 hp
  obtain ⟨⟨hsl, -, -⟩, -⟩ := sframe_append g h s xs
  have hlen : ∀ s1, (h.append g s xs).1 = .ok s1 → s1.len ≤ s1.cap :=
    fun s1 => append_len_le_cap g h s s1 xs
  cases hr : h.append g s xs with
  | mk r h1 =>
    rw [hr] at hsl hlen
    have hsl1 : h1.slices = h.slices := hsl
    cases r with
    | error f =>
      exact ⟨s0, by simp only [SliceHeap.field, hsl1]; exact hp, hle⟩
    | ok s1 =>
      refine ⟨s1, ?_, hlen s1 rfl⟩
      simp [SliceHeap.field, SliceHeap.setField, hsl1, hpl]

theorem sinv_applyCall [Inhabited V] (g : Growth) (c : SliceCall V) (h : SliceHeap V)
    (p : Ptr) (hi : SInv h p) : SInv (Slice.applyCall g p c h).2 p := by
  obtain ⟨s, hp, hle⟩ := hi
  have hi0 : SInv h p := ⟨s, hp, hle⟩
  have hpl := field_lt h p s hp
  have hset : ∀ i v, SInv (Slice.Set p i v h).2 p := by
    intro i v
    simp only [Slice.Set, hp]
    obtain ⟨hsl, -, -⟩ := sframe_assign h s i v
    exact ⟨s, by simp only [SliceHeap.field, hsl]; exact hp, hle⟩
  have happ : ∀ v, SInv (Slice.Append g p v h).2 p := by
    intro v
    simp only [Slice.Append, hp]
    exact sinv_append_setField g h p s [v] hi0
  cases c with
  | appendSlice arg =>
    simp only [Slice.applyCall, Slice.AppendSlice, hp]
    cases hxs : h.readArg arg with
    | none => exact hi0
    | some xs => exact sinv_append_setField g h p s xs hi0
  | op o =>
    cases o with
    | set i v => exact hset i v
    | setElem e => exact hset e.Key e.Value
    | append v => exact happ v
    | appendElem e => exact happ e.Value
    | delete i =>
      simp only [Slice.applyCall, Slice.applyOp, Slice.Delete, hp]
      cases hfront : s.slice 0 i with
      | error f => exact hi0
      | ok front =>
        cases hback : s.slice (i + 1) s.len with
        | error f => exact hi0
        | ok back =>
          cases hxs : h.read back with
          | none =>
            simp only [hxs]
            exact hi0
          | some xs =>
            simp only [hxs]
            exact sinv_append_setField g h p front xs hi0
    | clear =>
      simp only [Slice.applyCall, Slice.applyOp, Slice.Clear, hp]
      refine ⟨⟨h.arrays.length, 0, 0, 0⟩, ?_, Nat.le_refl _⟩
      simp [SliceHeap.field, SliceHeap.setField, SliceHeap.make, hpl]

theorem sinv_applyCalls [Inhabited V] (g : Growth) (cs : List (SliceCall V))
    (h : SliceHeap V) (p : Ptr) (hi : SInv h p) : SInv (Slice.applyCalls g p cs h).2 p := by
  induction cs generalizing h with
  | nil => exact hi
  | cons c cs ih =>
    have h1 := sinv_applyCall g c h p hi
    simp only [Slice.applyCalls]
    cases hr : Slice.applyCall g p c h with
    | mk r h2 =>
      rw [hr] at h1
      cases r with
      | error f => exact h1
      | ok u => exact ih h2 h1

theorem sinv_observe (h : SliceHeap V) (p : Ptr) (hi : SInv h p) :
    ∃ len cap, Slice.Len p h = .ok len ∧ Slice.Cap p h = .ok cap ∧ len ≤ cap ∧
      Slice.IsEmpty p h = .ok (decide (len = 0)) := by
  obtain ⟨s, hp, hle⟩ := hi
  refine ⟨s.len, s.cap, by simp [Slice.Len, hp], by simp [Slice.Cap, hp], hle, ?_⟩
  simp only [Slice.IsEmpty, hp]
  congr 1

/-- The struct at `p` holds a slice value that lies within its array and
whose capacity is its length plus `n`. -/
def CapInv (h : SliceHeap V) (p : Ptr) (n : Nat) : Prop :=
  ∃ s a, h.field p = some s ∧ h.arrays[s.arr]? = some a ∧ s.off + s.cap ≤ a.length ∧
    s.cap = s.len + n

theorem capInv_applyOp [Inhabited V] (g : Growth) (op : SliceOp V) (h : SliceHeap V)
    (p : Ptr) (n : Nat) (hi : CapInv h p n) (hop : op.isSetDeleteClear = true)
    (hok : (Slice.applyOp g p op h).1 = .ok ()) :
    CapInv (Slice.applyOp g p op h).2 p (deletesSinceClear n [op]) := by
  obtain ⟨s, a, hp, ha, hcap, hn⟩ := hi
  have hpl := field_lt h p s hp
  have hal := arr_lt h s a ha
  cases op with
  | set i v =>
    simp only [Slice.applyOp, Slice.Set, hp, SliceHeap.assign, ha] at hok ⊢
    by_cases hc : 0 ≤ i ∧ i < (s.len : Int)
    · simp only [hc, and_self, if_true]
      refine ⟨s, a.set (s.off + i.toNat) v, hp, ?_, by simpa using hcap, hn⟩
      simp [hal]
    · simp [hc] at hok
  | delete i =>
    by_cases hc : 0 ≤ i ∧ i < (s.len : Int)
    · have hi1 : i.toNat < s.len := by omega
      have hcast : ((i.toNat : Nat) : Int) = i := Int.toNat_of_nonneg hc.1
      have hdel := delete_in_range g h p s a hp ha hcap (by omega) i.toNat hi1
      rw [hcast] at hdel
      have hdel2 : Slice.applyOp g p (SliceOp.delete i) h = Slice.Delete g p i h := rfl
      rw [hdel2, hdel]
      refine ⟨⟨s.arr, s.off, s.len - 1, s.cap⟩,
        writeAt a (s.off + i.toNat) ((a.drop (s.off + (i.toNat + 1))).take
          (s.len - (i.toNat + 1))), ?_, ?_, ?_, ?_⟩
      · simp [SliceHeap.field, SliceHeap.setField, hpl]
      · simp only [SliceHeap.setField]
        exact List.getElem?_set_self hal
      · rw [length_writeAt]
        · exact hcap
        · rw [length_window a _ _ (by omega)]
          omega
      · simp only [deletesSinceClear]
        omega
    · have hdel := delete_out_of_range g h p s hp i hc
      have hdel2 : Slice.applyOp g p (SliceOp.delete i) h = Slice.Delete g p i h := rfl
      rw [hdel2, hdel] at hok
      simp at hok
  | clear =>
    simp only [Slice.applyOp, Slice.Clear, hp]
    refine ⟨⟨h.arrays.length, 0, 0, 0⟩, [], ?_, ?_, by simp, by simp [deletesSinceClear]⟩
    · simp [SliceHeap.field, SliceHeap.setField, SliceHeap.make, hpl]
    · simp [SliceHeap.setField, SliceHeap.make]
  | setElem e => simp [SliceOp.isSetDeleteClear] at hop
  | append v => simp [SliceOp.isSetDeleteClear] at hop
  | appendElem e => simp [SliceOp.isSetDeleteClear] at hop

theorem deletesSinceClear_cons (n : Nat) (op : SliceOp V) (ops : List (SliceOp V)) :
    deletesSinceClear n (op :: ops) = deletesSinceClear (deletesSinceClear n [op]) ops := by
  cases op <;> rfl

theorem capInv_applyOps [Inhabited V] (g : Growth) (ops : List (SliceOp V))
    (h : SliceHeap V) (p : Ptr) (n : Nat) (hi : CapInv h p n)
    (hops : ∀ op ∈ ops, op.isSetDeleteClear = true)
    (hok : (Slice.applyOps g p ops h).1 = .ok ()) :
    CapInv (Slice.applyOps g p ops h).2 p (deletesSinceClear n ops) := by
  induction ops generalizing h n with
  | nil => exact hi
  | cons op ops ih =>
    have hop := hops op (List.mem_cons_self _ _)
    rw [deletesSinceClear_cons]
    simp only [Slice.applyOps] at hok ⊢
    have hstep := capInv_applyOp g op h p n hi hop
    cases hr : Slice.applyOp g p op h with
    | mk r h1 =>
      rw [hr] at hok hstep
      cases r with
      | error f => simp at hok
      | ok u =>
        exact ih h1 _ (hstep rfl) (fun o ho => hops o (List.mem_cons_of_mem _ ho)) hok

end SliceLemmas

/-! ## C1, C2: what a producer hands off -/

/-- C1: a traversal started by `Slice.IterHandler` that is never cancelled
hands off exactly the tuples `(0, s[0])`, ..., `(n-1, s[n-1])`, in that
order; a traversal started by `Map.IterHandler` that is never cancelled hands
off each entry of the map exactly once, whatever order `range` follows: the
multiset of handed-off tuples is the multiset of the entries. -/
theorem C1_full_iteration_yields_elements
    {V : Type} (hs : SliceHeap V) (p : Ptr) (s : GoSlice) (vs : List V)
    (hp : hs.field p = some s) (hr : hs.read s = some vs)
    {K W : Type} [GoKey K] (ρ : RangeOrder K W) (hm : Heap K W) (m : Ptr)
    (tb : GoMap K W) (ht : hm.table m = some tb) :
    (∃ tr, Slice.IterHandler p (fun _ => false) hs = (.ok tr, hs) ∧
        (handoffs tr).length = vs.length ∧
        ∀ i (hi : i < vs.length), (handoffs tr)[i]? = some (NewTuple (i : Int) vs[i])) ∧
    (∃ tr, Map.IterHandler ρ m (fun _ => false) hm = (.ok tr, hm) ∧
        (↑(handoffs tr) : Multiset (Tuple K W)) =
          ↑(tb.entries.map (fun e => NewTuple e.1 e.2))) := by
  refine ⟨⟨produce (fun _ => false) 0 (indexed 0 vs), ?_, ?_, ?_⟩,
    ⟨produce (fun _ => false) 0 ((tb.range ρ).map (fun e => NewTuple e.1 e.2)), ?_, ?_⟩⟩
  · simp only [Slice.IterHandler, hp, hr]
  · rw [produce_never, handoffs_map_handoff]
    simp [handoffs, length_indexed]
  · intro i hi
    rw [produce_never, handoffs_map_handoff]
    simp only [handoffs, List.append_nil]
    have := getElem?_indexed 0 i vs hi
    simpa using this
  · simp only [Map.IterHandler, ht]
  · rw [produce_never, handoffs_map_handoff]
    simp only [handoffs, List.append_nil, GoMap.range]
    exact Multiset.coe_eq_coe.2 ((ρ.perm tb.entries).map _)

/-- C1 at the slice `[10, 20, 30]` and the map `{1: 10, 2: 20}` ranged over in
reverse. -/
theorem C1_full_iteration_yields_elements_witness :
    (∃ tr, Slice.IterHandler 0 (fun _ => false) sliceHeap3 = (.ok tr, sliceHeap3) ∧
        (handoffs tr).length = [10, 20, 30].length ∧
        ∀ i (hi : i < [10, 20, 30].length),
          (handoffs tr)[i]? = some (NewTuple (i : Int) [10, 20, 30][i])) ∧
    (∃ tr, Map.IterHandler RangeOrder.rev 0 (fun _ => false) mapHeap2 = (.ok tr, mapHeap2) ∧
        (↑(handoffs tr) : Multiset (Tuple Nat Nat)) =
          ↑(table2.entries.map (fun e => NewTuple e.1 e.2))) :=
  C1_full_iteration_yields_elements sliceHeap3 0 ⟨0, 0, 3, 3⟩ [10, 20, 30] rfl rfl
    RangeOrder.rev mapHeap2 0 table2 rfl

/-- C2 as stated fails for a `SafeMap` whose mutex is held when the worker
starts. On the `SafeMap` holding `{1: 10, 2: 20}` with the mutex held, the
worker started by `IterHandler` stops in `Lock()`: whether the consumer
would receive or cancel, it yields no event at all, so it neither hands off
the elements and calls `IterationDone` nor observes cancellation, and it
leaves the heap as it was. -/
theorem C2_safeMap_worker_blocks_on_held_lock :
    (SafeMap.IterHandler RangeOrder.id 0 (fun _ => false) (Mutex.Lock 0 mapHeap2).2).1 =
      .error Fault.blocked ∧
    (SafeMap.IterHandler RangeOrder.id 0 (fun _ => true) (Mutex.Lock 0 mapHeap2).2).1 =
      .error Fault.blocked ∧
    (SafeMap.IterHandler RangeOrder.id 0 (fun _ => false) (Mutex.Lock 0 mapHeap2).2).2.log =
      (Mutex.Lock 0 mapHeap2).2.log ∧
    Map.Len 0 (Mutex.Lock 0 mapHeap2).2 = .ok 2 := by
  refine ⟨rfl, rfl, rfl, rfl⟩

/-- C2, amended: take a `Slice`, a `Map`, or a `SafeMap` whose mutex is free
when the worker starts, and a run of its producer in which every `select` is
resolved, `cancelled i` telling whether round `i` takes the `Done()` case.
With `es` the elements of the container (for a `Slice` the tuples
`(i, s[i])` in index order, for a `Map` or `SafeMap` the entries in the order
`range` follows, each entry once), the run goes one of the two ways of
`ProducerRun`: no round is cancelled, it hands off all of `es` in order and
then calls `IterationDone` once; or, at the first cancelled round `k`, it
observes cancellation having handed off the first `k` elements, hands off
nothing further and does not call `IterationDone`. Either way the calls of
`IterationDone` and the observed cancellations number one together. An empty
container gives no handoff and one completion signal. The `SafeMap` worker
does the same between taking and releasing the lock. -/
theorem C2_producer_completes_or_cancels (cancelled : Nat → Bool)
    {V : Type} (hs : SliceHeap V) (p : Ptr) (s : GoSlice) (vs : List V)
    (hp : hs.field p = some s) (hr : hs.read s = some vs)
    {K W : Type} [GoKey K] (ρ : RangeOrder K W) (hm : Heap K W) (m : Ptr)
    (tb : GoMap K W) (ht : hm.table m = some tb)
    (sm : Ptr) (o : SafeMapObj) (tbs : GoMap K W) (hsm : hm.safeMaps[sm]? = some o)
    (hfree : o.lock = false) (hts : hm.table o.m = some tbs) :
    (∃ tr es, Slice.IterHandler p cancelled hs = (.ok tr, hs) ∧
        (es.length = vs.length ∧
          ∀ i (hi : i < vs.length), es[i]? = some (NewTuple (i : Int) vs[i])) ∧
        ProducerRun cancelled es tr ∧ completions tr + cancellations tr = 1 ∧
        (vs = [] → tr = [Event.iterationDone])) ∧
    (∃ tr es, Map.IterHandler ρ m cancelled hm = (.ok tr, hm) ∧
        (es = (ρ.order tb.entries).map (fun e => NewTuple e.1 e.2) ∧
          es.Perm (tb.entries.map (fun e => NewTuple e.1 e.2)) ∧ es.length = tb.len) ∧
        ProducerRun cancelled es tr ∧ completions tr + cancellations tr = 1 ∧
        (tb.len = 0 → tr = [Event.iterationDone])) ∧
    (∃ tr es h1, SafeMap.IterHandler ρ sm cancelled hm =
          (.ok (Event.lock :: (tr ++ [Event.unlock])), h1) ∧
        (es = (ρ.order tbs.entries).map (fun e => NewTuple e.1 e.2) ∧
          es.Perm (tbs.entries.map (fun e => NewTuple e.1 e.2)) ∧ es.length = tbs.len) ∧
        ProducerRun cancelled es tr ∧ completions tr + cancellations tr = 1 ∧
        (tbs.len = 0 → tr = [Event.iterationDone])) := by
  refine ⟨⟨produce cancelled 0 (indexed 0 vs), indexed 0 vs, ?_, ⟨length_indexed 0 vs, ?_⟩,
      produce_run_zero _ _, producerRun_once _ _ _ (produce_run_zero _ _), ?_⟩,
    ⟨produce cancelled 0 ((tb.range ρ).map (fun e => NewTuple e.1 e.2)),
      (tb.range ρ).map (fun e => NewTuple e.1 e.2), ?_, ⟨rfl, ?_, ?_⟩,
      produce_run_zero _ _, producerRun_once _ _ _ (produce_run_zero _ _), ?_⟩,
    ⟨produce cancelled 0 ((tbs.range ρ).map (fun e => NewTuple e.1 e.2)),
      (tbs.range ρ).map (fun e => NewTuple e.1 e.2),
      Mutex.Unlock sm (Mutex.Lock sm hm).2, ?_, ⟨rfl, ?_, ?_⟩,
      produce_run_zero _ _, producerRun_once _ _ _ (produce_run_zero _ _), ?_⟩⟩
  · simp only [Slice.IterHandler, hp, hr]
  · intro i hi
    have := getElem?_indexed 0 i vs hi
    simpa using this
  · intro hv
    subst hv
    rfl
  · simp only [Map.IterHandler, ht]
  · exact (ρ.perm tb.entries).map _
  · simp [GoMap.range, GoMap.len, (ρ.perm tb.entries).length_eq]
  · intro h0
    have : tb.range ρ = [] := by
      apply List.eq_nil_of_length_eq_zero
      simpa [GoMap.range, GoMap.len, (ρ.perm tb.entries).length_eq] using h0
    simp [this, produce]
  · obtain ⟨h1, hl, htab, hmaps, -, -⟩ := table_lock hm sm o hsm hfree
    have ht1 : h1.table o.m = some tbs := by
      rw [table_eq_of_eq hm h1 o.m htab hmaps]; exact hts
    simp only [SafeMap.IterHandler, hl, ht1]
  · exact (ρ.perm tbs.entries).map _
  · simp [GoMap.range, GoMap.len, (ρ.perm tbs.entries).length_eq]
  · intro h0
    have : tbs.range ρ = [] := by
      apply List.eq_nil_of_length_eq_zero
      simpa [GoMap.range, GoMap.len, (ρ.perm tbs.entries).length_eq] using h0
    simp [this, produce]

/-- C2 at the slice `[10, 20, 30]`, the map `{1: 10, 2: 20}` and the `SafeMap`
around it, with the `Done()` case taken in round 1 and in every later
round. -/
theorem C2_producer_completes_or_cancels_witness :
    (∃ tr es, Slice.IterHandler 0 (fun i => decide (1 ≤ i)) sliceHeap3 = (.ok tr, sliceHeap3) ∧
        (es.length = [10, 20, 30].length ∧
          ∀ i (hi : i < [10, 20, 30].length),
            es[i]? = some (NewTuple (i : Int) [10, 20, 30][i])) ∧
        ProducerRun (fun i => decide (1 ≤ i)) es tr ∧
        completions tr + cancellations tr = 1 ∧
        (([10, 20, 30] : List Nat) = [] → tr = [Event.iterationDone])) ∧
    (∃ tr es, Map.IterHandler RangeOrder.id 0 (fun i => decide (1 ≤ i)) mapHeap2 =
          (.ok tr, mapHeap2) ∧
        (es = (RangeOrder.id.order table2.entries).map (fun e => NewTuple e.1 e.2) ∧
          es.Perm (table2.entries.map (fun e => NewTuple e.1 e.2)) ∧
          es.length = table2.len) ∧
        ProducerRun (fun i => decide (1 ≤ i)) es tr ∧
        completions tr + cancellations tr = 1 ∧
        (table2.len = 0 → tr = [Event.iterationDone])) ∧
    (∃ tr es h1, SafeMap.IterHandler RangeOrder.id 0 (fun i => decide (1 ≤ i)) mapHeap2 =
          (.ok (Event.lock :: (tr ++ [Event.unlock])), h1) ∧
        (es = (RangeOrder.id.order table2.entries).map (fun e => NewTuple e.1 e.2) ∧
          es.Perm (table2.entries.map (fun e => NewTuple e.1 e.2)) ∧
          es.length = table2.len) ∧
        ProducerRun (fun i => decide (1 ≤ i)) es tr ∧
        completions tr + cancellations tr = 1 ∧
        (table2.len = 0 → tr = [Event.iterationDone])) :=
  C2_producer_completes_or_cancels (fun i => decide (1 ≤ i)) sliceHeap3 0 ⟨0, 0, 3, 3⟩
    [10, 20, 30] rfl rfl RangeOrder.id mapHeap2 0 table2 rfl 0 ⟨0, false⟩ table2 rfl rfl rfl

/-! ## C3: the session returned by `SafeMap.Iter` -/

/-- C3: on the `SafeMap` holding `{1: 10, 2: 20}`, the session returned by
`SafeMap.Iter()` runs the producer of the embedded `Map`: it hands off both
entries and completes without taking the lock, it leaves the log of mutex
calls empty, and it does the same while the mutex is held. The producer
reached through `SafeMap.AsIterable()` takes the lock first and releases it
last, and does not start while the mutex is held. -/
theorem C3_safeMap_iter_runs_unlocked_producer :
    (match SafeMap.Iter RangeOrder.id 0 mapHeap2 with
      | .ok it => (it.producer (fun _ => false) mapHeap2).1
      | .error f => .error f) =
      .ok [Event.handoff (NewTuple 1 10), Event.handoff (NewTuple 2 20),
        Event.iterationDone] ∧
    (match SafeMap.Iter RangeOrder.id 0 mapHeap2 with
      | .ok it => (it.producer (fun _ => false) mapHeap2).2.log
      | .error _ => [LockEvent.acquire 0]) = [] ∧
    (match SafeMap.Iter RangeOrder.id 0 (Mutex.Lock 0 mapHeap2).2 with
      | .ok it => (it.producer (fun _ => false) (Mutex.Lock 0 mapHeap2).2).1
      | .error f => .error f) =
      .ok [Event.handoff (NewTuple 1 10), Event.handoff (NewTuple 2 20),
        Event.iterationDone] ∧
    ((NewIterator (SafeMap.AsIterable RangeOrder.id 0)).producer (fun _ => false)
        mapHeap2).1 =
      .ok [Event.lock, Event.handoff (NewTuple 1 10), Event.handoff (NewTuple 2 20),
        Event.iterationDone, Event.unlock] ∧
    ((NewIterator (SafeMap.AsIterable RangeOrder.id 0)).producer (fun _ => false)
        mapHeap2).2.log = [LockEvent.acquire 0, LockEvent.release 0] ∧
    ((NewIterator (SafeMap.AsIterable RangeOrder.id 0)).producer (fun _ => false)
        (Mutex.Lock 0 mapHeap2).2).1 = .error Fault.blocked := by
  refine ⟨rfl, rfl, rfl, rfl, rfl, rfl⟩

/-! ## C4, C5, C7: Get, Set, Delete on a Map -/

section MapTheorems

variable {K V : Type} [GoKey K] [Inhabited V]

/-- C4 as stated fails on a `float64` key. On the empty map, after
`Set(NaN, 1)` the call `Get(NaN)` returns `(0, false)`, not `(1, true)`; and a
second `Set(NaN, 2)` makes `Len` grow from 1 to 2 although NaN was set
before. -/
theorem C4_set_nan_then_get_misses :
    (Map.Set 0 GoFloat.nan 1 (NewMap [] (Heap.empty : Heap GoFloat Nat)).2).1 = .ok () ∧
    Map.Get 0 GoFloat.nan
        (Map.Set 0 GoFloat.nan 1 (NewMap [] (Heap.empty : Heap GoFloat Nat)).2).2 =
      .ok (0, false) ∧
    Map.Keys RangeOrder.id 0
        (Map.Set 0 GoFloat.nan 1 (NewMap [] (Heap.empty : Heap GoFloat Nat)).2).2 =
      .ok [GoFloat.nan] ∧
    Map.Len 0 (Map.Set 0 GoFloat.nan 1 (NewMap [] (Heap.empty : Heap GoFloat Nat)).2).2 =
      .ok 1 ∧
    Map.Len 0 (Map.Set 0 GoFloat.nan 2
        (Map.Set 0 GoFloat.nan 1 (NewMap [] (Heap.empty : Heap GoFloat Nat)).2).2).2 =
      .ok 2 := by
  refine ⟨rfl, rfl, rfl, rfl, rfl⟩

/-- C4, amended: after `m.Set(k, v)`, `m.Get(k)` returns `(v, true)` for
every key with `k == k` (every key but a floating-point NaN) and the zero
value and `false` for a key with `k != k`; `m.Get(k')` for every key with
`k != k'` returns what it returned before; `Len` has grown by one if no key of
the map was `==` to `k` (which is always so for NaN) and is the same if one
was. `SetElem` and `AppendElem` with the tuple `(k, v)` do exactly what
`Set(k, v)` does. -/
theorem C4_set_then_get (h : Heap K V) (m : Ptr) (tb : GoMap K V)
    (ht : h.table m = some tb) (k : K) (v : V) :
    ∃ h1, Map.Set m k v h = (.ok (), h1) ∧
      (GoKey.eq k k = true → Map.Get m k h1 = .ok (v, true)) ∧
      (GoKey.eq k k = false → Map.Get m k h1 = .ok (default, false)) ∧
      (∀ k1, GoKey.eq k k1 = false → Map.Get m k1 h1 = Map.Get m k1 h) ∧
      Map.Len m h = .ok tb.len ∧
      ((∀ a ∈ tb.keys, GoKey.eq a k = false) → Map.Len m h1 = .ok (tb.len + 1)) ∧
      ((∃ a ∈ tb.keys, GoKey.eq a k = true) → Map.Len m h1 = .ok tb.len) ∧
      Map.SetElem m (NewTuple k v) h = Map.Set m k v h ∧
      Map.AppendElem m (NewTuple k v) h = Map.Set m k v h := by
  obtain ⟨h1, hset, ht1, -, -, -⟩ := table_putTable h m tb (fun tb => tb.store k v) ht
  refine ⟨h1, hset, ?_, ?_, ?_, len_of_table h m tb ht, ?_, ?_, rfl, rfl⟩
  · intro hk
    rw [get_of_table h1 m _ ht1]
    simp [GoMap.index, lookup_store, hk]
  · intro hk
    rw [get_of_table h1 m _ ht1]
    have hnone : tb.lookup k = none := by
      refine (lookupKey_eq_none_iff k tb.entries).2 ?_
      intro a _
      cases hak : GoKey.eq a k with
      | false => rfl
      | true =>
        have := GoKey.trans k a k (GoKey.symm a k hak) hak
        rw [hk] at this
        exact absurd this (by simp)
    simp [GoMap.index, lookup_store, hk, hnone]
  · intro k1 hk1
    rw [get_of_table h1 m _ ht1, get_of_table h m _ ht]
    simp [GoMap.index, lookup_store, hk1]
  · intro hk
    rw [len_of_table h1 m _ ht1]
    have hk' : lookupKey k tb.entries = none := (lookupKey_eq_none_iff k tb.entries).2 hk
    simp [GoMap.len, GoMap.store, length_storeKey, hk']
  · intro hk
    rw [len_of_table h1 m _ ht1]
    have hk' : (lookupKey k tb.entries).isSome = true :=
      (lookupKey_isSome_iff k tb.entries).2 hk
    simp [GoMap.len, GoMap.store, length_storeKey, hk']

/-- C4 on the map `{1.0: 10, NaN: 5}`, setting key `3.0`. -/
theorem C4_set_then_get_witness :
    ∃ h1, Map.Set 0 (GoFloat.num 3) 30 floatHeap = (.ok (), h1) ∧
      (GoKey.eq (GoFloat.num 3) (GoFloat.num 3) = true →
        Map.Get 0 (GoFloat.num 3) h1 = .ok (30, true)) ∧
      (GoKey.eq (GoFloat.num 3) (GoFloat.num 3) = false →
        Map.Get 0 (GoFloat.num 3) h1 = .ok (default, false)) ∧
      (∀ k1, GoKey.eq (GoFloat.num 3) k1 = false →
        Map.Get 0 k1 h1 = Map.Get 0 k1 floatHeap) ∧
      Map.Len 0 floatHeap = .ok floatTable.len ∧
      ((∀ a ∈ floatTable.keys, GoKey.eq a (GoFloat.num 3) = false) →
        Map.Len 0 h1 = .ok (floatTable.len + 1)) ∧
      ((∃ a ∈ floatTable.keys, GoKey.eq a (GoFloat.num 3) = true) →
        Map.Len 0 h1 = .ok floatTable.len) ∧
      Map.SetElem 0 (NewTuple (GoFloat.num 3) 30) floatHeap =
        Map.Set 0 (GoFloat.num 3) 30 floatHeap ∧
      Map.AppendElem 0 (NewTuple (GoFloat.num 3) 30) floatHeap =
        Map.Set 0 (GoFloat.num 3) 30 floatHeap :=
  C4_set_then_get floatHeap 0 floatTable rfl (GoFloat.num 3) 30

/-- C5: for a key `k` that is not present in a `Map` or in a `SafeMap` (whose
mutex is free), that is, no key of the map is `==` to `k`, `Get(k)` returns
the zero value and `false`; `HasKey` returns the flag that `Get` returns, and
that flag tells whether a key `==` to `k` is present. A key is not present in
a map built by `NewMap` from items that do not carry it, after `Delete` of
it, and after `Clear`. -/
theorem C5_get_missing_key (h : Heap K V) (m : Ptr) (tb : GoMap K V)
    (ht : h.table m = some tb) (sm : Ptr) (o : SafeMapObj) (tbs : GoMap K V)
    (hsm : h.safeMaps[sm]? = some o) (hfree : o.lock = false)
    (hts : h.table o.m = some tbs) (k : K) :
    ((∀ a ∈ tb.keys, GoKey.eq a k = false) → Map.Get m k h = .ok (default, false)) ∧
    (∃ v ok, Map.Get m k h = .ok (v, ok) ∧ Map.HasKey m k h = .ok ok ∧
        (ok = true ↔ ∃ a ∈ tb.keys, GoKey.eq a k = true)) ∧
    ((∀ a ∈ tbs.keys, GoKey.eq a k = false) →
        (SafeMap.Get sm k h).1 = .ok (default, false)) ∧
    (∃ v ok, (SafeMap.Get sm k h).1 = .ok (v, ok) ∧ (SafeMap.HasKey sm k h).1 = .ok ok ∧
        (ok = true ↔ ∃ a ∈ tbs.keys, GoKey.eq a k = true)) ∧
    (∀ (items : List (Tuple K V)) (h0 : Heap K V),
        (∀ a ∈ items.map Tuple.Key, GoKey.eq a k = false) →
        Map.Get (NewMap items h0).1 k (NewMap items h0).2 = .ok (default, false)) ∧
    (∃ h1, Map.Delete m k h = (.ok (), h1) ∧ Map.Get m k h1 = .ok (default, false)) ∧
    (∃ h1, Map.Clear m h = (.ok (), h1) ∧ Map.Get m k h1 = .ok (default, false)) := by
  refine ⟨?_, ?_, ?_, ?_, ?_, ?_, ?_⟩
  · intro hk
    rw [get_of_table h m tb ht, index_of_absent tb k hk]
  · refine ⟨(tb.index k).1, (tb.index k).2, get_of_table h m tb ht k, ?_, ?_⟩
    · simp [Map.HasKey, ht, index_snd]
    · rw [index_snd]
      exact isSome_lookup_iff tb k
  · intro hk
    obtain ⟨h1, -, htab, hmaps, hloc⟩ :=
      locked_eq h sm o hsm hfree (fun inner h1 => (Map.Get inner k h1, h1))
    have ht1 : h1.table o.m = some tbs := by
      rw [table_eq_of_eq h h1 o.m htab hmaps]; exact hts
    simp only [SafeMap.Get, hloc]
    rw [get_of_table h1 o.m tbs ht1, index_of_absent tbs k hk]
  · obtain ⟨h1, -, htab, hmaps, hloc⟩ :=
      locked_eq h sm o hsm hfree (fun inner h1 => (Map.Get inner k h1, h1))
    obtain ⟨h2, -, htab2, hmaps2, hloc2⟩ :=
      locked_eq h sm o hsm hfree (fun inner h1 => (Map.HasKey inner k h1, h1))
    have ht1 : h1.table o.m = some tbs := by
      rw [table_eq_of_eq h h1 o.m htab hmaps]; exact hts
    have ht2 : h2.table o.m = some tbs := by
      rw [table_eq_of_eq h h2 o.m htab2 hmaps2]; exact hts
    refine ⟨(tbs.index k).1, (tbs.index k).2, ?_, ?_, ?_⟩
    · simp only [SafeMap.Get, hloc]
      exact get_of_table h1 o.m tbs ht1 k
    · simp only [SafeMap.HasKey, hloc2]
      simp [Map.HasKey, ht2, index_snd]
    · rw [index_snd]
      exact isSome_lookup_iff tbs k
  · intro items h0 hk
    rw [get_of_table _ _ _ (table_newMap items h0)]
    congr 1
    have hnone : (fillTable items).lookup k = none :=
      lookup_fillTable_of_absent items k
        (fun it hit => hk it.Key (List.mem_map_of_mem Tuple.Key hit))
    split
    · simp [GoMap.index, hnone]
    · rfl
  · obtain ⟨h1, hdel, ht1, -, -, -⟩ := table_putTable h m tb (fun tb => tb.delete k) ht
    refine ⟨h1, hdel, ?_⟩
    rw [get_of_table h1 m _ ht1]
    have : (tb.delete k).lookup k = none := lookupKey_eraseKey_self k tb.entries
    simp [GoMap.index, this]
  · obtain ⟨h1, hclr, ht1⟩ := table_clear h m tb ht
    refine ⟨h1, hclr, ?_⟩
    rw [get_of_table h1 m _ ht1]
    rfl

/-- C5 on the map `{1: 10, 2: 20}` and the `SafeMap` around it, at key `7`. -/
theorem C5_get_missing_key_witness :
    ((∀ a ∈ table2.keys, GoKey.eq a 7 = false) →
        Map.Get 0 7 mapHeap2 = .ok (default, false)) ∧
    (∃ v ok, Map.Get 0 7 mapHeap2 = .ok (v, ok) ∧ Map.HasKey 0 7 mapHeap2 = .ok ok ∧
        (ok = true ↔ ∃ a ∈ table2.keys, GoKey.eq a 7 = true)) ∧
    ((∀ a ∈ table2.keys, GoKey.eq a 7 = false) →
        (SafeMap.Get 0 7 mapHeap2).1 = .ok (default, false)) ∧
    (∃ v ok, (SafeMap.Get 0 7 mapHeap2).1 = .ok (v, ok) ∧
        (SafeMap.HasKey 0 7 mapHeap2).1 = .ok ok ∧
        (ok = true ↔ ∃ a ∈ table2.keys, GoKey.eq a 7 = true)) ∧
    (∀ (items : List (Tuple Nat Nat)) (h0 : Heap Nat Nat),
        (∀ a ∈ items.map Tuple.Key, GoKey.eq a 7 = false) →
        Map.Get (NewMap items h0).1 7 (NewMap items h0).2 = .ok (default, false)) ∧
    (∃ h1, Map.Delete 0 7 mapHeap2 = (.ok (), h1) ∧ Map.Get 0 7 h1 = .ok (default, false)) ∧
    (∃ h1, Map.Clear 0 mapHeap2 = (.ok (), h1) ∧ Map.Get 0 7 h1 = .ok (default, false)) :=
  C5_get_missing_key mapHeap2 0 table2 rfl 0 ⟨0, false⟩ table2 rfl rfl rfl 7

/-- C7 as stated fails on a `float64` key. The map built by
`NewMap((NaN, 1))` holds the key NaN (`Keys` returns it and `Len` is 1), yet
`Delete(NaN)` changes nothing: `Len` is still 1 and the key is still there. -/
theorem C7_delete_nan_removes_nothing :
    Map.Keys RangeOrder.id 0 nanHeap = .ok [GoFloat.nan] ∧
    Map.Len 0 nanHeap = .ok 1 ∧
    (Map.Delete 0 GoFloat.nan nanHeap).1 = .ok () ∧
    Map.Len 0 (Map.Delete 0 GoFloat.nan nanHeap).2 = .ok 1 ∧
    Map.Keys RangeOrder.id 0 (Map.Delete 0 GoFloat.nan nanHeap).2 = .ok [GoFloat.nan] := by
  refine ⟨rfl, rfl, rfl, rfl, rfl⟩

/-- C7, amended: after `m.Delete(k)`, `Get(k)` returns the zero value and
`false`; `Get(k')` is unchanged for every key with `k != k'`; `Len` has gone
down by one if a key of the map was `==` to `k`; if none was (which is always
so for NaN) the call changes nothing at all. -/
theorem C7_delete_then_get (h : Heap K V) (m : Ptr) (tb : GoMap K V)
    (ht : h.table m = some tb) (k : K) :
    ∃ h1, Map.Delete m k h = (.ok (), h1) ∧
      Map.Get m k h1 = .ok (default, false) ∧
      (∀ k1, GoKey.eq k k1 = false → Map.Get m k1 h1 = Map.Get m k1 h) ∧
      Map.Len m h = .ok tb.len ∧
      ((∃ a ∈ tb.keys, GoKey.eq a k = true) →
        1 ≤ tb.len ∧ Map.Len m h1 = .ok (tb.len - 1)) ∧
      ((∀ a ∈ tb.keys, GoKey.eq a k = false) → Map.Len m h1 = .ok tb.len ∧ h1 = h) := by
  obtain ⟨t, hm1, hm2⟩ := (table_iff h m tb).1 ht
  obtain ⟨h1, hdel, ht1, -, -, -⟩ := table_putTable h m tb (fun tb => tb.delete k) ht
  refine ⟨h1, hdel, ?_, ?_, len_of_table h m tb ht, ?_, ?_⟩
  · rw [get_of_table h1 m _ ht1]
    have : (tb.delete k).lookup k = none := lookupKey_eraseKey_self k tb.entries
    simp [GoMap.index, this]
  · intro k1 hk1
    rw [get_of_table h1 m _ ht1, get_of_table h m _ ht]
    simp [GoMap.index, GoMap.lookup, GoMap.delete, lookupKey_eraseKey_ne k k1 _ hk1]
  · intro hk
    have hk' : (lookupKey k tb.entries).isSome = true :=
      (lookupKey_isSome_iff k tb.entries).2 hk
    have hpos : 1 ≤ tb.len := by
      unfold GoMap.len
      cases hl : tb.entries with
      | nil => rw [hl] at hk'; simp [lookupKey] at hk'
      | cons _ _ => simp
    refine ⟨hpos, ?_⟩
    rw [len_of_table h1 m _ ht1]
    simp [GoMap.len, GoMap.delete, length_eraseKey k tb.entries tb.apart, hk']
  · intro hk
    have hk' : lookupKey k tb.entries = none := (lookupKey_eq_none_iff k tb.entries).2 hk
    have hsame : tb.delete k = tb := by
      cases tb with
      | mk entries apart =>
        simp only [GoMap.delete]
        congr 1
        exact eraseKey_of_absent k entries hk'
    refine ⟨?_, ?_⟩
    · rw [len_of_table h1 m _ ht1, hsame]
    · have heq := putTable_eq h m t tb (fun tb => tb.delete k) hm1 hm2
      rw [heq] at hdel
      have h1eq : h1 = { h with tables := h.tables.set t (tb.delete k) } :=
        (Prod.mk.inj hdel).2.symm
      rw [h1eq, hsame, set_self_of_getElem? h.tables t tb hm2]

/-- C7 on the map `{1.0: 10, NaN: 5}`, deleting key `1.0`. -/
theorem C7_delete_then_get_witness :
    ∃ h1, Map.Delete 0 (GoFloat.num 1) floatHeap = (.ok (), h1) ∧
      Map.Get 0 (GoFloat.num 1) h1 = .ok (default, false) ∧
      (∀ k1, GoKey.eq (GoFloat.num 1) k1 = false →
        Map.Get 0 k1 h1 = Map.Get 0 k1 floatHeap) ∧
      Map.Len 0 floatHeap = .ok floatTable.len ∧
      ((∃ a ∈ floatTable.keys, GoKey.eq a (GoFloat.num 1) = true) →
        1 ≤ floatTable.len ∧ Map.Len 0 h1 = .ok (floatTable.len - 1)) ∧
      ((∀ a ∈ floatTable.keys, GoKey.eq a (GoFloat.num 1) = false) →
        Map.Len 0 h1 = .ok floatTable.len ∧ h1 = floatHeap) :=
  C7_delete_then_get floatHeap 0 floatTable rfl (GoFloat.num 1)

/-- C6 as stated fails on a `float64` key. The items `(NaN, 1), (NaN, 2)`
carry one distinct key, yet `NewMap` of them has `Len` 2; and `Get(NaN)`
returns `(0, false)` although the last item carrying NaN has the value 2. The
same two pairs as `Set` calls on an empty map leave `Len` at 2. -/
theorem C6_nan_keys_repeat :
    ([NewTuple GoFloat.nan 1, NewTuple GoFloat.nan 2].map Tuple.Key).dedup.length = 1 ∧
    Map.Len (NewMap [NewTuple GoFloat.nan 1, NewTuple GoFloat.nan 2]
        (Heap.empty : Heap GoFloat Nat)).1
      (NewMap [NewTuple GoFloat.nan 1, NewTuple GoFloat.nan 2]
        (Heap.empty : Heap GoFloat Nat)).2 = .ok 2 ∧
    ([NewTuple GoFloat.nan 1, NewTuple GoFloat.nan 2].reverse.find?
        (fun item => decide (item.Key = GoFloat.nan))).map Tuple.Value = some 2 ∧
    Map.Get (NewMap [NewTuple GoFloat.nan 1, NewTuple GoFloat.nan 2]
        (Heap.empty : Heap GoFloat Nat)).1 GoFloat.nan
      (NewMap [NewTuple GoFloat.nan 1, NewTuple GoFloat.nan 2]
        (Heap.empty : Heap GoFloat Nat)).2 = .ok (0, false) ∧
    Map.Len 0 (Map.setAll 0 [NewTuple GoFloat.nan 1, NewTuple GoFloat.nan 2]
        (NewMap [] (Heap.empty : Heap GoFloat Nat)).2).2 = .ok 2 := by
  refine ⟨by decide, rfl, rfl, rfl, rfl⟩

/-- C6, amended: keys are unique up to `==`: no two keys that `Keys` returns
are `==`. `NewMap(items...)` has as many entries as `items` has keys that are
`==` to no earlier key of `items` (a NaN key counts each time it occurs), and
`Get(k)` returns the value of the last item whose key is `==` to `k`, or the
zero value and `false` if there is none. A batch of `Set` calls made on an
empty `Map` or `SafeMap` in any order `order` leaves `Len` equal to that
number of distinct keys of the batch. -/
theorem C6_keys_unique (items : List (Tuple K V)) (h : Heap K V)
    (calls order : List (Tuple K V)) (hperm : order.Perm calls) (ρ : RangeOrder K V) :
    (∃ ks, Map.Keys ρ (NewMap items h).1 (NewMap items h).2 = .ok ks ∧
      ks.Pairwise (fun a b => GoKey.eq a b = false)) ∧
    Map.Len (NewMap items h).1 (NewMap items h).2 =
      .ok (countDistinct (items.map Tuple.Key)) ∧
    (∀ k, Map.Get (NewMap items h).1 k (NewMap items h).2 =
      .ok (((items.reverse.find? (fun item => GoKey.eq item.Key k)).map
        (fun item => (item.Value, true))).getD (default, false))) ∧
    (∃ h1, Map.setAll (NewMap [] h).1 order (NewMap [] h).2 = (.ok (), h1) ∧
      Map.Len (NewMap ([] : List (Tuple K V)) h).1 h1 =
        .ok (countDistinct (calls.map Tuple.Key))) ∧
    (∃ h1, SafeMap.setAll (NewSafeMap [] h).1 order (NewSafeMap [] h).2 = (.ok (), h1) ∧
      (SafeMap.Len (NewSafeMap ([] : List (Tuple K V)) h).1 h1).1 =
        .ok (countDistinct (calls.map Tuple.Key))) := by
  have hnil : ∀ l : List (Tuple K V), ¬ l.length > 0 → l = [] := by
    intro l hl
    cases l with
    | nil => rfl
    | cons _ _ => simp at hl
  have hcount : countDistinct (order.map Tuple.Key) = countDistinct (calls.map Tuple.Key) :=
    countDistinct_perm _ _ (hperm.map _)
  have hfill : (if items.length > 0 then fillTable items else GoMap.empty) =
      fillTable items := by
    split
    · rfl
    · rename_i hl
      rw [hnil items hl]
      rfl
  refine ⟨?_, ?_, ?_, ?_, ?_⟩
  · refine ⟨((fillTable items).range ρ).map Prod.fst, ?_, ?_⟩
    · simp only [Map.Keys, table_newMap items h, hfill]
    · exact apart_of_perm _ _ (ρ.perm _) (fillTable items).apart
  · rw [len_of_table _ _ _ (table_newMap items h), hfill]
    congr 1
    exact len_fillTable items
  · intro k
    rw [get_of_table _ _ _ (table_newMap items h)]
    congr 1
    rw [hfill]
    unfold GoMap.index fillTable
    rw [lookup_foldl_store]
    cases items.reverse.find? (fun item => GoKey.eq item.Key k) with
    | some x => rfl
    | none => rfl
  · obtain ⟨h1, hall, ht1⟩ := table_setAll order _ _ _ (table_newMap ([] : List (Tuple K V)) h)
    refine ⟨h1, hall, ?_⟩
    rw [len_of_table _ _ _ ht1, ← hcount]
    congr 1
    exact len_fillTable order
  · obtain ⟨hsm, hts⟩ := newSafeMap_spec ([] : List (Tuple K V)) h
    obtain ⟨h1, hall, hsm1, ht1⟩ := table_safeSetAll order _ _ _ _ hsm rfl hts
    refine ⟨h1, hall, ?_⟩
    rw [safeLen_spec h1 _ _ _ hsm1 rfl ht1, ← hcount]
    congr 1
    exact len_fillTable order

/-- C6 with four items over the keys `1.0`, `2.0` and NaN (twice), and the
same four pairs as `Set` calls made in another order. -/
theorem C6_keys_unique_witness :
    (∃ ks, Map.Keys RangeOrder.rev (NewMap floatItems (Heap.empty : Heap GoFloat Nat)).1
        (NewMap floatItems (Heap.empty : Heap GoFloat Nat)).2 = .ok ks ∧
      ks.Pairwise (fun a b => GoKey.eq a b = false)) ∧
    Map.Len (NewMap floatItems (Heap.empty : Heap GoFloat Nat)).1
        (NewMap floatItems (Heap.empty : Heap GoFloat Nat)).2 =
      .ok (countDistinct (floatItems.map Tuple.Key)) ∧
    (∀ k, Map.Get (NewMap floatItems (Heap.empty : Heap GoFloat Nat)).1 k
        (NewMap floatItems (Heap.empty : Heap GoFloat Nat)).2 =
      .ok (((floatItems.reverse.find? (fun item => GoKey.eq item.Key k)).map
        (fun item => (item.Value, true))).getD (default, false))) ∧
    (∃ h1, Map.setAll (NewMap [] (Heap.empty : Heap GoFloat Nat)).1 floatItems.reverse
          (NewMap [] (Heap.empty : Heap GoFloat Nat)).2 = (.ok (), h1) ∧
      Map.Len (NewMap ([] : List (Tuple GoFloat Nat)) (Heap.empty : Heap GoFloat Nat)).1 h1 =
        .ok (countDistinct (floatItems.map Tuple.Key))) ∧
    (∃ h1, SafeMap.setAll (NewSafeMap [] (Heap.empty : Heap GoFloat Nat)).1 floatItems.reverse
          (NewSafeMap [] (Heap.empty : Heap GoFloat Nat)).2 = (.ok (), h1) ∧
      (SafeMap.Len (NewSafeMap ([] : List (Tuple GoFloat Nat))
          (Heap.empty : Heap GoFloat Nat)).1 h1).1 =
        .ok (countDistinct (floatItems.map Tuple.Key))) :=
  C6_keys_unique floatItems Heap.empty floatItems floatItems.reverse
    (List.reverse_perm floatItems) RangeOrder.rev

end MapTheorems

/-! ## C8, C9: Clone -/

/-- C8: `Clone` yields an independent container. For a `Map` and for a
`Slice`, whatever calls of `Set`, `SetElem`, `Append`/`AppendElem`, `Delete`
and `Clear` are made on the clone (up to the first that panics), `Len`, every
`Get` and `Values` of the source are what they were before `Clone`; and
whatever such calls are made on the source after `Clone`, `Len`, every `Get`
and `Values` of the clone are what they were right after `Clone`. -/
theorem C8_clone_is_independent
    {K W : Type} [GoKey K] [Inhabited W] (ρ : RangeOrder K W) (hm : Heap K W)
    (c : Ptr) (tb : GoMap K W) (ht : hm.table c = some tb) (mops : List (MapOp K W))
    {V : Type} [Inhabited V] (g : Growth) (hs : SliceHeap V) (d : Ptr) (s : GoSlice)
    (a : List V) (hd : hs.field d = some s) (ha : hs.arrays[s.arr]? = some a)
    (sops : List (SliceOp V)) :
    (∃ p h1 n, Map.Clone ρ c hm = (.ok (.ofMap p), h1) ∧ Map.Len p h1 = .ok n ∧
      (Map.Len c (Map.applyOps p mops h1).2 = Map.Len c hm ∧
        (∀ k, Map.Get c k (Map.applyOps p mops h1).2 = Map.Get c k hm) ∧
        (∀ ρ1, Map.Values ρ1 c (Map.applyOps p mops h1).2 = Map.Values ρ1 c hm)) ∧
      (Map.Len p (Map.applyOps c mops h1).2 = Map.Len p h1 ∧
        (∀ k, Map.Get p k (Map.applyOps c mops h1).2 = Map.Get p k h1) ∧
        (∀ ρ1, Map.Values ρ1 p (Map.applyOps c mops h1).2 = Map.Values ρ1 p h1))) ∧
    (∃ q h1 sq, Slice.Clone d hs = (.ok (.ofSlice q), h1) ∧ Slice.Values q h1 = .ok sq ∧
      (Slice.Len d (Slice.applyOps g q sops h1).2 = Slice.Len d hs ∧
        (∀ i, Slice.Get d i (Slice.applyOps g q sops h1).2 = Slice.Get d i hs) ∧
        Slice.Values d (Slice.applyOps g q sops h1).2 = .ok s ∧
        (Slice.applyOps g q sops h1).2.read s = hs.read s) ∧
      (Slice.Len q (Slice.applyOps g d sops h1).2 = Slice.Len q h1 ∧
        (∀ i, Slice.Get q i (Slice.applyOps g d sops h1).2 = Slice.Get q i h1) ∧
        Slice.Values q (Slice.applyOps g d sops h1).2 = .ok sq ∧
        (Slice.applyOps g d sops h1).2.read sq = h1.read sq)) := by
  constructor
  · obtain ⟨tc, h1, hclone, hap, hsame, hnew⟩ := clone_spec ρ hm c tb ht
    obtain ⟨-, hfwd⟩ := applyOps_table mops h1 _ c _ tc hap
    obtain ⟨-, hbwd⟩ := applyOps_table mops h1 c _ tc _ (apart_symm h1 _ c _ tc hap)
    refine ⟨hm.maps.length, h1, _, hclone, len_of_table h1 _ _ hnew, ⟨?_, ?_, ?_⟩,
      ⟨?_, ?_, ?_⟩⟩
    · exact len_eq_of_table _ _ c c (hfwd.trans hsame)
    · exact fun k => get_eq_of_table _ _ c c (hfwd.trans hsame) k
    · exact fun ρ1 => values_of_table ρ1 _ _ c c (hfwd.trans hsame)
    · exact len_eq_of_table _ _ _ _ hbwd
    · exact fun k => get_eq_of_table _ _ _ _ hbwd k
    · exact fun ρ1 => values_of_table ρ1 _ _ _ _ hbwd
  · obtain ⟨hap, hsame⟩ := slice_clone_apart hs d s a hd ha
    have hd0 : hs.slices[d]? = some s := hd
    obtain ⟨sp2, ha2, hsame2⟩ := applyOps_kept g sops (cloneHeap hs s a) _ d _ s hap
    obtain ⟨sp3, ha3, hsame3⟩ :=
      applyOps_kept g sops (cloneHeap hs s a) d _ s _ (sapart_symm _ _ d _ s hap)
    obtain ⟨o1, o2, o3, o4⟩ := observe_eq hs (Slice.applyOps g hs.slices.length sops
      (cloneHeap hs s a)).2 d s hd0 ha2.2.1 (hsame2.trans hsame)
    obtain ⟨q1, q2, q3, q4⟩ := observe_eq (cloneHeap hs s a) (Slice.applyOps g d sops
      (cloneHeap hs s a)).2 hs.slices.length _ hap.1 ha3.2.1 hsame3
    have hv : Slice.Values hs.slices.length (cloneHeap hs s a) =
        .ok ⟨hs.arrays.length, 0, s.len, s.len⟩ := by
      have := hap.1
      simp [Slice.Values, SliceHeap.field, this]
    have hvd : Slice.Values d hs = .ok s := by
      simp [Slice.Values, hd]
    refine ⟨hs.slices.length, cloneHeap hs s a, _, slice_clone_eq hs d s a hd ha, hv,
      ⟨o1, o2, o3.trans hvd, o4⟩, ⟨q1, q2, q3.trans hv, q4⟩⟩

/-- C8 on the map `{1: 10, 2: 20}` and the slice `[10, 20, 30]`, with calls
that overwrite, delete, clear and add. -/
theorem C8_clone_is_independent_witness :
    (∃ p h1 n, Map.Clone RangeOrder.rev 0 mapHeap2 = (.ok (.ofMap p), h1) ∧
      Map.Len p h1 = .ok n ∧
      (Map.Len 0 (Map.applyOps p [MapOp.set 1 99, .delete 2, .clear, .setElem (NewTuple 5 50)]
          h1).2 = Map.Len 0 mapHeap2 ∧
        (∀ k, Map.Get 0 k (Map.applyOps p
          [MapOp.set 1 99, .delete 2, .clear, .setElem (NewTuple 5 50)] h1).2 =
            Map.Get 0 k mapHeap2) ∧
        (∀ ρ1, Map.Values ρ1 0 (Map.applyOps p
          [MapOp.set 1 99, .delete 2, .clear, .setElem (NewTuple 5 50)] h1).2 =
            Map.Values ρ1 0 mapHeap2)) ∧
      (Map.Len p (Map.applyOps 0 [MapOp.set 1 99, .delete 2, .clear, .setElem (NewTuple 5 50)]
          h1).2 = Map.Len p h1 ∧
        (∀ k, Map.Get p k (Map.applyOps 0
          [MapOp.set 1 99, .delete 2, .clear, .setElem (NewTuple 5 50)] h1).2 =
            Map.Get p k h1) ∧
        (∀ ρ1, Map.Values ρ1 p (Map.applyOps 0
          [MapOp.set 1 99, .delete 2, .clear, .setElem (NewTuple 5 50)] h1).2 =
            Map.Values ρ1 p h1))) ∧
    (∃ q h1 sq, Slice.Clone 0 sliceHeap3 = (.ok (.ofSlice q), h1) ∧
      Slice.Values q h1 = .ok sq ∧
      (Slice.Len 0 (Slice.applyOps (fun _ n => n) q
          [SliceOp.set 0 5, .append 7, .delete 1, .clear] h1).2 = Slice.Len 0 sliceHeap3 ∧
        (∀ i, Slice.Get 0 i (Slice.applyOps (fun _ n => n) q
          [SliceOp.set 0 5, .append 7, .delete 1, .clear] h1).2 = Slice.Get 0 i sliceHeap3) ∧
        Slice.Values 0 (Slice.applyOps (fun _ n => n) q
          [SliceOp.set 0 5, .append 7, .delete 1, .clear] h1).2 = .ok ⟨0, 0, 3, 3⟩ ∧
        (Slice.applyOps (fun _ n => n) q
          [SliceOp.set 0 5, .append 7, .delete 1, .clear] h1).2.read ⟨0, 0, 3, 3⟩ =
            sliceHeap3.read ⟨0, 0, 3, 3⟩) ∧
      (Slice.Len q (Slice.applyOps (fun _ n => n) 0
          [SliceOp.set 0 5, .append 7, .delete 1, .clear] h1).2 = Slice.Len q h1 ∧
        (∀ i, Slice.Get q i (Slice.applyOps (fun _ n => n) 0
          [SliceOp.set 0 5, .append 7, .delete 1, .clear] h1).2 = Slice.Get q i h1) ∧
        Slice.Values q (Slice.applyOps (fun _ n => n) 0
          [SliceOp.set 0 5, .append 7, .delete 1, .clear] h1).2 = .ok sq ∧
        (Slice.applyOps (fun _ n => n) 0
          [SliceOp.set 0 5, .append 7, .delete 1, .clear] h1).2.read sq = h1.read sq)) :=
  C8_clone_is_independent RangeOrder.rev mapHeap2 0 table2 rfl
    [MapOp.set 1 99, .delete 2, .clear, .setElem (NewTuple 5 50)]
    (fun _ n => n) sliceHeap3 0 ⟨0, 0, 3, 3⟩ [10, 20, 30] rfl rfl
    [SliceOp.set 0 5, .append 7, .delete 1, .clear]

/-- C9: `Clone` preserves contents. The clone of a `Slice` shows the same
elements in the same order as the source, and has the same `Len`. The clone
of a `Map`, and the clone of a `SafeMap` (whose mutex is free), has the same
`Len` as the source and returns for every key what `Get` returns on the
source. -/
theorem C9_clone_preserves_contents
    {V : Type} [Inhabited V] (hs : SliceHeap V) (d : Ptr) (s : GoSlice) (a : List V)
    (hd : hs.field d = some s) (ha : hs.arrays[s.arr]? = some a)
    (hwf : s.off + s.len ≤ a.length)
    {K W : Type} [GoKey K] [Inhabited W] (ρ : RangeOrder K W) (hm : Heap K W)
    (c : Ptr) (tb : GoMap K W) (ht : hm.table c = some tb)
    (sm : Ptr) (o : SafeMapObj) (tbs : GoMap K W) (hsm : hm.safeMaps[sm]? = some o)
    (hfree : o.lock = false) (hts : hm.table o.m = some tbs) :
    (∃ q h1 sq, Slice.Clone d hs = (.ok (.ofSlice q), h1) ∧
      Slice.Values q h1 = .ok sq ∧ Slice.Values d hs = .ok s ∧
      h1.read sq = hs.read s ∧ Slice.Len q h1 = Slice.Len d hs) ∧
    (∃ p h1, Map.Clone ρ c hm = (.ok (.ofMap p), h1) ∧
      Map.Len p h1 = Map.Len c hm ∧ ∀ k, Map.Get p k h1 = Map.Get c k hm) ∧
    (∃ p h1, SafeMap.Clone ρ sm hm = (.ok (.ofMap p), h1) ∧
      Map.Len p h1 = (SafeMap.Len sm hm).1 ∧
      ∀ k, Map.Get p k h1 = (SafeMap.Get sm k hm).1) := by
  refine ⟨?_, ?_, ?_⟩
  · obtain ⟨hap, -⟩ := slice_clone_apart hs d s a hd ha
    have hv : Slice.Values hs.slices.length (cloneHeap hs s a) =
        .ok ⟨hs.arrays.length, 0, s.len, s.len⟩ := by
      have := hap.1
      simp [Slice.Values, SliceHeap.field, this]
    refine ⟨hs.slices.length, cloneHeap hs s a, _, slice_clone_eq hs d s a hd ha, hv, ?_, ?_,
      ?_⟩
    · simp [Slice.Values, hd]
    · have hlen : ((a.drop s.off).take s.len).length = s.len := by
        simp only [List.length_take, List.length_drop]
        omega
      have hw : writeAt (List.replicate s.len (default : V)) 0 ((a.drop s.off).take s.len) =
          (a.drop s.off).take s.len :=
        writeAt_replicate_zero _ _ hlen
      have hr1 : hs.read s = some ((a.drop s.off).take s.len) := by
        simp [SliceHeap.read, ha]
      have hr2 : (cloneHeap hs s a).read ⟨hs.arrays.length, 0, s.len, s.len⟩ =
          some ((a.drop s.off).take s.len) := by
        simp only [SliceHeap.read, cloneHeap, hw, List.getElem?_concat_length, List.drop_zero]
        rw [List.take_of_length_le (Nat.le_of_eq hlen)]
      rw [hr1, hr2]
    · have := hap.1
      have hd0 : hs.slices[d]? = some s := hd
      simp [Slice.Len, SliceHeap.field, this, hd0]
  · obtain ⟨tc, h1, hclone, -, -, hnew⟩ := clone_spec ρ hm c tb ht
    obtain ⟨hlen, hlook⟩ := fillTable_range ρ tb
    refine ⟨hm.maps.length, h1, hclone, ?_, ?_⟩
    · rw [len_of_table h1 _ _ hnew, len_of_table hm c tb ht, hlen]
    · intro k
      rw [get_of_table h1 _ _ hnew, get_of_table hm c tb ht,
        index_eq_of_lookup _ _ k (hlook k)]
  · obtain ⟨p, h3, hclone, hnew⟩ := safeClone_spec ρ hm sm o tbs hsm hfree hts
    obtain ⟨hlen, hlook⟩ := fillTable_range ρ tbs
    refine ⟨p, h3, hclone, ?_, ?_⟩
    · rw [len_of_table h3 _ _ hnew, safeLen_spec hm sm o tbs hsm hfree hts, hlen]
    · intro k
      rw [get_of_table h3 _ _ hnew, safeGet_spec hm sm o tbs hsm hfree hts,
        index_eq_of_lookup _ _ k (hlook k)]

/-- C9 on the slice `[10, 20, 30]`, the map `{1: 10, 2: 20}` and the `SafeMap`
around it. -/
theorem C9_clone_preserves_contents_witness :
    (∃ q h1 sq, Slice.Clone 0 sliceHeap3 = (.ok (.ofSlice q), h1) ∧
      Slice.Values q h1 = .ok sq ∧ Slice.Values 0 sliceHeap3 = .ok ⟨0, 0, 3, 3⟩ ∧
      h1.read sq = sliceHeap3.read ⟨0, 0, 3, 3⟩ ∧ Slice.Len q h1 = Slice.Len 0 sliceHeap3) ∧
    (∃ p h1, Map.Clone RangeOrder.rev 0 mapHeap2 = (.ok (.ofMap p), h1) ∧
      Map.Len p h1 = Map.Len 0 mapHeap2 ∧ ∀ k, Map.Get p k h1 = Map.Get 0 k mapHeap2) ∧
    (∃ p h1, SafeMap.Clone RangeOrder.rev 0 mapHeap2 = (.ok (.ofMap p), h1) ∧
      Map.Len p h1 = (SafeMap.Len 0 mapHeap2).1 ∧
      ∀ k, Map.Get p k h1 = (SafeMap.Get 0 k mapHeap2).1) :=
  C9_clone_preserves_contents sliceHeap3 0 ⟨0, 0, 3, 3⟩ [10, 20, 30] rfl rfl (by decide)
    RangeOrder.rev mapHeap2 0 table2 rfl 0 ⟨0, false⟩ table2 rfl rfl rfl

/-! ## C10: FactoryFrom on key-based containers -/

/-- C10: for every `Map` or `SafeMap` and every list of values, the empty one
included, `FactoryFrom` panics with the message that the operation is not
supported, returns no collection, and leaves the heap, the receiver with it,
as it was. -/
theorem C10_factoryFrom_unsupported {K W : Type} [GoKey K] (h : Heap K W) (m : Ptr)
    (values : List W) :
    Map.FactoryFrom m values h =
      (.error (.panicMsg "Map doesn't support FactoryFrom"), h) ∧
    SafeMap.FactoryFrom m values h =
      (.error (.panicMsg "SafeMap doesn't support FactoryFrom"), h) ∧
    (∀ c, (Map.FactoryFrom m values h).1 ≠ .ok c) ∧
    (∀ c, (SafeMap.FactoryFrom m values h).1 ≠ .ok c) := by
  refine ⟨rfl, rfl, ?_, ?_⟩
  · intro c hc
    simp [Map.FactoryFrom] at hc
  · intro c hc
    simp [SafeMap.FactoryFrom] at hc

/-! ## C11 to C14: building, reading, deleting from and slicing a Slice -/

section SliceTheorems

variable {V : Type} [Inhabited V]

/-- C11: for every value list `values` (a slice value as Go keeps it, or nil)
and whatever the receiver, `s.FactoryFrom(values)` and `NewSlice(values...)`
return the same new `Slice`, whose `Values()` shows the elements of `values`
in the same order, whose `Len()` is their number and whose `Get(i)` is
`(values[i], true)` for every valid `i`; nil or empty `values` give an empty
`Slice`. -/
theorem C11_factoryFrom_yields_values (h : SliceHeap V) (p : Ptr)
    (values : Option GoSlice) (vs : List V) (hvalid : h.ValidArg values)
    (hread : h.readArg values = some vs) :
    ∃ q h1 sq, Slice.FactoryFrom p values h = (.ok (.ofSlice q), h1) ∧
      NewSlice values h = (q, h1) ∧
      Slice.Values q h1 = .ok sq ∧ h1.read sq = some vs ∧
      Slice.Len q h1 = .ok vs.length ∧
      (∀ (i : Nat) (v : V), vs[i]? = some v → Slice.Get q (i : Int) h1 = .ok (v, true)) ∧
      (vs = [] → Slice.Len q h1 = .ok 0 ∧ Slice.IsEmpty q h1 = .ok true) := by
  cases values with
  | none =>
    have hvs : vs = [] := by
      simp only [SliceHeap.readArg, Option.some.injEq] at hread
      exact hread.symm
    subst hvs
    refine ⟨h.slices.length, (NewSlice none h).2, ⟨h.arrays.length, 0, 0, 0⟩, rfl, rfl, ?_, ?_,
      ?_, ?_, ?_⟩
    · simp [Slice.Values, SliceHeap.field, NewSlice, SliceHeap.make]
    · simp [SliceHeap.read, NewSlice, SliceHeap.make]
    · simp [Slice.Len, SliceHeap.field, NewSlice, SliceHeap.make]
    · intro i v hv
      simp at hv
    · intro _
      simp [Slice.Len, Slice.IsEmpty, SliceHeap.field, NewSlice, SliceHeap.make]
  | some s =>
    obtain ⟨a, ha, hcap, hlc⟩ := hvalid s rfl
    have hvs : vs = (a.drop s.off).take s.len := by
      simp only [SliceHeap.readArg, read_eq h s a ha, Option.some.injEq] at hread
      exact hread.symm
    have hlen : vs.length = s.len := by
      rw [hvs]; exact length_window a _ _ (by omega)
    have hfield : (NewSlice (some s) h).2.field h.slices.length = some s := by
      simp [SliceHeap.field, NewSlice]
    refine ⟨h.slices.length, (NewSlice (some s) h).2, s, rfl, rfl, ?_, ?_, ?_, ?_, ?_⟩
    · simp [Slice.Values, hfield]
    · rw [hvs]
      exact read_eq _ s a ha
    · simp [Slice.Len, hfield, hlen]
    · intro i v hv
      have hi : i < vs.length := by
        rcases List.getElem?_eq_some_iff.1 hv with ⟨hl, -⟩
        exact hl
      obtain ⟨v1, hv1, hidx⟩ := index_in_range (NewSlice (some s) h).2 s a ha (by omega)
        (i : Int) (Int.ofNat_nonneg i) (by rw [← hlen]; exact_mod_cast hi)
      rw [Int.toNat_ofNat, ← hvs, hv] at hv1
      have hvv : v1 = v := (Option.some.inj hv1).symm
      simp [Slice.Get, hfield, hidx, hvv]
    · intro he
      have h0 : s.len = 0 := by rw [← hlen, he]; rfl
      simp [Slice.Len, Slice.IsEmpty, hfield, h0]

/-- C11 with the value list `[10, 20, 30]`. -/
theorem C11_factoryFrom_yields_values_witness :
    ∃ q h1 sq, Slice.FactoryFrom 0 (some ⟨0, 0, 3, 3⟩) sliceHeap3 = (.ok (.ofSlice q), h1) ∧
      NewSlice (some ⟨0, 0, 3, 3⟩) sliceHeap3 = (q, h1) ∧
      Slice.Values q h1 = .ok sq ∧ h1.read sq = some [10, 20, 30] ∧
      Slice.Len q h1 = .ok [10, 20, 30].length ∧
      (∀ (i : Nat) (v : Nat), [10, 20, 30][i]? = some v →
        Slice.Get q (i : Int) h1 = .ok (v, true)) ∧
      (([10, 20, 30] : List Nat) = [] →
        Slice.Len q h1 = .ok 0 ∧ Slice.IsEmpty q h1 = .ok true) :=
  C11_factoryFrom_yields_values sliceHeap3 0 (some ⟨0, 0, 3, 3⟩) [10, 20, 30]
    (fun s1 hs1 => by
      cases hs1
      exact ⟨[10, 20, 30], rfl, by decide, by decide⟩)
    rfl

end SliceTheorems

/-- C12: for a `Slice` with elements `vs` and an index `i`: if
`0 ≤ i < Len()` then `Get(i)` returns the element at position `i` and `true`;
if `i` is outside that range, `Get(i)` does not return, it fails with the
index-out-of-range panic of the indexing `s.slice[i]`. `Get` never returns
`false`. -/
theorem C12_get_in_and_out_of_range {V : Type} (h : SliceHeap V) (p : Ptr) (s : GoSlice)
    (vs : List V)
    (hp : h.field p = some s) (hv : h.Valid s) (hr : h.read s = some vs) :
    Slice.Len p h = .ok s.len ∧
    (∀ i : Int, 0 ≤ i → i < s.len →
      ∃ v, vs[i.toNat]? = some v ∧ Slice.Get p i h = .ok (v, true)) ∧
    (∀ i : Int, (i < 0 ∨ (s.len : Int) ≤ i) → Slice.Get p i h = .error .indexOutOfRange) ∧
    (∀ (i : Int) (v : V), Slice.Get p i h ≠ .ok (v, false)) := by
  obtain ⟨a, ha, hcap, hlc⟩ := hv
  have hvs : vs = (a.drop s.off).take s.len := by
    rw [read_eq h s a ha] at hr
    exact (Option.some.inj hr).symm
  refine ⟨by simp [Slice.Len, hp], ?_, ?_, ?_⟩
  · intro i h0 h1
    obtain ⟨v, hv1, hidx⟩ := index_in_range h s a ha (by omega) i h0 h1
    refine ⟨v, by rw [hvs]; exact hv1, ?_⟩
    simp [Slice.Get, hp, hidx]
  · intro i hout
    have : ¬ (0 ≤ i ∧ i < (s.len : Int)) := by omega
    simp [Slice.Get, hp, index_out_of_range h s i this]
  · intro i v
    simp only [Slice.Get, hp]
    cases h.index s i with
    | error f => simp
    | ok w => simp

/-- C12 on the slice `[10, 20, 30]`. -/
theorem C12_get_in_and_out_of_range_witness :
    Slice.Len 0 sliceHeap3 = .ok 3 ∧
    (∀ i : Int, 0 ≤ i → i < (3 : Nat) →
      ∃ v, [10, 20, 30][i.toNat]? = some v ∧ Slice.Get 0 i sliceHeap3 = .ok (v, true)) ∧
    (∀ i : Int, (i < 0 ∨ ((3 : Nat) : Int) ≤ i) →
      Slice.Get 0 i sliceHeap3 = .error .indexOutOfRange) ∧
    (∀ (i : Int) (v : Nat), Slice.Get 0 i sliceHeap3 ≠ .ok (v, false)) :=
  C12_get_in_and_out_of_range sliceHeap3 0 ⟨0, 0, 3, 3⟩ [10, 20, 30] rfl
    ⟨[10, 20, 30], rfl, by decide, by decide⟩ rfl

section SliceTheorems2

variable {V : Type} [Inhabited V]

/-- C13: for a `Slice` with elements `vs` and an index `i` with
`0 ≤ i < Len()`: after `Delete(i)`, `Values()` shows `vs` with the element at
position `i` removed and the others in their order, and `Len()` is one less.
For `i == Len()` and any other index outside the range, `Delete` panics and
the heap is as before: nothing is removed. -/
theorem C13_delete_removes_one (g : Growth) (h : SliceHeap V) (p : Ptr) (s : GoSlice)
    (vs : List V) (hp : h.field p = some s) (hv : h.Valid s) (hr : h.read s = some vs) :
    Slice.Len p h = .ok s.len ∧
    (∀ i : Int, 0 ≤ i → i < s.len →
      ∃ h1 s1, Slice.Delete g p i h = (.ok (), h1) ∧ Slice.Values p h1 = .ok s1 ∧
        h1.read s1 = some (vs.eraseIdx i.toNat) ∧ 1 ≤ s.len ∧
        Slice.Len p h1 = .ok (s.len - 1)) ∧
    (∀ i : Int, (i < 0 ∨ (s.len : Int) ≤ i) →
      Slice.Delete g p i h = (.error .sliceBounds, h)) := by
  obtain ⟨a, ha, hcap, hlc⟩ := hv
  have hvs : vs = (a.drop s.off).take s.len := by
    rw [read_eq h s a ha] at hr
    exact (Option.some.inj hr).symm
  have hpl := field_lt h p s hp
  have hal := arr_lt h s a ha
  refine ⟨by simp [Slice.Len, hp], ?_, ?_⟩
  · intro i h0 h1
    have hi : i.toNat < s.len := by omega
    have hcast : ((i.toNat : Nat) : Int) = i := Int.toNat_of_nonneg h0
    have hdel := delete_in_range g h p s a hp ha hcap hlc i.toNat hi
    rw [hcast] at hdel
    refine ⟨_, ⟨s.arr, s.off, s.len - 1, s.cap⟩, hdel, ?_, ?_, by omega, ?_⟩
    · simp [Slice.Values, SliceHeap.field, SliceHeap.setField, hpl]
    · simp only [SliceHeap.read, SliceHeap.setField]
      rw [List.getElem?_set_self hal, hvs]
      simp only []
      rw [delete_window a s.off s.len i.toNat (by omega) hi]
    · simp [Slice.Len, SliceHeap.field, SliceHeap.setField, hpl]
  · intro i hout
    exact delete_out_of_range g h p s hp i (by omega)

/-- C13 on the slice `[10, 20, 30]`. -/
theorem C13_delete_removes_one_witness :
    Slice.Len 0 sliceHeap3 = .ok 3 ∧
    (∀ i : Int, 0 ≤ i → i < (3 : Nat) →
      ∃ h1 s1, Slice.Delete (fun _ n => n) 0 i sliceHeap3 = (.ok (), h1) ∧
        Slice.Values 0 h1 = .ok s1 ∧
        h1.read s1 = some ([10, 20, 30].eraseIdx i.toNat) ∧ 1 ≤ 3 ∧
        Slice.Len 0 h1 = .ok (3 - 1)) ∧
    (∀ i : Int, (i < 0 ∨ ((3 : Nat) : Int) ≤ i) →
      Slice.Delete (fun _ n => n) 0 i sliceHeap3 = (.error .sliceBounds, sliceHeap3)) :=
  C13_delete_removes_one (fun _ n => n) sliceHeap3 0 ⟨0, 0, 3, 3⟩ [10, 20, 30] rfl
    ⟨[10, 20, 30], rfl, by decide, by decide⟩ rfl

/-- C14: for a `Slice` with elements `vs` and indices with
`0 ≤ start ≤ end ≤ Len()`, `Slice(start, end)` returns a new `Slice` whose
`Values()` shows the elements of `vs` at positions `start` to `end - 1` in
that order, so its `Len()` is `end - start`; `Values()` of the receiver is
what it was. -/
theorem C14_subslice_values (h : SliceHeap V) (d : Ptr) (s : GoSlice) (vs : List V)
    (hd : h.field d = some s) (hv : h.Valid s) (hr : h.read s = some vs)
    (start stop : Int) (h0 : 0 ≤ start) (h1 : start ≤ stop) (h2 : stop ≤ s.len) :
    ∃ q h1 sq, Slice.Slice d start stop h = (.ok q, h1) ∧
      Slice.Values q h1 = .ok sq ∧
      h1.read sq = some ((vs.drop start.toNat).take (stop.toNat - start.toNat)) ∧
      Slice.Len q h1 = .ok (stop.toNat - start.toNat) ∧
      Slice.Values d h1 = .ok s ∧ h1.read s = some vs := by
  obtain ⟨a, ha, hcap, hlc⟩ := hv
  have hvs : vs = (a.drop s.off).take s.len := by
    rw [read_eq h s a ha] at hr
    exact (Option.some.inj hr).symm
  have hdl := field_lt h d s hd
  have hd0 : h.slices[d]? = some s := hd
  have hc1 : ((start.toNat : Nat) : Int) = start := Int.toNat_of_nonneg h0
  have hc2 : ((stop.toNat : Nat) : Int) = stop := Int.toNat_of_nonneg (by omega)
  have hsl := slice_nat s start.toNat stop.toNat (by omega) (by omega)
  rw [hc1, hc2] at hsl
  refine ⟨h.slices.length, ⟨h.arrays, h.slices ++
    [⟨s.arr, s.off + start.toNat, stop.toNat - start.toNat, s.cap - start.toNat⟩]⟩,
    ⟨s.arr, s.off + start.toNat, stop.toNat - start.toNat, s.cap - start.toNat⟩,
    ?_, ?_, ?_, ?_, ?_, ?_⟩
  · simp [Slice.Slice, hd, hsl, NewSlice]
  · simp [Slice.Values, SliceHeap.field]
  · simp only [SliceHeap.read, ha]
    rw [hvs, window_window a s.off s.len start.toNat stop.toNat (by omega)]
  · simp [Slice.Len, SliceHeap.field]
  · simp [Slice.Values, SliceHeap.field, List.getElem?_append_left hdl, hd0]
  · simp only [SliceHeap.read, ha]
    rw [hvs]

/-- C14 on the slice `[10, 20, 30]`, taking positions 1 and 2. -/
theorem C14_subslice_values_witness :
    ∃ q h1 sq, Slice.Slice 0 1 3 sliceHeap3 = (.ok q, h1) ∧
      Slice.Values q h1 = .ok sq ∧
      h1.read sq = some (([10, 20, 30].drop (1 : Int).toNat).take
        ((3 : Int).toNat - (1 : Int).toNat)) ∧
      Slice.Len q h1 = .ok ((3 : Int).toNat - (1 : Int).toNat) ∧
      Slice.Values 0 h1 = .ok ⟨0, 0, 3, 3⟩ ∧ h1.read ⟨0, 0, 3, 3⟩ = some [10, 20, 30] :=
  C14_subslice_values sliceHeap3 0 ⟨0, 0, 3, 3⟩ [10, 20, 30] rfl
    ⟨[10, 20, 30], rfl, by decide, by decide⟩ rfl 1 3 (by decide) (by decide) (by decide)

end SliceTheorems2

/-! ## C17: SafeMap as a Map wrapped in a lock -/

/-- C17: in sequential use, with the mutex free before the call, each of
`Get`, `Set`, `SetElem`, `AppendElem`, `Delete`, `Len`, `Cap`, `Values`,
`Keys`, `Clear`, `HasKey` and `IsEmpty` on a `SafeMap` returns what the same
call on its plain embedded `Map` returns and leaves the same contents; it
calls `Lock()` once and then `Unlock()` once, and the mutex is free again
after the call. Whatever order `range` follows on either side, `Values` and
`Keys` agree as multisets. -/
theorem C17_safeMap_is_lock_wrapped_map {K V : Type} [GoKey K] [Inhabited V]
    (ρ : RangeOrder K V) (h : Heap K V) (sm : Ptr) (o : SafeMapObj)
    (hsm : h.safeMaps[sm]? = some o) (hfree : o.lock = false) (k : K) (v : V)
    (e : Tuple K V) :
    LockWrapped sm h (SafeMap.Get sm k h) (Map.Get o.m k h, h) ∧
    LockWrapped sm h (SafeMap.Set sm k v h) (Map.Set o.m k v h) ∧
    LockWrapped sm h (SafeMap.SetElem sm e h) (Map.SetElem o.m e h) ∧
    LockWrapped sm h (SafeMap.AppendElem sm e h) (Map.AppendElem o.m e h) ∧
    LockWrapped sm h (SafeMap.Delete sm k h) (Map.Delete o.m k h) ∧
    LockWrapped sm h (SafeMap.Len sm h) (Map.Len o.m h, h) ∧
    LockWrapped sm h (SafeMap.Cap sm h) (Map.Cap o.m h, h) ∧
    LockWrapped sm h (SafeMap.Values ρ sm h) (Map.Values ρ o.m h, h) ∧
    LockWrapped sm h (SafeMap.Keys ρ sm h) (Map.Keys ρ o.m h, h) ∧
    LockWrapped sm h (SafeMap.Clear sm h) (Map.Clear o.m h) ∧
    LockWrapped sm h (SafeMap.HasKey sm k h) (Map.HasKey o.m k h, h) ∧
    LockWrapped sm h (SafeMap.IsEmpty sm h) (Map.IsEmpty o.m h, h) ∧
    (∀ (ρ1 ρ2 : RangeOrder K V) (l1 l2 : List V), (SafeMap.Values ρ1 sm h).1 = .ok l1 →
      Map.Values ρ2 o.m h = .ok l2 → (↑l1 : Multiset V) = ↑l2) ∧
    (∀ (ρ1 ρ2 : RangeOrder K V) (l1 l2 : List K), (SafeMap.Keys ρ1 sm h).1 = .ok l1 →
      Map.Keys ρ2 o.m h = .ok l2 → (↑l1 : Multiset K) = ↑l2) := by
  have hread : ∀ {α : Type} (f : Ptr → Heap K V → Except Fault α),
      (∀ (h1 : Heap K V) sf lg, f o.m (h1.withSafe sf lg) = f o.m h1) →
      LockWrapped sm h (SafeMap.locked sm h (fun inner h1 => (f inner h1, h1)))
        (f o.m h, h) := by
    intro α f hf
    exact locked_commutes h sm o hsm hfree (fun inner h1 => (f inner h1, h1))
      (commutes_read (f o.m) hf)
  have hput : ∀ (f : GoMap K V → GoMap K V),
      LockWrapped sm h (SafeMap.locked sm h (fun inner h1 => h1.putTable inner f))
        (h.putTable o.m f) := by
    intro f
    exact locked_commutes h sm o hsm hfree (fun inner h1 => h1.putTable inner f)
      (commutes_putTable o.m f)
  refine ⟨hread (fun inner h1 => Map.Get inner k h1) (fun _ _ _ => rfl),
    hput (fun tb => tb.store k v), hput (fun tb => tb.store e.Key e.Value),
    hput (fun tb => tb.store e.Key e.Value), hput (fun tb => tb.delete k),
    hread (fun inner h1 => Map.Len inner h1) (fun _ _ _ => rfl),
    hread (fun inner h1 => Map.Cap inner h1) (fun _ _ _ => rfl),
    hread (fun inner h1 => Map.Values ρ inner h1) (fun _ _ _ => rfl),
    hread (fun inner h1 => Map.Keys ρ inner h1) (fun _ _ _ => rfl),
    locked_commutes h sm o hsm hfree (fun inner h1 => Map.Clear inner h1) (commutes_clear o.m),
    hread (fun inner h1 => Map.HasKey inner k h1) (fun _ _ _ => rfl),
    hread (fun inner h1 => Map.IsEmpty inner h1) (fun _ _ _ => rfl), ?_, ?_⟩
  · intro ρ1 ρ2 l1 l2 h1 h2
    have hw := (hread (fun inner h1 => Map.Values ρ1 inner h1) (fun _ _ _ => rfl)).1
    have h1' : Map.Values ρ1 o.m h = .ok l1 := by
      rw [← h1]; exact hw.symm
    unfold Map.Values at h1' h2
    cases ht : h.table o.m with
    | none => simp [ht] at h1'
    | some tb =>
      simp only [ht, Except.ok.injEq] at h1' h2
      rw [← h1', ← h2]
      exact Multiset.coe_eq_coe.2
        (((ρ1.perm tb.entries).trans (ρ2.perm tb.entries).symm).map _)
  · intro ρ1 ρ2 l1 l2 h1 h2
    have hw := (hread (fun inner h1 => Map.Keys ρ1 inner h1) (fun _ _ _ => rfl)).1
    have h1' : Map.Keys ρ1 o.m h = .ok l1 := by
      rw [← h1]; exact hw.symm
    unfold Map.Keys at h1' h2
    cases ht : h.table o.m with
    | none => simp [ht] at h1'
    | some tb =>
      simp only [ht, Except.ok.injEq] at h1' h2
      rw [← h1', ← h2]
      exact Multiset.coe_eq_coe.2
        (((ρ1.perm tb.entries).trans (ρ2.perm tb.entries).symm).map _)

/-- C17 on the `SafeMap` holding `{1: 10, 2: 20}`. -/
theorem C17_safeMap_is_lock_wrapped_map_witness :
    LockWrapped 0 mapHeap2 (SafeMap.Get 0 1 mapHeap2) (Map.Get 0 1 mapHeap2, mapHeap2) ∧
    LockWrapped 0 mapHeap2 (SafeMap.Set 0 1 11 mapHeap2) (Map.Set 0 1 11 mapHeap2) ∧
    LockWrapped 0 mapHeap2 (SafeMap.SetElem 0 (NewTuple 3 30) mapHeap2)
      (Map.SetElem 0 (NewTuple 3 30) mapHeap2) ∧
    LockWrapped 0 mapHeap2 (SafeMap.AppendElem 0 (NewTuple 3 30) mapHeap2)
      (Map.AppendElem 0 (NewTuple 3 30) mapHeap2) ∧
    LockWrapped 0 mapHeap2 (SafeMap.Delete 0 1 mapHeap2) (Map.Delete 0 1 mapHeap2) ∧
    LockWrapped 0 mapHeap2 (SafeMap.Len 0 mapHeap2) (Map.Len 0 mapHeap2, mapHeap2) ∧
    LockWrapped 0 mapHeap2 (SafeMap.Cap 0 mapHeap2) (Map.Cap 0 mapHeap2, mapHeap2) ∧
    LockWrapped 0 mapHeap2 (SafeMap.Values RangeOrder.id 0 mapHeap2)
      (Map.Values RangeOrder.id 0 mapHeap2, mapHeap2) ∧
    LockWrapped 0 mapHeap2 (SafeMap.Keys RangeOrder.id 0 mapHeap2)
      (Map.Keys RangeOrder.id 0 mapHeap2, mapHeap2) ∧
    LockWrapped 0 mapHeap2 (SafeMap.Clear 0 mapHeap2) (Map.Clear 0 mapHeap2) ∧
    LockWrapped 0 mapHeap2 (SafeMap.HasKey 0 1 mapHeap2) (Map.HasKey 0 1 mapHeap2, mapHeap2) ∧
    LockWrapped 0 mapHeap2 (SafeMap.IsEmpty 0 mapHeap2) (Map.IsEmpty 0 mapHeap2, mapHeap2) ∧
    (∀ (ρ1 ρ2 : RangeOrder Nat Nat) (l1 l2 : List Nat),
      (SafeMap.Values ρ1 0 mapHeap2).1 = .ok l1 →
      Map.Values ρ2 0 mapHeap2 = .ok l2 → (↑l1 : Multiset Nat) = ↑l2) ∧
    (∀ (ρ1 ρ2 : RangeOrder Nat Nat) (l1 l2 : List Nat),
      (SafeMap.Keys ρ1 0 mapHeap2).1 = .ok l1 →
      Map.Keys ρ2 0 mapHeap2 = .ok l2 → (↑l1 : Multiset Nat) = ↑l2) :=
  C17_safeMap_is_lock_wrapped_map RangeOrder.id mapHeap2 0 ⟨0, false⟩ rfl rfl 1 11
    (NewTuple 3 30)

/-! ## C15, C16: Cap and Len -/

/-- C15: `Cap() ≥ Len()` always. In the state reached from `NewMap`,
`NewSafeMap`, `NewSlice` or `NewSliceN(s, n)` with `0 ≤ s ≤ n` by any list of
`Set`, `SetElem`, `Append`, `AppendElem`, `AppendSlice`, `Delete` and `Clear`
calls (up to the first that fails), `Len()` and `Cap()` return, `Cap()` is at
least `Len()`, and `IsEmpty()` is true exactly when `Len()` is `0`. -/
theorem C15_cap_at_least_len
    {K W : Type} [GoKey K] (items : List (Tuple K W)) (hm : Heap K W)
    (mops : List (MapOp K W))
    {V : Type} [Inhabited V] (g : Growth) (hs : SliceHeap V) (vals : Option GoSlice)
    (hvals : hs.ValidArg vals) (s n : Int) (h0 : 0 ≤ s) (h1 : s ≤ n)
    (calls : List (SliceCall V)) :
    (∃ len cap,
      Map.Len (NewMap items hm).1 (Map.applyOps (NewMap items hm).1 mops (NewMap items hm).2).2
        = .ok len ∧
      Map.Cap (NewMap items hm).1 (Map.applyOps (NewMap items hm).1 mops (NewMap items hm).2).2
        = .ok cap ∧ len ≤ cap ∧
      Map.IsEmpty (NewMap items hm).1
        (Map.applyOps (NewMap items hm).1 mops (NewMap items hm).2).2
        = .ok (decide (len = 0))) ∧
    (∃ len cap,
      (SafeMap.Len (NewSafeMap items hm).1
        (SafeMap.applyOps (NewSafeMap items hm).1 mops (NewSafeMap items hm).2).2).1
        = .ok len ∧
      (SafeMap.Cap (NewSafeMap items hm).1
        (SafeMap.applyOps (NewSafeMap items hm).1 mops (NewSafeMap items hm).2).2).1
        = .ok cap ∧ len ≤ cap ∧
      (SafeMap.IsEmpty (NewSafeMap items hm).1
        (SafeMap.applyOps (NewSafeMap items hm).1 mops (NewSafeMap items hm).2).2).1
        = .ok (decide (len = 0))) ∧
    (∃ len cap,
      Slice.Len (NewSlice vals hs).1
        (Slice.applyCalls g (NewSlice vals hs).1 calls (NewSlice vals hs).2).2 = .ok len ∧
      Slice.Cap (NewSlice vals hs).1
        (Slice.applyCalls g (NewSlice vals hs).1 calls (NewSlice vals hs).2).2 = .ok cap ∧
      len ≤ cap ∧
      Slice.IsEmpty (NewSlice vals hs).1
        (Slice.applyCalls g (NewSlice vals hs).1 calls (NewSlice vals hs).2).2
        = .ok (decide (len = 0))) ∧
    (∃ p hn len cap, NewSliceN s n hs = (.ok p, hn) ∧
      Slice.Len p (Slice.applyCalls g p calls hn).2 = .ok len ∧
      Slice.Cap p (Slice.applyCalls g p calls hn).2 = .ok cap ∧ len ≤ cap ∧
      Slice.IsEmpty p (Slice.applyCalls g p calls hn).2 = .ok (decide (len = 0))) := by
  have hmapObs : ∀ (h : Heap K W) (m : Ptr) (tb : GoMap K W), h.table m = some tb →
      Map.Len m h = .ok tb.len ∧ Map.Cap m h = .ok tb.len ∧
        Map.IsEmpty m h = .ok (decide (tb.len = 0)) := by
    intro h m tb ht
    refine ⟨len_of_table h m tb ht, len_of_table h m tb ht, ?_⟩
    simp only [Map.IsEmpty, ht]
    congr 1
  refine ⟨?_, ?_, ?_, ?_⟩
  · obtain ⟨tb1, -, ht1⟩ := applyOps_valid mops _ _ _ (table_newMap items hm)
    obtain ⟨o1, o2, o3⟩ := hmapObs _ _ tb1 ht1
    exact ⟨tb1.len, tb1.len, o1, o2, Nat.le_refl _, o3⟩
  · obtain ⟨hsm, hts⟩ := newSafeMap_spec items hm
    obtain ⟨tb1, -, hsm1, ht1⟩ := safe_applyOps_valid mops _ _ _ _ hsm rfl hts
    obtain ⟨o1, o2, o3⟩ := hmapObs _ _ tb1 ht1
    have w1 := (locked_commutes _ _ _ hsm1 rfl (fun inner h1 => (Map.Len inner h1, h1))
      (commutes_read _ (fun _ _ _ => rfl))).1
    have w2 := (locked_commutes _ _ _ hsm1 rfl (fun inner h1 => (Map.Cap inner h1, h1))
      (commutes_read _ (fun _ _ _ => rfl))).1
    have w3 := (locked_commutes _ _ _ hsm1 rfl (fun inner h1 => (Map.IsEmpty inner h1, h1))
      (commutes_read _ (fun _ _ _ => rfl))).1
    exact ⟨tb1.len, tb1.len, w1.trans o1, w2.trans o2, Nat.le_refl _, w3.trans o3⟩
  · apply sinv_observe
    apply sinv_applyCalls
    cases vals with
    | none =>
      exact ⟨⟨hs.arrays.length, 0, 0, 0⟩, by simp [SliceHeap.field, NewSlice, SliceHeap.make],
        Nat.le_refl _⟩
    | some s0 =>
      obtain ⟨a, -, -, hlc⟩ := hvals s0 rfl
      exact ⟨s0, by simp [SliceHeap.field, NewSlice], hlc⟩
  · have hcond : 0 ≤ s ∧ s ≤ n := ⟨h0, h1⟩
    refine ⟨hs.slices.length, (NewSliceN s n hs).2, ?_⟩
    have hnew : NewSliceN s n hs = (.ok hs.slices.length, (NewSliceN s n hs).2) := by
      simp [NewSliceN, hcond, SliceHeap.make]
    have hinv : SInv (NewSliceN s n hs).2 hs.slices.length := by
      refine ⟨⟨hs.arrays.length, 0, s.toNat, n.toNat⟩, ?_, by simp only; omega⟩
      simp [NewSliceN, hcond, SliceHeap.make, SliceHeap.field]
    obtain ⟨len, cap, o1, o2, o3, o4⟩ :=
      sinv_observe _ _ (sinv_applyCalls g calls _ _ hinv)
    exact ⟨len, cap, hnew, o1, o2, o3, o4⟩

/-- C15 from three items, the slice `[10, 20, 30]` and `NewSliceN(1, 4)`. -/
theorem C15_cap_at_least_len_witness :
    (∃ len cap,
      Map.Len (NewMap [NewTuple 1 10, NewTuple 2 20] (Heap.empty : Heap Nat Nat)).1
        (Map.applyOps (NewMap [NewTuple 1 10, NewTuple 2 20] (Heap.empty : Heap Nat Nat)).1
          [MapOp.set 3 30, .delete 1, .clear]
          (NewMap [NewTuple 1 10, NewTuple 2 20] (Heap.empty : Heap Nat Nat)).2).2
        = .ok len ∧
      Map.Cap (NewMap [NewTuple 1 10, NewTuple 2 20] (Heap.empty : Heap Nat Nat)).1
        (Map.applyOps (NewMap [NewTuple 1 10, NewTuple 2 20] (Heap.empty : Heap Nat Nat)).1
          [MapOp.set 3 30, .delete 1, .clear]
          (NewMap [NewTuple 1 10, NewTuple 2 20] (Heap.empty : Heap Nat Nat)).2).2
        = .ok cap ∧ len ≤ cap ∧
      Map.IsEmpty (NewMap [NewTuple 1 10, NewTuple 2 20] (Heap.empty : Heap Nat Nat)).1
        (Map.applyOps (NewMap [NewTuple 1 10, NewTuple 2 20] (Heap.empty : Heap Nat Nat)).1
          [MapOp.set 3 30, .delete 1, .clear]
          (NewMap [NewTuple 1 10, NewTuple 2 20] (Heap.empty : Heap Nat Nat)).2).2
        = .ok (decide (len = 0))) ∧
    (∃ len cap,
      (SafeMap.Len (NewSafeMap [NewTuple 1 10, NewTuple 2 20] (Heap.empty : Heap Nat Nat)).1
        (SafeMap.applyOps
          (NewSafeMap [NewTuple 1 10, NewTuple 2 20] (Heap.empty : Heap Nat Nat)).1
          [MapOp.set 3 30, .delete 1, .clear]
          (NewSafeMap [NewTuple 1 10, NewTuple 2 20] (Heap.empty : Heap Nat Nat)).2).2).1
        = .ok len ∧
      (SafeMap.Cap (NewSafeMap [NewTuple 1 10, NewTuple 2 20] (Heap.empty : Heap Nat Nat)).1
        (SafeMap.applyOps
          (NewSafeMap [NewTuple 1 10, NewTuple 2 20] (Heap.empty : Heap Nat Nat)).1
          [MapOp.set 3 30, .delete 1, .clear]
          (NewSafeMap [NewTuple 1 10, NewTuple 2 20] (Heap.empty : Heap Nat Nat)).2).2).1
        = .ok cap ∧ len ≤ cap ∧
      (SafeMap.IsEmpty (NewSafeMap [NewTuple 1 10, NewTuple 2 20] (Heap.empty : Heap Nat Nat)).1
        (SafeMap.applyOps
          (NewSafeMap [NewTuple 1 10, NewTuple 2 20] (Heap.empty : Heap Nat Nat)).1
          [MapOp.set 3 30, .delete 1, .clear]
          (NewSafeMap [NewTuple 1 10, NewTuple 2 20] (Heap.empty : Heap Nat Nat)).2).2).1
        = .ok (decide (len = 0))) ∧
    (∃ len cap,
      Slice.Len (NewSlice (some ⟨0, 0, 3, 3⟩) sliceHeap3).1
        (Slice.applyCalls (fun _ n => n) (NewSlice (some ⟨0, 0, 3, 3⟩) sliceHeap3).1
          [SliceCall.op (.delete 0), .appendSlice none, .op (.append 7)]
          (NewSlice (some ⟨0, 0, 3, 3⟩) sliceHeap3).2).2 = .ok len ∧
      Slice.Cap (NewSlice (some ⟨0, 0, 3, 3⟩) sliceHeap3).1
        (Slice.applyCalls (fun _ n => n) (NewSlice (some ⟨0, 0, 3, 3⟩) sliceHeap3).1
          [SliceCall.op (.delete 0), .appendSlice none, .op (.append 7)]
          (NewSlice (some ⟨0, 0, 3, 3⟩) sliceHeap3).2).2 = .ok cap ∧
      len ≤ cap ∧
      Slice.IsEmpty (NewSlice (some ⟨0, 0, 3, 3⟩) sliceHeap3).1
        (Slice.applyCalls (fun _ n => n) (NewSlice (some ⟨0, 0, 3, 3⟩) sliceHeap3).1
          [SliceCall.op (.delete 0), .appendSlice none, .op (.append 7)]
          (NewSlice (some ⟨0, 0, 3, 3⟩) sliceHeap3).2).2
        = .ok (decide (len = 0))) ∧
    (∃ p hn len cap, NewSliceN 1 4 sliceHeap3 = (.ok p, hn) ∧
      Slice.Len p (Slice.applyCalls (fun _ n => n) p
        [SliceCall.op (.delete 0), .appendSlice none, .op (.append 7)] hn).2 = .ok len ∧
      Slice.Cap p (Slice.applyCalls (fun _ n => n) p
        [SliceCall.op (.delete 0), .appendSlice none, .op (.append 7)] hn).2 = .ok cap ∧
      len ≤ cap ∧
      Slice.IsEmpty p (Slice.applyCalls (fun _ n => n) p
        [SliceCall.op (.delete 0), .appendSlice none, .op (.append 7)] hn).2
        = .ok (decide (len = 0))) :=
  C15_cap_at_least_len [NewTuple 1 10, NewTuple 2 20] Heap.empty
    [MapOp.set 3 30, .delete 1, .clear] (fun _ n => n) sliceHeap3 (some ⟨0, 0, 3, 3⟩)
    (fun s1 hs1 => by
      cases hs1
      exact ⟨[10, 20, 30], rfl, by decide, by decide⟩)
    1 4 (by decide) (by decide)
    [SliceCall.op (.delete 0), .appendSlice none, .op (.append 7)]

/-- C16, as stated, fails: after `NewSlice(10, 20, 30)` and a `Delete(0)` that
succeeds, `Len()` is 2 and `Cap()` is still 3. -/
theorem C16_cap_exceeds_len_after_delete :
    (Slice.applyOps (fun _ n => n) (NewSlice (some ⟨0, 0, 3, 3⟩) argHeap3).1
      [SliceOp.delete 0] (NewSlice (some ⟨0, 0, 3, 3⟩) argHeap3).2).1 = .ok () ∧
    Slice.Len (NewSlice (some ⟨0, 0, 3, 3⟩) argHeap3).1
      (Slice.applyOps (fun _ n => n) (NewSlice (some ⟨0, 0, 3, 3⟩) argHeap3).1
        [SliceOp.delete 0] (NewSlice (some ⟨0, 0, 3, 3⟩) argHeap3).2).2 = .ok 2 ∧
    Slice.Cap (NewSlice (some ⟨0, 0, 3, 3⟩) argHeap3).1
      (Slice.applyOps (fun _ n => n) (NewSlice (some ⟨0, 0, 3, 3⟩) argHeap3).1
        [SliceOp.delete 0] (NewSlice (some ⟨0, 0, 3, 3⟩) argHeap3).2).2 = .ok 3 ∧
    Slice.Cap (NewSlice (some ⟨0, 0, 3, 3⟩) argHeap3).1
      (Slice.applyOps (fun _ n => n) (NewSlice (some ⟨0, 0, 3, 3⟩) argHeap3).1
        [SliceOp.delete 0] (NewSlice (some ⟨0, 0, 3, 3⟩) argHeap3).2).2 ≠
    Slice.Len (NewSlice (some ⟨0, 0, 3, 3⟩) argHeap3).1
      (Slice.applyOps (fun _ n => n) (NewSlice (some ⟨0, 0, 3, 3⟩) argHeap3).1
        [SliceOp.delete 0] (NewSlice (some ⟨0, 0, 3, 3⟩) argHeap3).2).2 := by
  have hlen : Slice.Len (NewSlice (some ⟨0, 0, 3, 3⟩) argHeap3).1
      (Slice.applyOps (fun _ n => n) (NewSlice (some ⟨0, 0, 3, 3⟩) argHeap3).1
        [SliceOp.delete 0] (NewSlice (some ⟨0, 0, 3, 3⟩) argHeap3).2).2 = .ok 2 := rfl
  have hcap : Slice.Cap (NewSlice (some ⟨0, 0, 3, 3⟩) argHeap3).1
      (Slice.applyOps (fun _ n => n) (NewSlice (some ⟨0, 0, 3, 3⟩) argHeap3).1
        [SliceOp.delete 0] (NewSlice (some ⟨0, 0, 3, 3⟩) argHeap3).2).2 = .ok 3 := rfl
  refine ⟨rfl, hlen, hcap, ?_⟩
  rw [hlen, hcap]
  intro hc
  injection hc with hc
  exact absurd hc (by decide)

/-- C16, amended: for every `Map`, `Cap()` is `Len()` in every state. For a
`Slice` built by `NewSlice` from explicit elements and then mutated only
through `Set`, `Delete` and `Clear`, none of them failing, `Cap()` is `Len()`
plus the number of `Delete` calls made since the last `Clear`; so `Cap()` is
`Len()` as long as no `Delete` was made since the last `Clear`. -/
theorem C16_cap_is_len_plus_deletes
    {K W : Type} [GoKey K] (hm : Heap K W) (m : Ptr)
    {V : Type} [Inhabited V] (g : Growth) (hs : SliceHeap V) (vals : Option GoSlice)
    (hvals : hs.ValidArg vals) (hexp : ∀ s, vals = some s → s.len = s.cap)
    (ops : List (SliceOp V)) (hops : ∀ op ∈ ops, op.isSetDeleteClear = true)
    (hok : (Slice.applyOps g (NewSlice vals hs).1 ops (NewSlice vals hs).2).1 = .ok ()) :
    Map.Cap m hm = Map.Len m hm ∧
    ∃ len,
      Slice.Len (NewSlice vals hs).1
        (Slice.applyOps g (NewSlice vals hs).1 ops (NewSlice vals hs).2).2 = .ok len ∧
      Slice.Cap (NewSlice vals hs).1
        (Slice.applyOps g (NewSlice vals hs).1 ops (NewSlice vals hs).2).2 =
          .ok (len + deletesSinceClear 0 ops) ∧
      (deletesSinceClear 0 ops = 0 →
        Slice.Cap (NewSlice vals hs).1
          (Slice.applyOps g (NewSlice vals hs).1 ops (NewSlice vals hs).2).2 =
        Slice.Len (NewSlice vals hs).1
          (Slice.applyOps g (NewSlice vals hs).1 ops (NewSlice vals hs).2).2) := by
  refine ⟨rfl, ?_⟩
  have hinit : CapInv (NewSlice vals hs).2 (NewSlice vals hs).1 0 := by
    cases vals with
    | none =>
      refine ⟨⟨hs.arrays.length, 0, 0, 0⟩, [], ?_, ?_, by simp, by simp⟩
      · simp [SliceHeap.field, NewSlice, SliceHeap.make]
      · simp [NewSlice, SliceHeap.make]
    | some s0 =>
      obtain ⟨a, ha, hcap, -⟩ := hvals s0 rfl
      refine ⟨s0, a, by simp [SliceHeap.field, NewSlice], ha, hcap, ?_⟩
      rw [hexp s0 rfl]; rfl
  obtain ⟨s, a, hp, -, -, hn⟩ := capInv_applyOps g ops _ _ 0 hinit hops hok
  have hl : Slice.Len (NewSlice vals hs).1
      (Slice.applyOps g (NewSlice vals hs).1 ops (NewSlice vals hs).2).2 = .ok s.len := by
    simp [Slice.Len, hp]
  have hc : Slice.Cap (NewSlice vals hs).1
      (Slice.applyOps g (NewSlice vals hs).1 ops (NewSlice vals hs).2).2 =
        .ok (s.len + deletesSinceClear 0 ops) := by
    simp [Slice.Cap, hp, hn]
  refine ⟨s.len, hl, hc, ?_⟩
  intro h0
  rw [hl, hc, h0]
  rfl

/-- C16, amended, after `NewSlice(10, 20, 30)`, a `Delete`, a `Set` and
another `Delete`. -/
theorem C16_cap_is_len_plus_deletes_witness :
    Map.Cap 0 mapHeap2 = Map.Len 0 mapHeap2 ∧
    ∃ len,
      Slice.Len (NewSlice (some ⟨0, 0, 3, 3⟩) argHeap3).1
        (Slice.applyOps (fun _ n => n) (NewSlice (some ⟨0, 0, 3, 3⟩) argHeap3).1
          [SliceOp.delete 2, .set 1 7, .delete 0]
          (NewSlice (some ⟨0, 0, 3, 3⟩) argHeap3).2).2 = .ok len ∧
      Slice.Cap (NewSlice (some ⟨0, 0, 3, 3⟩) argHeap3).1
        (Slice.applyOps (fun _ n => n) (NewSlice (some ⟨0, 0, 3, 3⟩) argHeap3).1
          [SliceOp.delete 2, .set 1 7, .delete 0]
          (NewSlice (some ⟨0, 0, 3, 3⟩) argHeap3).2).2 =
          .ok (len + deletesSinceClear 0
            ([SliceOp.delete 2, .set 1 7, .delete 0] : List (SliceOp Nat))) ∧
      (deletesSinceClear 0
          ([SliceOp.delete 2, .set 1 7, .delete 0] : List (SliceOp Nat)) = 0 →
        Slice.Cap (NewSlice (some ⟨0, 0, 3, 3⟩) argHeap3).1
          (Slice.applyOps (fun _ n => n) (NewSlice (some ⟨0, 0, 3, 3⟩) argHeap3).1
            [SliceOp.delete 2, .set 1 7, .delete 0]
            (NewSlice (some ⟨0, 0, 3, 3⟩) argHeap3).2).2 =
        Slice.Len (NewSlice (some ⟨0, 0, 3, 3⟩) argHeap3).1
          (Slice.applyOps (fun _ n => n) (NewSlice (some ⟨0, 0, 3, 3⟩) argHeap3).1
            [SliceOp.delete 2, .set 1 7, .delete 0]
            (NewSlice (some ⟨0, 0, 3, 3⟩) argHeap3).2).2) :=
  C16_cap_is_len_plus_deletes mapHeap2 0 (fun _ n => n) argHeap3 (some ⟨0, 0, 3, 3⟩)
    (fun s1 hs1 => by
      cases hs1
      exact ⟨[10, 20, 30], rfl, by decide, by decide⟩)
    (fun s1 hs1 => by
      cases hs1
      rfl)
    [SliceOp.delete 2, .set 1 7, .delete 0]
    (by decide) rfl

/-! ## C18: Find -/

/-- C18: for every sequence of elements and every predicate that returns no
error, `Find` either returns the first element, in iteration order, that
satisfies the predicate, or returns `ErrNotFound`, and it returns
`ErrNotFound` if and only if no element satisfies the predicate. Over the
tuples of `[2, 3, 5, 6, 7, 8, 9, 0]`, `value == 6` gives the tuple holding 6
and `value == 42` gives `ErrNotFound`. -/
theorem C18_find_first_match {E : Type} (es : List E) (p : E → Bool) :
    ((∃ pre e post, es = pre ++ e :: post ∧ p e = true ∧ (∀ x ∈ pre, p x = false) ∧
        Find es (fun x => .ok (p x)) = .ok e) ∨
      ((∀ x ∈ es, p x = false) ∧ Find es (fun x => .ok (p x)) = .error ErrNotFound)) ∧
    (Find es (fun x => .ok (p x)) = .error ErrNotFound ↔ ∀ x ∈ es, p x = false) ∧
    Find (indexed 0 [2, 3, 5, 6, 7, 8, 9, 0]) (fun t => .ok (t.Value == (6 : Int))) =
      .ok (NewTuple 3 6) ∧
    Find (indexed 0 [2, 3, 5, 6, 7, 8, 9, 0]) (fun t => .ok (t.Value == (42 : Int))) =
      .error ErrNotFound := by
  have hmain : (∃ pre e post, es = pre ++ e :: post ∧ p e = true ∧
        (∀ x ∈ pre, p x = false) ∧ Find es (fun x => .ok (p x)) = .ok e) ∨
      ((∀ x ∈ es, p x = false) ∧ Find es (fun x => .ok (p x)) = .error ErrNotFound) := by
    induction es with
    | nil => exact Or.inr ⟨fun x hx => absurd hx (List.not_mem_nil x), rfl⟩
    | cons a es ih =>
      by_cases ha : p a = true
      · left
        refine ⟨[], a, es, rfl, ha, fun x hx => absurd hx (List.not_mem_nil x), ?_⟩
        simp [Find, ha]
      · have ha' : p a = false := by simpa using ha
        rcases ih with ⟨pre, e, post, hes, hpe, hpre, hfind⟩ | ⟨hall, hfind⟩
        · left
          refine ⟨a :: pre, e, post, by rw [hes]; rfl, hpe, ?_, ?_⟩
          · intro x hx
            rcases List.mem_cons.1 hx with hx | hx
            · rw [hx]; exact ha'
            · exact hpre x hx
          · simp only [Find, ha']
            exact hfind
        · right
          refine ⟨?_, ?_⟩
          · intro x hx
            rcases List.mem_cons.1 hx with hx | hx
            · rw [hx]; exact ha'
            · exact hall x hx
          · simp only [Find, ha']
            exact hfind
  refine ⟨hmain, ?_, rfl, rfl⟩
  constructor
  · intro hnf
    rcases hmain with ⟨pre, e, post, -, -, -, hfind⟩ | ⟨hall, -⟩
    · rw [hfind] at hnf
      exact absurd hnf (by simp)
    · exact hall
  · intro hall
    rcases hmain with ⟨pre, e, post, hes, hpe, -, -⟩ | ⟨-, hfind⟩
    · have := hall e (by rw [hes]; simp)
      rw [hpe] at this
      exact absurd this (by simp)
    · exact hfind

/-! ## C19: OrderBy -/

section SortLemmas

variable {V : Type}

theorem notGreater_total (comp : V → V → CompareResult) (hs : StrictWeakOrder comp)
    (a b : V) : comp a b ≠ CompareResult.Greater ∨ comp b a ≠ CompareResult.Greater := by
  obtain ⟨hflip, -, -, -⟩ := hs
  by_cases hab : comp a b = CompareResult.Greater
  · right
    rw [(hflip a b).1 hab]
    exact fun e => CompareResult.noConfusion e
  · exact Or.inl hab

theorem notGreater_trans (comp : V → V → CompareResult) (hs : StrictWeakOrder comp)
    (a b c : V) (hab : comp a b ≠ CompareResult.Greater)
    (hbc : comp b c ≠ CompareResult.Greater) : comp a c ≠ CompareResult.Greater := by
  obtain ⟨hflip, hirr, hlt, heq⟩ := hs
  intro hac
  have hca : comp c a = CompareResult.Less := (hflip a c).1 hac
  cases h1 : comp a b with
  | Greater => exact hab h1
  | Less =>
    cases h2 : comp b c with
    | Greater => exact hbc h2
    | Less =>
      have := hlt a b c h1 h2
      rw [this] at hac
      exact CompareResult.noConfusion hac
    | Equal =>
      have hcb : comp c b = CompareResult.Less := hlt c a b hca h1
      have := (hflip b c).2 hcb
      rw [this] at h2
      exact CompareResult.noConfusion h2
  | Equal =>
    cases h2 : comp b c with
    | Greater => exact hbc h2
    | Less =>
      have hba : comp b a = CompareResult.Less := hlt b c a h2 hca
      have := (hflip a b).2 hba
      rw [this] at h1
      exact CompareResult.noConfusion h1
    | Equal =>
      have := heq a b c h1 h2
      rw [this] at hac
      exact CompareResult.noConfusion hac

theorem equal_symm (comp : V → V → CompareResult) (hs : StrictWeakOrder comp)
    (a b : V) (h : comp a b = CompareResult.Equal) : comp b a = CompareResult.Equal := by
  obtain ⟨hflip, -, -, -⟩ := hs
  cases hba : comp b a with
  | Equal => rfl
  | Less =>
    have := (hflip a b).2 hba
    rw [this] at h
    exact CompareResult.noConfusion h
  | Greater =>
    have := (hflip b a).1 hba
    rw [this] at h
    exact CompareResult.noConfusion h

theorem sortStable_spec (comp : V → V → CompareResult) (hs : StrictWeakOrder comp)
    (vs : List V) :
    (sortStable comp vs).Perm vs ∧
      (sortStable comp vs).Pairwise (fun a b => comp a b ≠ CompareResult.Greater) ∧
      (∀ x, (sortStable comp vs).filter (fun y => decide (comp x y = CompareResult.Equal)) =
        vs.filter (fun y => decide (comp x y = CompareResult.Equal))) ∧
      ∀ a b, comp a b = CompareResult.Equal → List.Sublist [a, b] vs →
        List.Sublist [a, b] (sortStable comp vs) := by
  haveI : IsTotal V (fun a b => comp a b ≠ CompareResult.Greater) :=
    ⟨notGreater_total comp hs⟩
  haveI : IsTrans V (fun a b => comp a b ≠ CompareResult.Greater) :=
    ⟨notGreater_trans comp hs⟩
  have hperm : (sortStable comp vs).Perm vs := List.perm_insertionSort _ vs
  refine ⟨hperm, List.sorted_insertionSort _ vs, ?_, ?_⟩
  · intro x
    have hpair : (vs.filter (fun y => decide (comp x y = CompareResult.Equal))).Pairwise
        (fun a b => comp a b ≠ CompareResult.Greater) := by
      rw [List.pairwise_iff_forall_sublist]
      intro a b hab
      have ha : a ∈ vs.filter (fun y => decide (comp x y = CompareResult.Equal)) :=
        hab.subset (by simp)
      have hb : b ∈ vs.filter (fun y => decide (comp x y = CompareResult.Equal)) :=
        hab.subset (by simp)
      have hxa : comp x a = CompareResult.Equal := by simpa using (List.mem_filter.1 ha).2
      have hxb : comp x b = CompareResult.Equal := by simpa using (List.mem_filter.1 hb).2
      have heq : comp a b = CompareResult.Equal :=
        hs.2.2.2 a x b (equal_symm comp hs x a hxa) hxb
      rw [heq]
      exact fun e => CompareResult.noConfusion e
    have hsub : List.Sublist (vs.filter (fun y => decide (comp x y = CompareResult.Equal)))
        (sortStable comp vs) :=
      List.sublist_insertionSort hpair (List.filter_sublist vs)
    have hsub2 := hsub.filter (fun y => decide (comp x y = CompareResult.Equal))
    rw [List.filter_filter] at hsub2
    simp only [Bool.and_self] at hsub2
    have hlen := (hperm.filter (fun y => decide (comp x y = CompareResult.Equal))).length_eq
    exact (hsub2.eq_of_length hlen.symm).symm
  · intro a b hab hsub
    exact List.pair_sublist_insertionSort (r := fun a b => comp a b ≠ CompareResult.Greater)
      (by show comp a b ≠ CompareResult.Greater
          rw [hab]; exact fun e => CompareResult.noConfusion e) hsub

theorem numericComparator_less (a b : Int) :
    NumericComparator a b = CompareResult.Less ↔ a < b := by
  unfold NumericComparator
  by_cases h1 : a < b
  · simp [h1]
  · by_cases h2 : b < a <;> simp [h1, h2]

theorem numericComparator_greater (a b : Int) :
    NumericComparator a b = CompareResult.Greater ↔ b < a := by
  unfold NumericComparator
  by_cases h1 : a < b
  · have h2 : ¬ b < a := by omega
    simp [h1, h2]
  · by_cases h2 : b < a <;> simp [h1, h2]

theorem numericComparator_equal (a b : Int) :
    NumericComparator a b = CompareResult.Equal ↔ a = b := by
  unfold NumericComparator
  by_cases h1 : a < b
  · have h2 : ¬ a = b := by omega
    simp [h1, h2]
  · by_cases h2 : b < a
    · have h3 : ¬ a = b := by omega
      simp [h1, h2, h3]
    · have h3 : a = b := by omega
      simp [h1, h2, h3]

theorem numericComparator_strictWeak : StrictWeakOrder NumericComparator := by
  refine ⟨?_, ?_, ?_, ?_⟩
  · intro a b
    rw [numericComparator_greater, numericComparator_less]
  · intro a
    rw [Ne, numericComparator_less]
    omega
  · intro a b c
    rw [numericComparator_less, numericComparator_less, numericComparator_less]
    omega
  · intro a b c
    rw [numericComparator_equal, numericComparator_equal, numericComparator_equal]
    omega

theorem strictWeakOrder_comap {W : Type} (f : W → V) (comp : V → V → CompareResult)
    (hs : StrictWeakOrder comp) : StrictWeakOrder (fun a b => comp (f a) (f b)) :=
  ⟨fun a b => hs.1 (f a) (f b), fun a => hs.2.1 (f a),
    fun a b c => hs.2.2.1 (f a) (f b) (f c), fun a b c => hs.2.2.2 (f a) (f b) (f c)⟩

theorem compareFirst_strictWeak : StrictWeakOrder compareFirst :=
  strictWeakOrder_comap Prod.fst NumericComparator numericComparator_strictWeak

end SortLemmas

/-- C19: for every ordered collection `c` (a `Slice`, a `ForwardLinkedList` or
a `DoubleLinkedList`) with values `vs` and every comparator that is a strict
weak ordering, `OrderBy` returns a new collection of the dynamic type of `c`
whose values are a permutation of `vs`, in non-decreasing comparator order
(no value is Greater than a later one), with values that compare Equal kept
in their original relative order: the values Equal to any one value follow
one another in the result as they do in `vs`. On the list of the test, built
by appending 1, 4, 2, 3, 5, the ascending numeric comparator gives a
`ForwardLinkedList` with the values `[1, 2, 3, 4, 5]`. -/
theorem C19_orderBy_sorts_stably {K V : Type} [GoKey K] [Inhabited V]
    (comp : V → V → CompareResult) (hswo : StrictWeakOrder comp) (ρ : RangeOrder K V)
    (w : World K V) (c : Collection) (vs : List V) (hv : w.valuesOf c = some vs) :
    (∃ c2 w1 sorted, OrderBy ρ c comp w = (.ok c2, w1) ∧
      c2.dynType = c.dynType ∧ c2 ≠ c ∧
      w1.valuesOf c2 = some sorted ∧
      sorted.Perm vs ∧
      sorted.Pairwise (fun a b => comp a b ≠ CompareResult.Greater) ∧
      (∀ x, sorted.filter (fun y => decide (comp x y = CompareResult.Equal)) =
        vs.filter (fun y => decide (comp x y = CompareResult.Equal))) ∧
      (∀ a b, comp a b = CompareResult.Equal → List.Sublist [a, b] vs →
        List.Sublist [a, b] sorted)) ∧
    (ForwardLinkedList.Values 0 testWorld.lists = .ok [1, 4, 2, 3, 5] ∧
      (OrderBy RangeOrder.id (ForwardLinkedList.AsCollection 0) NumericComparator
        testWorld).1 = .ok (.ofForwardLinkedList 1) ∧
      AsForwardLinkedList (.ofForwardLinkedList 1) = .ok 1 ∧
      ForwardLinkedList.Values 1
        (OrderBy RangeOrder.id (ForwardLinkedList.AsCollection 0) NumericComparator
          testWorld).2.lists = .ok [1, 2, 3, 4, 5]) := by
  obtain ⟨hperm, hsorted, hstable, hpairs⟩ := sortStable_spec comp hswo vs
  refine ⟨?_, rfl, rfl, rfl, rfl⟩
  cases c with
  | ofMap p => simp [World.valuesOf] at hv
  | ofSafeMap p => simp [World.valuesOf] at hv
  | ofSlice p =>
    cases hc : w.slices.field p with
    | none => simp [World.valuesOf, Slice.Values, hc] at hv
    | some s =>
      have hr : w.slices.read s = some vs := by
        simpa [World.valuesOf, Slice.Values, hc] using hv
      have hcl := field_lt w.slices p s hc
      refine ⟨.ofSlice w.slices.slices.length,
        { w with slices := ⟨w.slices.arrays ++ [sortStable comp vs], w.slices.slices ++
          [⟨w.slices.arrays.length, 0, (sortStable comp vs).length,
            (sortStable comp vs).length⟩]⟩ },
        sortStable comp vs, ?_, rfl, ?_, ?_, hperm, hsorted, hstable, hpairs⟩
      · simp [OrderBy, Slice.Values, hc, hr, Slice.FactoryFrom, NewSlice]
      · intro e
        have : w.slices.slices.length = p := Collection.ofSlice.inj e
        exact absurd hcl (by rw [← this]; exact Nat.lt_irrefl _)
      · simp [World.valuesOf, Slice.Values, SliceHeap.field, SliceHeap.read]
  | ofForwardLinkedList p =>
    cases hc : w.lists.forward[p]? with
    | none => simp [World.valuesOf, ForwardLinkedList.Values, hc] at hv
    | some l =>
      have hl : l = vs := by
        simpa [World.valuesOf, ForwardLinkedList.Values, hc] using hv
      subst hl
      have hcl : p < w.lists.forward.length := by
        by_contra hge
        rw [List.getElem?_eq_none (Nat.le_of_not_lt hge)] at hc
        exact absurd hc (by simp)
      refine ⟨.ofForwardLinkedList w.lists.forward.length,
        { w with lists := { w.lists with forward := w.lists.forward ++ [sortStable comp l] } },
        sortStable comp l, ?_, rfl, ?_, ?_, hperm, hsorted, hstable, hpairs⟩
      · simp [OrderBy, ForwardLinkedList.Values, hc, ForwardLinkedList.FactoryFrom,
          NewForwardLinkedList]
      · intro e
        have : w.lists.forward.length = p := Collection.ofForwardLinkedList.inj e
        exact absurd hcl (by rw [← this]; exact Nat.lt_irrefl _)
      · simp [World.valuesOf, ForwardLinkedList.Values]
  | ofDoubleLinkedList p =>
    cases hc : w.lists.double[p]? with
    | none => simp [World.valuesOf, DoubleLinkedList.Values, hc] at hv
    | some l =>
      have hl : l = vs := by
        simpa [World.valuesOf, DoubleLinkedList.Values, hc] using hv
      subst hl
      have hcl : p < w.lists.double.length := by
        by_contra hge
        rw [List.getElem?_eq_none (Nat.le_of_not_lt hge)] at hc
        exact absurd hc (by simp)
      refine ⟨.ofDoubleLinkedList w.lists.double.length,
        { w with lists := { w.lists with double := w.lists.double ++ [sortStable comp l] } },
        sortStable comp l, ?_, rfl, ?_, ?_, hperm, hsorted, hstable, hpairs⟩
      · simp [OrderBy, DoubleLinkedList.Values, hc, DoubleLinkedList.FactoryFrom,
          NewDoubleLinkedList]
      · intro e
        have : w.lists.double.length = p := Collection.ofDoubleLinkedList.inj e
        exact absurd hcl (by rw [← this]; exact Nat.lt_irrefl _)
      · simp [World.valuesOf, DoubleLinkedList.Values]

/-- C19 on the `ForwardLinkedList` holding the pairs
`(2, 0), (1, 1), (2, 2), (1, 3)`, compared by their first component: `(2, 0)`
and `(2, 2)` compare Equal, as do `(1, 1)` and `(1, 3)`. The result holds
`(1, 1), (1, 3), (2, 0), (2, 2)`. -/
theorem C19_orderBy_sorts_stably_witness :
    ((∃ c2 w1 sorted,
        OrderBy RangeOrder.id (Collection.ofForwardLinkedList 0) compareFirst pairWorld =
          (.ok c2, w1) ∧
      c2.dynType = (Collection.ofForwardLinkedList 0).dynType ∧
      c2 ≠ Collection.ofForwardLinkedList 0 ∧
      w1.valuesOf c2 = some sorted ∧
      sorted.Perm [(2, 0), (1, 1), (2, 2), (1, 3)] ∧
      sorted.Pairwise (fun a b => compareFirst a b ≠ CompareResult.Greater) ∧
      (∀ x, sorted.filter (fun y => decide (compareFirst x y = CompareResult.Equal)) =
        [(2, 0), (1, 1), (2, 2), (1, 3)].filter
          (fun y => decide (compareFirst x y = CompareResult.Equal))) ∧
      (∀ a b, compareFirst a b = CompareResult.Equal →
        List.Sublist [a, b] [(2, 0), (1, 1), (2, 2), (1, 3)] →
        List.Sublist [a, b] sorted)) ∧
    (ForwardLinkedList.Values 0 testWorld.lists = .ok [1, 4, 2, 3, 5] ∧
      (OrderBy RangeOrder.id (ForwardLinkedList.AsCollection 0) NumericComparator
        testWorld).1 = .ok (.ofForwardLinkedList 1) ∧
      AsForwardLinkedList (.ofForwardLinkedList 1) = .ok 1 ∧
      ForwardLinkedList.Values 1
        (OrderBy RangeOrder.id (ForwardLinkedList.AsCollection 0) NumericComparator
          testWorld).2.lists = .ok [1, 2, 3, 4, 5])) ∧
    compareFirst (2, 0) (2, 2) = CompareResult.Equal ∧
    (OrderBy RangeOrder.id (Collection.ofForwardLinkedList 0) compareFirst pairWorld).2.valuesOf
        (Collection.ofForwardLinkedList 1) = some [(1, 1), (1, 3), (2, 0), (2, 2)] ∧
    (OrderBy RangeOrder.id (Collection.ofDoubleLinkedList 0) compareFirst pairWorld).2.valuesOf
        (Collection.ofDoubleLinkedList 1) = some [(1, 1), (1, 3), (2, 0), (2, 2)] ∧
    (OrderBy RangeOrder.id (Collection.ofSlice 0) compareFirst pairWorld).2.valuesOf
        (Collection.ofSlice 1) = some [(1, 1), (1, 3), (2, 0), (2, 2)] :=
  ⟨C19_orderBy_sorts_stably compareFirst compareFirst_strictWeak RangeOrder.id pairWorld
    (Collection.ofForwardLinkedList 0) [(2, 0), (1, 1), (2, 2), (1, 3)] rfl,
    by decide, by decide, by decide, by decide⟩

/-! ## C20: the dynamic type of what SafeMap returns -/

/-- C20: for every `SafeMap` (whose mutex is free), `Clone()` returns a
collection whose dynamic type is the plain `Map`: `AsMap` of it succeeds and
`AsSafeMap` of it panics. `Factory()` and `AsCollection()` return a
collection whose dynamic type is `SafeMap`. -/
theorem C20_safeMap_clone_is_plain_map {K V : Type} [GoKey K]
    (ρ : RangeOrder K V) (h : Heap K V) (sm : Ptr) (o : SafeMapObj) (tbs : GoMap K V)
    (hsm : h.safeMaps[sm]? = some o) (hfree : o.lock = false)
    (hts : h.table o.m = some tbs) :
    (∃ c h1 p, SafeMap.Clone ρ sm h = (.ok c, h1) ∧ AsMap c = .ok p ∧
      AsSafeMap c = .error (.panicMsg "interface conversion")) ∧
    (∃ c q, (SafeMap.Factory sm h).1 = .ok c ∧ AsSafeMap c = .ok q ∧
      AsMap c = .error (.panicMsg "interface conversion")) ∧
    AsSafeMap (SafeMap.AsCollection sm) = .ok sm ∧
    AsMap (SafeMap.AsCollection sm) = .error (.panicMsg "interface conversion") := by
  obtain ⟨p, h3, hclone, -⟩ := safeClone_spec ρ h sm o tbs hsm hfree hts
  exact ⟨⟨.ofMap p, h3, p, hclone, rfl, rfl⟩, ⟨_, _, rfl, rfl, rfl⟩, rfl, rfl⟩

/-- C20 on the `SafeMap` holding `{1: 10, 2: 20}`. -/
theorem C20_safeMap_clone_is_plain_map_witness :
    (∃ c h1 p, SafeMap.Clone RangeOrder.id 0 mapHeap2 = (.ok c, h1) ∧ AsMap c = .ok p ∧
      AsSafeMap c = .error (.panicMsg "interface conversion")) ∧
    (∃ c q, (SafeMap.Factory 0 mapHeap2).1 = .ok c ∧ AsSafeMap c = .ok q ∧
      AsMap c = .error (.panicMsg "interface conversion")) ∧
    AsSafeMap (SafeMap.AsCollection 0) = .ok 0 ∧
    AsMap (SafeMap.AsCollection 0) = .error (.panicMsg "interface conversion") :=
  C20_safeMap_clone_is_plain_map RangeOrder.id mapHeap2 0 ⟨0, false⟩ table2 rfl rfl rfl

end GoColl
